import Mathlib

/-!
# sse-example: Event Broker and Presence Hub

A shallow embedding of `src/sse-gin.go`.

* Go maps are association lists (namespace `AL`); a list is a valid map when its keys
  are pairwise distinct (`AL.WF`). The order of the entries stands for the (unspecified)
  iteration order of `range`; no theorem below depends on it.
* A channel is a reference; it is represented by a natural number (its identity).
  Channel references are those returned by `make`.
* The Broker (`EventBroker.Listen`) is modelled in two layers. `Listen` gives the index
  after a request and the send statements `cn.Chan <- e` that the request executes, in
  program order. `ListenStep` runs the request on the index and on the state of the
  outbox channels, with the Go semantics of the blocking send: a send on a closed outbox
  panics, and a send on an outbox that can take no more (no waiting reader, no room in
  the buffer; also a nil channel) blocks, so that the step does not complete.
* The Hub (`EventHub.Manage`) is a step function on the groups map and on the state of
  the notify channels; `close` and the non-blocking send follow the Go semantics
  (closing a closed channel and sending on a closed channel panic).
-/

namespace SSE

set_option linter.unusedSectionVars false

/-! ## Go maps -/

namespace AL

variable {K V : Type} [DecidableEq K]

/-- Keys of an association list, in order. -/
def keys (l : List (K × V)) : List K := l.map Prod.fst

/-- Lookup `m[k]` with the comma-ok result. -/
def get? : List (K × V) → K → Option V
  | [], _ => none
  | (k', v) :: r, k => if k' = k then some v else get? r k

/-- Assignment `m[k] = v`: overwrite the entry of `k` in place, or add a new entry. -/
def set : List (K × V) → K → V → List (K × V)
  | [], k, v => [(k, v)]
  | (k', v') :: r, k, v => if k' = k then (k, v) :: r else (k', v') :: set r k v

/-- The builtin `delete(m, k)`. -/
def del : List (K × V) → K → List (K × V)
  | [], _ => []
  | (k', v') :: r, k => if k' = k then del r k else (k', v') :: del r k

/-- Well-formedness of a Go map: no key occurs twice. -/
def WF (l : List (K × V)) : Prop := (keys l).Nodup

end AL

/-! ## Event Broker -/

/-- Go: `type Connection[T comparable] struct { Target T; Chan chan Event[T] }`.
`Chan` is the identity of the channel. -/
structure Connection (T : Type) where
  Target : T
  Chan : Nat
deriving DecidableEq, Repr

/-- Go: `type Event[T comparable] struct { Type; Targets []T; Payload json.RawMessage }`.
The payload is a byte string that the core never inspects. -/
structure Event (T : Type) where
  Typ : String
  Targets : List T
  Payload : List Nat
deriving DecidableEq, Repr

/-- A bucket, Go type `map[Connection[T]]bool`. -/
abbrev Bucket (T : Type) := List (Connection T × Bool)

/-- The Broker index `clients`, Go type `map[T]map[Connection[T]]bool`. -/
abbrev Index (T : Type) := List (T × Bucket T)

/-- One send statement `cn.Chan <- e` of the loop of `SendEventTo`: the connection `cn`
of the loop iteration (its field `Chan` is the channel written to) and the event. What
the statement does to the channel is given by `chanSend`. -/
structure Send (T : Type) where
  conn : Connection T
  event : Event T
deriving DecidableEq, Repr

/-- A request taken by the `select` of `Listen` from one of the three channels. -/
inductive BrokerReq (T : Type) where
  | newClients (c : Connection T)
  | closingClients (c : Connection T)
  | Notifier (e : Event T)
deriving DecidableEq, Repr

section Broker

variable {T : Type} [DecidableEq T]

/-- The send statements that `EventBroker.SendEventTo` executes for `target`, in order:
one per connection of the bucket of `target`, none when the bucket does not exist. The
function with the channels is `SendEventTo`. -/
def sendsTo (clients : Index T) (target : T) (e : Event T) : List (Send T) :=
  match AL.get? clients target with
  | some cm => (AL.keys cm).map (fun cn => ⟨cn, e⟩)
  | none => []

/-- The statement `delete(b.clients[c.Target], c)`: indexing an absent key yields the nil
map, on which `delete` does nothing. -/
def deleteConn (clients : Index T) (c : Connection T) : Index T :=
  match AL.get? clients c.Target with
  | some cm => AL.set clients c.Target (AL.del cm c)
  | none => clients

/-- The expression `len(b.clients[target])`; the nil map has length 0. -/
def bucketLen (clients : Index T) (target : T) : Nat :=
  match AL.get? clients target with
  | some cm => cm.length
  | none => 0

/-- The index layer of one iteration of the loop of `EventBroker.Listen`: the index after
the request, and the send statements that the request executes, in program order. A send
statement may panic or block; the iteration with the outbox channels is `ListenStep`. -/
def Listen (clients : Index T) : BrokerReq T → Index T × List (Send T)
  | .newClients c =>
    match AL.get? clients c.Target with
    | none => (AL.set clients c.Target [(c, true)], [])
    | some cm => (AL.set clients c.Target (AL.set cm c true), [])
  | .closingClients c =>
    let clients1 := deleteConn clients c
    if bucketLen clients1 c.Target = 0 then (AL.del clients1 c.Target, [])
    else (clients1, [])
  | .Notifier e => (clients, e.Targets.flatMap (fun target => sendsTo clients target e))

/-- The index after a sequence of requests, each processed to the end, from `clients`. -/
def runBroker (clients : Index T) : List (BrokerReq T) → Index T
  | [] => clients
  | r :: rs => runBroker (Listen clients r).1 rs

/-- The connection `c` is stored in the bucket keyed `k`. -/
def InBucket (clients : Index T) (k : T) (c : Connection T) : Prop :=
  ∃ cm, AL.get? clients k = some cm ∧ c ∈ AL.keys cm

/-- The connection `c` is registered: it is stored in some bucket. -/
def Registered (clients : Index T) (c : Connection T) : Prop :=
  ∃ k, InBucket clients k c

/-- Validity of the index as a Go value: keys are unique, in the index and in each bucket. -/
def IndexWF (clients : Index T) : Prop :=
  AL.WF clients ∧ ∀ kb ∈ clients, AL.WF kb.2

/-- Every connection stored in the bucket keyed `k` has `Target = k`. -/
def TargetKeyed (clients : Index T) : Prop :=
  ∀ kb ∈ clients, ∀ cv ∈ kb.2, cv.1.Target = kb.1

/-- No bucket of the index is empty. -/
def NoEmptyBucket (clients : Index T) : Prop :=
  ∀ kb ∈ clients, kb.2 ≠ []

/-- Every stored value of every bucket is `true` (the only value that `Listen` writes). -/
def AllTrue (clients : Index T) : Prop :=
  ∀ kb ∈ clients, ∀ cv ∈ kb.2, cv.2 = true

/-- Outboxes are private: two registered connections with the same channel are equal. -/
def PrivateOutbox (clients : Index T) : Prop :=
  ∀ c d, Registered clients c → Registered clients d → c.Chan = d.Chan → c = d

end Broker

/-- Scenario A of the spec: `C1` registered under "u1" and `C2` under "u2". -/
def scenarioA : Index String :=
  runBroker [] [.newClients ⟨"u1", 1⟩, .newClients ⟨"u2", 2⟩]

/-- The event `{type: "ping", targets: ["u1"]}`. -/
def ping : Event String := ⟨"ping", ["u1"], []⟩

/-- An event that names the target "u1" twice. -/
def pingTwice : Event String := ⟨"ping", ["u1", "u1"], []⟩

/-! ## Presence Hub -/

/-- Go: `type Entity[T comparable] struct { Id T; Meta any }`. -/
structure Entity (X M : Type) where
  Id : X
  Meta : M
deriving DecidableEq, Repr

/-- Go: `type Presence[T, X comparable] struct { Target T; Entity Entity[X];
Online chan []Entity[X] }`. `Online` is the identity of the notify channel. -/
structure Presence (T X M : Type) where
  Target : T
  Entity : Entity X M
  Online : Nat
deriving DecidableEq, Repr

/-- A roster, Go type `map[X]Presence[T, X]`. -/
abbrev Roster (T X M : Type) := List (X × Presence T X M)

/-- The Hub state `groups`, Go type `map[T]map[X]Presence[T, X]`. -/
abbrev Groups (T X M : Type) := List (T × Roster T X M)

/-- The state of one channel of type `chan []Entity[X]`: whether it has been closed, its
capacity, the buffered values (oldest first) and the number of receivers blocked on it. -/
structure ChanState (X M : Type) where
  closed : Bool
  cap : Nat
  buf : List (List (Entity X M))
  recvq : Nat
deriving DecidableEq, Repr

/-- The state of all notify channels, by channel identity. -/
abbrev Chans (X M : Type) := Nat → ChanState X M

/-- The run-time panics of the channel operations used by the Hub. -/
inductive Panic where
  | closeOfClosedChannel
  | sendOnClosedChannel
deriving DecidableEq, Repr

/-- A roster snapshot that a notify channel accepted. -/
structure Delivery (X M : Type) where
  chan : Nat
  roster : List (Entity X M)
deriving DecidableEq, Repr

/-- The state owned by `Manage` together with the channels it acts on. -/
structure HubState (T X M : Type) where
  groups : Groups T X M
  chans : Chans X M

/-- A request taken by the `select` of `Manage` from one of the two channels. -/
inductive HubReq (T X M : Type) where
  | newClients (p : Presence T X M)
  | closingClients (p : Presence T X M)
deriving DecidableEq, Repr

section Hub

variable {T X M : Type} [DecidableEq T] [DecidableEq X]

/-- Go builtin `close(ch)`: panics on a closed channel; otherwise the channel becomes
closed and the blocked receivers are released. -/
def closeChan (chans : Chans X M) (ch : Nat) : Except Panic (Chans X M) :=
  if (chans ch).closed then .error .closeOfClosedChannel
  else .ok (Function.update chans ch { chans ch with closed := true, recvq := 0 })

/-- The channel can take a value without blocking: a receiver is waiting or the buffer
has room. -/
def ChanState.canAccept (c : ChanState X M) : Bool :=
  decide (0 < c.recvq) || decide (c.buf.length < c.cap)

/-- The channel after it took the value `v`: handed to a waiting receiver, else buffered. -/
def ChanState.accept (c : ChanState X M) (v : List (Entity X M)) : ChanState X M :=
  if 0 < c.recvq then { c with recvq := c.recvq - 1 } else { c with buf := c.buf ++ [v] }

/-- Go: `select { case ch <- v: default: }`. Panics on a closed channel; sends when the
channel can accept; otherwise takes the `default` branch and leaves the channel as it is.
The Boolean tells whether the value was sent. -/
def trySend (chans : Chans X M) (ch : Nat) (v : List (Entity X M)) :
    Except Panic (Chans X M × Bool) :=
  if (chans ch).closed then .error .sendOnClosedChannel
  else if (chans ch).canAccept then .ok (Function.update chans ch ((chans ch).accept v), true)
  else .ok (chans, false)

/-- First loop of `UpdateConnections`: the slice `entities`, one element per member. -/
def rosterEntities (g : Roster T X M) : List (Entity X M) :=
  g.map (fun kp => kp.2.Entity)

/-- Second loop of `UpdateConnections`, over the members `ps`: the non-blocking send
of `entities` to each member. Returns the channels and the deliveries made. -/
def offerAll (entities : List (Entity X M)) :
    Chans X M → List (Presence T X M) → Except Panic (Chans X M × List (Delivery X M))
  | chans, [] => .ok (chans, [])
  | chans, p :: ps =>
    match trySend chans p.Online entities with
    | .error err => .error err
    | .ok (chans1, sent) =>
      match offerAll entities chans1 ps with
      | .error err => .error err
      | .ok (chans2, log) =>
        .ok (chans2, if sent then ⟨p.Online, entities⟩ :: log else log)

/-- Go: `EventHub.UpdateConnections`. -/
def UpdateConnections (chans : Chans X M) (g : Roster T X M) :
    Except Panic (Chans X M × List (Delivery X M)) :=
  offerAll (rosterEntities g) chans (g.map Prod.snd)

/-- The statement `delete(h.groups[p.Target], p.Entity.Id)`; on the nil map `delete` does
nothing. -/
def deleteEntity (groups : Groups T X M) (p : Presence T X M) : Groups T X M :=
  match AL.get? groups p.Target with
  | some g => AL.set groups p.Target (AL.del g p.Entity.Id)
  | none => groups

/-- The expression `h.groups[target]`; an absent key yields the nil map. -/
def groupOf (groups : Groups T X M) (target : T) : Roster T X M :=
  match AL.get? groups target with
  | some g => g
  | none => []

/-- Go: one iteration of the loop of `EventHub.Manage`: the new state and the deliveries
made while the request is processed, or the panic that stops the program. -/
def Manage (s : HubState T X M) :
    HubReq T X M → Except Panic (HubState T X M × List (Delivery X M))
  | .newClients p =>
    match AL.get? s.groups p.Target with
    | none => .ok (⟨AL.set s.groups p.Target [(p.Entity.Id, p)], s.chans⟩, [])
    | some g =>
      match AL.get? g p.Entity.Id with
      | none =>
        let g1 := AL.set g p.Entity.Id p
        match UpdateConnections s.chans g1 with
        | .error err => .error err
        | .ok (chans1, log) => .ok (⟨AL.set s.groups p.Target g1, chans1⟩, log)
      | some oc =>
        match closeChan s.chans oc.Online with
        | .error err => .error err
        | .ok chans1 =>
          let g1 := AL.set (AL.del g p.Entity.Id) p.Entity.Id p
          match UpdateConnections chans1 g1 with
          | .error err => .error err
          | .ok (chans2, log) => .ok (⟨AL.set s.groups p.Target g1, chans2⟩, log)
  | .closingClients p =>
    let groups1 := deleteEntity s.groups p
    if (groupOf groups1 p.Target).length = 0 then
      .ok (⟨AL.del groups1 p.Target, s.chans⟩, [])
    else
      match UpdateConnections s.chans (groupOf groups1 p.Target) with
      | .error err => .error err
      | .ok (chans1, log) => .ok (⟨groups1, chans1⟩, log)

/-- Run `Manage` over a sequence of requests; a panic stops the run. -/
def runHub (s : HubState T X M) : List (HubReq T X M) → Except Panic (HubState T X M)
  | [] => .ok s
  | r :: rs =>
    match Manage s r with
    | .error err => .error err
    | .ok (s1, _) => runHub s1 rs

/-- The Hub before any request: no group; every channel open and empty, capacity `cap`. -/
def emptyHub (cap : Nat) : HubState T X M :=
  ⟨[], fun _ => ⟨false, cap, [], 0⟩⟩

end Hub

section HubPredicates

variable {T X M : Type}

/-- The registration `q` is stored under the entity id `k` in the roster of group `G`. -/
def Member (groups : Groups T X M) (G : T) (k : X) (q : Presence T X M) : Prop :=
  ∃ g, (G, g) ∈ groups ∧ (k, q) ∈ g

/-- Validity of the groups map as a Go value: keys are unique, in the map and in each
roster. -/
def GroupsWF (groups : Groups T X M) : Prop :=
  AL.WF groups ∧ ∀ Gg ∈ groups, AL.WF Gg.2

/-- The notify slots of the `AddClient` requests of a sequence, in order of submission. -/
def addSlots : List (HubReq T X M) → List Nat
  | [] => []
  | .newClients p :: rs => p.Online :: addSlots rs
  | .closingClients _ :: rs => addSlots rs

/-- The invariant of the Hub under fresh slots. `pending` are the slots of the joins yet
to come. Every member has an open slot, different members have different slots, and the
pending slots are pairwise different, open and not the slot of a member. -/
def HubInv (s : HubState T X M) (pending : List Nat) : Prop :=
  GroupsWF s.groups ∧
  (∀ G k q, Member s.groups G k q → (s.chans q.Online).closed = false) ∧
  (∀ G k q G' k' q', Member s.groups G k q → Member s.groups G' k' q' →
      q.Online = q'.Online → G = G' ∧ k = k') ∧
  pending.Nodup ∧
  (∀ ch ∈ pending, (s.chans ch).closed = false ∧
      ∀ G k q, Member s.groups G k q → q.Online ≠ ch)

/-- Every registration is stored under its own entity id, in the roster of its own
group. -/
def RosterKeyed (groups : Groups T X M) : Prop :=
  ∀ Gg ∈ groups, ∀ kq ∈ Gg.2, kq.2.Entity.Id = kq.1 ∧ kq.2.Target = Gg.1

/-- No group of the groups map has an empty roster. -/
def NoEmptyRoster (groups : Groups T X M) : Prop :=
  ∀ Gg ∈ groups, Gg.2 ≠ []

end HubPredicates

/-- Scenario C of the spec: the first registration of entity "a" in "room1" (slot 1). -/
def pa1 : Presence String String Unit := ⟨"room1", ⟨"a", ()⟩, 1⟩

/-- Scenario C of the spec: the second registration of entity "a" in "room1" (slot 2). -/
def pa2 : Presence String String Unit := ⟨"room1", ⟨"a", ()⟩, 2⟩

/-- A registration of entity "b" in "room1" (slot 3). -/
def pb : Presence String String Unit := ⟨"room1", ⟨"b", ()⟩, 3⟩

/-- The Hub after `pa1` joined from the empty Hub, all slots of capacity 1. -/
def hubA : HubState String String Unit :=
  ⟨[("room1", [("a", pa1)])], fun _ => ⟨false, 1, [], 0⟩⟩

/-- A registration of entity "b" in "room1" that carries slot 1, the slot of `pa1`. -/
def pbStale : Presence String String Unit := ⟨"room1", ⟨"b", ()⟩, 1⟩

/-- A registration of entity "a" in "room2" that carries slot 1, the slot of `pa1`. -/
def qa : Presence String String Unit := ⟨"room2", ⟨"a", ()⟩, 1⟩

/-- A registration of entity "c" in "room2" (slot 3). -/
def qc : Presence String String Unit := ⟨"room2", ⟨"c", ()⟩, 3⟩

/-- The Hub with "a" and "b" in "room1", empty open slots of capacity 1. -/
def hubAB : HubState String String Unit :=
  ⟨[("room1", [("a", pa1), ("b", pb)])], fun _ => ⟨false, 1, [], 0⟩⟩

/-! ## Event Broker: the outbox channels -/

/-- The ways in which a blocking send stops the worker of the Broker: the run-time panic
of a send on a closed channel, and the block of a send that no reader and no buffer
place can take. -/
inductive Stop where
  | sendOnClosedChannel
  | blocked
deriving DecidableEq, Repr

/-- The state of one outbox, a channel of type `chan Event[T]`: whether it has been
closed, its capacity, the buffered events (oldest first) and the number of readers
blocked on it. A nil channel behaves on a send as an open channel without reader and
without room. -/
structure Outbox (T : Type) where
  closed : Bool
  cap : Nat
  buf : List (Event T)
  recvq : Nat
deriving DecidableEq, Repr

/-- The state of all outboxes, by channel identity. -/
abbrev OutChans (T : Type) := Nat → Outbox T

/-- The state of the Broker: the index owned by `Listen` and the outboxes it sends on. -/
structure BrokerState (T : Type) where
  clients : Index T
  chans : OutChans T

section BrokerChannels

variable {T : Type} [DecidableEq T]

/-- The number of events that the outbox can take without blocking: one per waiting
reader and one per free place of the buffer. -/
def Outbox.room (c : Outbox T) : Nat :=
  c.recvq + (c.cap - c.buf.length)

/-- The outbox after it took the event `e`: handed to a waiting reader, else buffered. -/
def Outbox.take (c : Outbox T) (e : Event T) : Outbox T :=
  if 0 < c.recvq then { c with recvq := c.recvq - 1 } else { c with buf := c.buf ++ [e] }

/-- Go: the send statement `ch <- e`. It panics on a closed channel; it completes when a
reader waits or the buffer has room; otherwise it blocks. -/
def chanSend (chans : OutChans T) (ch : Nat) (e : Event T) : Except Stop (OutChans T) :=
  if (chans ch).closed then .error .sendOnClosedChannel
  else if 0 < (chans ch).room then .ok (Function.update chans ch ((chans ch).take e))
  else .error .blocked

/-- Go: the loop `for cn := range cm { cn.Chan <- e }` of `SendEventTo`, over the
connections `cns` of the bucket. Returns the outboxes and the sends completed. -/
def sendEach (e : Event T) :
    OutChans T → List (Connection T) → Except Stop (OutChans T × List (Send T))
  | chans, [] => .ok (chans, [])
  | chans, cn :: cns =>
    match chanSend chans cn.Chan e with
    | .error st => .error st
    | .ok chans1 =>
      match sendEach e chans1 cns with
      | .error st => .error st
      | .ok (chans2, log) => .ok (chans2, ⟨cn, e⟩ :: log)

/-- Go: `EventBroker.SendEventTo`, on the outbox channels. -/
def SendEventTo (clients : Index T) (chans : OutChans T) (target : T) (e : Event T) :
    Except Stop (OutChans T × List (Send T)) :=
  match AL.get? clients target with
  | some cm => sendEach e chans (AL.keys cm)
  | none => .ok (chans, [])

/-- Go: the loop `for _, target := range e.Targets { b.SendEventTo(target, e) }` of the
`Notifier` case of `Listen`, over the targets `ts`. -/
def sendToTargets (clients : Index T) (e : Event T) :
    OutChans T → List T → Except Stop (OutChans T × List (Send T))
  | chans, [] => .ok (chans, [])
  | chans, target :: ts =>
    match SendEventTo clients chans target e with
    | .error st => .error st
    | .ok (chans1, log1) =>
      match sendToTargets clients e chans1 ts with
      | .error st => .error st
      | .ok (chans2, log2) => .ok (chans2, log1 ++ log2)

/-- Go: one iteration of the loop of `EventBroker.Listen`, on the index and the outbox
channels: the new state and the sends completed, or the panic or block that stops the
worker. The `newClients` and `closingClients` cases touch no channel; their index is
that of `Listen`. -/
def ListenStep (s : BrokerState T) :
    BrokerReq T → Except Stop (BrokerState T × List (Send T))
  | .newClients c => .ok (⟨(Listen s.clients (.newClients c)).1, s.chans⟩, [])
  | .closingClients c => .ok (⟨(Listen s.clients (.closingClients c)).1, s.chans⟩, [])
  | .Notifier e =>
    match sendToTargets s.clients e s.chans e.Targets with
    | .error st => .error st
    | .ok (chans1, log) => .ok (⟨s.clients, chans1⟩, log)

/-- Run `ListenStep` over a sequence of requests; a panic or a block stops the run. -/
def runBrokerSteps (s : BrokerState T) : List (BrokerReq T) → Except Stop (BrokerState T)
  | [] => .ok s
  | r :: rs =>
    match ListenStep s r with
    | .error st => .error st
    | .ok (s1, _) => runBrokerSteps s1 rs

/-- Execute a list of send statements in order. -/
def runSends : OutChans T → List (Send T) → Except Stop (OutChans T × List (Send T))
  | chans, [] => .ok (chans, [])
  | chans, d :: ds =>
    match chanSend chans d.conn.Chan d.event with
    | .error st => .error st
    | .ok chans1 =>
      match runSends chans1 ds with
      | .error st => .error st
      | .ok (chans2, log) => .ok (chans2, d :: log)

end BrokerChannels

/-- Outboxes that are all open and empty, of capacity `cap`, without waiting reader. -/
def openChans (cap : Nat) : OutChans String := fun _ => ⟨false, cap, [], 0⟩

/-- Outboxes of capacity 1 of which outbox 1 has been closed. -/
def closedOne : OutChans String := fun ch => ⟨decide (ch = 1), 1, [], 0⟩

/-- Two connections that share outbox 1, one registered under "u1" and one under "u2". -/
def sharedIndex : Index String :=
  runBroker [] [.newClients ⟨"u1", 1⟩, .newClients ⟨"u2", 1⟩]

/-! ## Lemmas on Go maps -/

namespace AL

variable {K V : Type} [DecidableEq K]

theorem get?_eq_none_iff (l : List (K × V)) (k : K) : get? l k = none ↔ k ∉ keys l := by
  induction l with
  | nil => simp [get?, keys]
  | cons a r ih =>
    obtain ⟨k', v'⟩ := a
    by_cases h : k' = k
    · simp [get?, keys, h]
    · have h2 : ¬ k = k' := fun e => h e.symm
      simpa [get?, keys, h, h2] using ih

theorem mem_of_get? {l : List (K × V)} {k : K} {v : V} (h : get? l k = some v) :
    (k, v) ∈ l := by
  induction l with
  | nil => simp [get?] at h
  | cons a r ih =>
    obtain ⟨k', v'⟩ := a
    by_cases hk : k' = k
    · simp [get?, hk] at h
      simp [hk, h]
    · simp [get?, hk] at h
      exact List.mem_cons_of_mem _ (ih h)

theorem mem_keys_of_get? {l : List (K × V)} {k : K} {v : V} (h : get? l k = some v) :
    k ∈ keys l :=
  List.mem_map.mpr ⟨(k, v), mem_of_get? h, rfl⟩

theorem get?_of_mem {l : List (K × V)} (hwf : WF l) {k : K} {v : V} (h : (k, v) ∈ l) :
    get? l k = some v := by
  induction l with
  | nil => simp at h
  | cons a r ih =>
    obtain ⟨k', v'⟩ := a
    simp only [WF, keys, List.map_cons, List.nodup_cons] at hwf
    rcases List.mem_cons.mp h with h1 | h1
    · cases h1
      simp [get?]
    · have hk : k' ≠ k := by
        rintro rfl
        exact hwf.1 (List.mem_map.mpr ⟨(k', v), h1, rfl⟩)
      simp only [get?, hk, if_false]
      exact ih hwf.2 h1

theorem get?_isSome_of_mem_keys {l : List (K × V)} {k : K} (h : k ∈ keys l) :
    ∃ v, get? l k = some v := by
  cases hg : get? l k with
  | none => exact absurd h ((get?_eq_none_iff l k).mp hg)
  | some v => exact ⟨v, rfl⟩

theorem get?_set (l : List (K × V)) (k k' : K) (v : V) :
    get? (set l k v) k' = if k = k' then some v else get? l k' := by
  induction l with
  | nil => simp [set, get?]
  | cons a r ih =>
    obtain ⟨k1, v1⟩ := a
    by_cases h : k1 = k
    · subst h
      by_cases h2 : k1 = k' <;> simp [set, get?, h2]
    · by_cases h2 : k1 = k'
      · subst h2
        have h3 : ¬ k = k1 := fun e => h e.symm
        simp [set, get?, h, h3]
      · simp [set, get?, h, h2, ih]

theorem get?_del (l : List (K × V)) (k k' : K) :
    get? (del l k) k' = if k = k' then none else get? l k' := by
  induction l with
  | nil => simp [del, get?]
  | cons a r ih =>
    obtain ⟨k1, v1⟩ := a
    by_cases h : k1 = k
    · subst h
      by_cases h2 : k1 = k'
      · subst h2
        simpa [del] using ih
      · simpa [del, get?, h2] using ih
    · by_cases h2 : k1 = k'
      · subst h2
        have h3 : ¬ k = k1 := fun e => h e.symm
        simp [del, get?, h, h3]
      · simp [del, get?, h, h2, ih]

theorem mem_del (l : List (K × V)) (k : K) (e : K × V) :
    e ∈ del l k ↔ e ∈ l ∧ e.1 ≠ k := by
  induction l with
  | nil => simp [del]
  | cons a r ih =>
    obtain ⟨k1, v1⟩ := a
    by_cases h : k1 = k
    · subst h
      simp only [del, if_true, ih, List.mem_cons]
      constructor
      · rintro ⟨h1, h2⟩
        exact ⟨Or.inr h1, h2⟩
      · rintro ⟨h1 | h1, h2⟩
        · subst h1
          exact absurd rfl h2
        · exact ⟨h1, h2⟩
    · simp only [del, h, if_false, List.mem_cons, ih]
      constructor
      · rintro (h1 | ⟨h1, h2⟩)
        · subst h1
          exact ⟨Or.inl rfl, h⟩
        · exact ⟨Or.inr h1, h2⟩
      · rintro ⟨h1 | h1, h2⟩
        · exact Or.inl h1
        · exact Or.inr ⟨h1, h2⟩

theorem mem_keys_del (l : List (K × V)) (k k' : K) :
    k' ∈ keys (del l k) ↔ k' ∈ keys l ∧ k' ≠ k := by
  simp only [keys, List.mem_map, mem_del]
  constructor
  · rintro ⟨e, ⟨h1, h2⟩, rfl⟩
    exact ⟨⟨e, h1, rfl⟩, h2⟩
  · rintro ⟨⟨e, h1, rfl⟩, h2⟩
    exact ⟨e, ⟨h1, h2⟩, rfl⟩

theorem del_of_not_mem (l : List (K × V)) (k : K) (h : k ∉ keys l) : del l k = l := by
  induction l with
  | nil => rfl
  | cons a r ih =>
    obtain ⟨k1, v1⟩ := a
    simp only [keys, List.map_cons, List.mem_cons, not_or] at h
    have h1 : ¬ k1 = k := fun e => h.1 e.symm
    simp only [del, h1, if_false]
    rw [ih h.2]

theorem set_of_not_mem (l : List (K × V)) (k : K) (v : V) (h : k ∉ keys l) :
    set l k v = l ++ [(k, v)] := by
  induction l with
  | nil => rfl
  | cons a r ih =>
    obtain ⟨k1, v1⟩ := a
    simp only [keys, List.map_cons, List.mem_cons, not_or] at h
    have h1 : ¬ k1 = k := fun e => h.1 e.symm
    simp only [set, h1, if_false, List.cons_append]
    rw [ih h.2]

theorem keys_set_of_mem (l : List (K × V)) (k : K) (v : V) (h : k ∈ keys l) :
    keys (set l k v) = keys l := by
  induction l with
  | nil => simp [keys] at h
  | cons a r ih =>
    obtain ⟨k1, v1⟩ := a
    by_cases h1 : k1 = k
    · simp [set, keys, h1]
    · simp only [keys, List.map_cons, List.mem_cons] at h
      have h2 : k ∈ keys r := by
        rcases h with h | h
        · exact absurd h.symm h1
        · exact h
      simp only [set, h1, if_false, keys, List.map_cons]
      have := ih h2
      simp only [keys] at this
      rw [this]

theorem mem_keys_set (l : List (K × V)) (k k' : K) (v : V) :
    k' ∈ keys (set l k v) ↔ k' = k ∨ k' ∈ keys l := by
  by_cases h : k ∈ keys l
  · rw [keys_set_of_mem l k v h]
    constructor
    · exact Or.inr
    · rintro (rfl | h1)
      · exact h
      · exact h1
  · rw [set_of_not_mem l k v h]
    simp [keys, or_comm]

theorem WF_set {l : List (K × V)} (hwf : WF l) (k : K) (v : V) : WF (set l k v) := by
  by_cases h : k ∈ keys l
  · unfold WF
    rw [keys_set_of_mem l k v h]
    exact hwf
  · unfold WF
    rw [set_of_not_mem l k v h]
    simp only [keys, List.map_append, List.map_cons, List.map_nil]
    rw [List.nodup_append]
    refine ⟨hwf, by simp, ?_⟩
    intro a ha hb
    simp only [List.mem_singleton] at hb
    subst hb
    exact h ha

theorem WF_del {l : List (K × V)} (hwf : WF l) (k : K) : WF (del l k) := by
  induction l with
  | nil => exact hwf
  | cons a r ih =>
    obtain ⟨k1, v1⟩ := a
    simp only [WF, keys, List.map_cons, List.nodup_cons] at hwf
    by_cases h : k1 = k
    · simp only [del, h, if_true]
      exact ih hwf.2
    · simp only [del, h, if_false, WF, keys, List.map_cons, List.nodup_cons]
      refine ⟨?_, ih hwf.2⟩
      intro hm
      exact hwf.1 ((mem_keys_del r k k1).mp hm).1

theorem mem_set {l : List (K × V)} (hwf : WF l) (k : K) (v : V) (e : K × V) :
    e ∈ set l k v ↔ e = (k, v) ∨ (e ∈ l ∧ e.1 ≠ k) := by
  induction l with
  | nil => simp [set]
  | cons a r ih =>
    obtain ⟨k1, v1⟩ := a
    simp only [WF, keys, List.map_cons, List.nodup_cons] at hwf
    by_cases h : k1 = k
    · subst h
      simp only [set, if_true, List.mem_cons]
      constructor
      · rintro (h1 | h1)
        · exact Or.inl h1
        · refine Or.inr ⟨Or.inr h1, ?_⟩
          intro he
          exact hwf.1 (List.mem_map.mpr ⟨e, h1, he⟩)
      · rintro (h1 | ⟨h1 | h1, h2⟩)
        · exact Or.inl h1
        · subst h1
          exact absurd rfl h2
        · exact Or.inr h1
    · simp only [set, h, if_false, List.mem_cons, ih hwf.2]
      constructor
      · rintro (h1 | h1 | ⟨h1, h2⟩)
        · subst h1
          exact Or.inr ⟨Or.inl rfl, h⟩
        · exact Or.inl h1
        · exact Or.inr ⟨Or.inr h1, h2⟩
      · rintro (h1 | ⟨h1 | h1, h2⟩)
        · exact Or.inr (Or.inl h1)
        · exact Or.inl h1
        · exact Or.inr (Or.inr ⟨h1, h2⟩)

theorem del_set_of_not_mem (l : List (K × V)) (k : K) (v : V) (h : k ∉ keys l) :
    del (set l k v) k = l := by
  induction l with
  | nil => simp [set, del]
  | cons a r ih =>
    obtain ⟨k1, v1⟩ := a
    simp only [keys, List.map_cons, List.mem_cons, not_or] at h
    have h1 : ¬ k1 = k := fun e => h.1 e.symm
    simp only [set, h1, if_false, del]
    rw [ih h.2]

theorem set_get?_self {l : List (K × V)} {k : K} {v : V} (h : get? l k = some v) :
    set l k v = l := by
  induction l with
  | nil => simp [get?] at h
  | cons a r ih =>
    obtain ⟨k1, v1⟩ := a
    by_cases h1 : k1 = k
    · simp only [get?, h1, if_true, Option.some.injEq] at h
      simp [set, h1, h]
    · simp only [get?, h1, if_false] at h
      simp only [set, h1, if_false]
      rw [ih h]

end AL

/-! ## Event Broker: the send statements -/

section BrokerTheorems

variable {T : Type} [DecidableEq T]

theorem mem_sendsTo (clients : Index T) (t : T) (e : Event T) (s : Send T) :
    s ∈ sendsTo clients t e ↔ s.event = e ∧ InBucket clients t s.conn := by
  unfold sendsTo InBucket
  cases hg : AL.get? clients t with
  | none => simp
  | some cm =>
    simp only [List.mem_map, Option.some.injEq, exists_eq_left']
    constructor
    · rintro ⟨cn, hcn, rfl⟩
      exact ⟨rfl, hcn⟩
    · rintro ⟨h1, h2⟩
      refine ⟨s.conn, h2, ?_⟩
      cases s
      simp at h1
      simp [h1]

theorem mem_publish (clients : Index T) (e : Event T) (s : Send T) :
    s ∈ (Listen clients (.Notifier e)).2 ↔
      s.event = e ∧ ∃ t ∈ e.Targets, InBucket clients t s.conn := by
  simp only [Listen, List.mem_flatMap, mem_sendsTo]
  constructor
  · rintro ⟨t, ht, h1, h2⟩
    exact ⟨h1, t, ht, h2⟩
  · rintro ⟨h1, t, ht, h2⟩
    exact ⟨t, ht, h1, h2⟩

theorem inBucket_target_eq {clients : Index T} (hkey : TargetKeyed clients) {k : T}
    {c : Connection T} (h : InBucket clients k c) : c.Target = k := by
  obtain ⟨cm, hg, hc⟩ := h
  obtain ⟨cv, hcv, rfl⟩ := List.mem_map.mp hc
  exact hkey (k, cm) (AL.mem_of_get? hg) cv hcv

theorem registered_inBucket_target {clients : Index T} (hkey : TargetKeyed clients)
    {c : Connection T} (h : Registered clients c) : InBucket clients c.Target c := by
  obtain ⟨k, hk⟩ := h
  have := inBucket_target_eq hkey hk
  rw [this]
  exact hk

theorem count_sendsTo (clients : Index T) (hwf : IndexWF clients)
    (hkey : TargetKeyed clients) (e : Event T) (c : Connection T)
    (hc : Registered clients c) (t : T) :
    (sendsTo clients t e).count ⟨c, e⟩ = if t = c.Target then 1 else 0 := by
  by_cases ht : t = c.Target
  · subst ht
    obtain ⟨cm, hg, hcm⟩ := registered_inBucket_target hkey hc
    have hnd : (AL.keys cm).Nodup := hwf.2 (c.Target, cm) (AL.mem_of_get? hg)
    have hinj : Function.Injective (fun cn : Connection T => (⟨cn, e⟩ : Send T)) := by
      intro a b hab
      simpa using hab
    simp only [sendsTo, hg, if_true]
    rw [List.count_map_of_injective _ _ hinj]
    exact List.count_eq_one_of_mem hnd hcm
  · simp only [ht, if_false]
    rw [List.count_eq_zero]
    intro hm
    have := inBucket_target_eq hkey ((mem_sendsTo clients t e _).mp hm).2
    exact ht this.symm

theorem count_publish (clients : Index T) (hwf : IndexWF clients)
    (hkey : TargetKeyed clients) (c : Connection T)
    (hc : Registered clients c) (e' : Event T) (ts : List T) :
    (ts.flatMap (fun target => sendsTo clients target e')).count ⟨c, e'⟩
      = ts.count c.Target := by
  induction ts with
  | nil => simp
  | cons t ts ih =>
    rw [List.flatMap_cons, List.count_append, ih,
      count_sendsTo clients hwf hkey e' c hc t, List.count_cons]
    by_cases ht : t = c.Target
    · simp [ht, Nat.add_comm]
    · simp [ht]

theorem scenarioA_eq :
    scenarioA = [("u1", [(⟨"u1", 1⟩, true)]), ("u2", [(⟨"u2", 2⟩, true)])] := by
  decide

theorem scenarioA_wf : IndexWF scenarioA := by
  rw [scenarioA_eq]
  unfold IndexWF AL.WF AL.keys
  decide

theorem scenarioA_keyed : TargetKeyed scenarioA := by
  rw [scenarioA_eq]
  unfold TargetKeyed
  decide

theorem scenarioA_registered : Registered scenarioA ⟨"u1", 1⟩ := by
  rw [scenarioA_eq]
  exact ⟨"u1", [(⟨"u1", 1⟩, true)], by decide, by decide⟩

/-! ## Event Broker: the index -/

theorem al_set_set {K V : Type} [DecidableEq K] (l : List (K × V)) (k : K) (v v' : V) :
    AL.set (AL.set l k v) k v' = AL.set l k v' := by
  induction l with
  | nil => simp [AL.set]
  | cons a r ih =>
    obtain ⟨k1, v1⟩ := a
    by_cases h : k1 = k
    · simp [AL.set, h]
    · simp [AL.set, h, ih]

theorem indexWF_set {clients : Index T} (hwf : IndexWF clients) (k : T) (b : Bucket T)
    (hb : AL.WF b) : IndexWF (AL.set clients k b) := by
  refine ⟨AL.WF_set hwf.1 k b, ?_⟩
  intro kb hkb
  rcases (AL.mem_set hwf.1 k b kb).mp hkb with h | h
  · subst h
    exact hb
  · exact hwf.2 kb h.1

theorem indexWF_del {clients : Index T} (hwf : IndexWF clients) (k : T) :
    IndexWF (AL.del clients k) :=
  ⟨AL.WF_del hwf.1 k, fun kb hkb => hwf.2 kb ((AL.mem_del clients k kb).mp hkb).1⟩

theorem targetKeyed_set {clients : Index T} (hwf : IndexWF clients)
    (hkey : TargetKeyed clients) (k : T) (b : Bucket T)
    (hb : ∀ cv ∈ b, cv.1.Target = k) : TargetKeyed (AL.set clients k b) := by
  intro kb hkb
  rcases (AL.mem_set hwf.1 k b kb).mp hkb with h | h
  · subst h
    exact hb
  · exact hkey kb h.1

theorem targetKeyed_del {clients : Index T} (hkey : TargetKeyed clients) (k : T) :
    TargetKeyed (AL.del clients k) :=
  fun kb hkb => hkey kb ((AL.mem_del clients k kb).mp hkb).1

theorem bucket_of_get? {clients : Index T} (hwf : IndexWF clients)
    (hkey : TargetKeyed clients) {k : T} {cm : Bucket T}
    (hg : AL.get? clients k = some cm) :
    AL.WF cm ∧ ∀ cv ∈ cm, cv.1.Target = k :=
  ⟨hwf.2 (k, cm) (AL.mem_of_get? hg), hkey (k, cm) (AL.mem_of_get? hg)⟩

theorem al_set_ne_nil {K V : Type} [DecidableEq K] (l : List (K × V)) (k : K) (v : V) :
    AL.set l k v ≠ [] := by
  cases l with
  | nil => simp [AL.set]
  | cons a r =>
    obtain ⟨k1, v1⟩ := a
    by_cases h : k1 = k <;> simp [AL.set, h]

/-- One step of `Listen` keeps the three parts of the index invariant. -/
theorem Listen_preserves (clients : Index T) (r : BrokerReq T)
    (hwf : IndexWF clients) (hkey : TargetKeyed clients) (hne : NoEmptyBucket clients) :
    IndexWF (Listen clients r).1 ∧ TargetKeyed (Listen clients r).1 ∧
      NoEmptyBucket (Listen clients r).1 := by
  cases r with
  | Notifier e => exact ⟨hwf, hkey, hne⟩
  | newClients c =>
    simp only [Listen]
    cases hg : AL.get? clients c.Target with
    | none =>
      refine ⟨indexWF_set hwf _ _ (by simp [AL.WF, AL.keys]), targetKeyed_set hwf hkey _ _ (by simp), ?_⟩
      intro kb hkb
      rcases (AL.mem_set hwf.1 _ _ kb).mp hkb with h | h
      · subst h
        simp
      · exact hne kb h.1
    | some cm =>
      obtain ⟨hcm, hcmk⟩ := bucket_of_get? hwf hkey hg
      refine ⟨indexWF_set hwf _ _ (AL.WF_set hcm c true), targetKeyed_set hwf hkey _ _ ?_, ?_⟩
      · intro cv hcv
        rcases (AL.mem_set hcm c true cv).mp hcv with h | h
        · subst h
          rfl
        · exact hcmk cv h.1
      · intro kb hkb
        rcases (AL.mem_set hwf.1 _ _ kb).mp hkb with h | h
        · subst h
          exact al_set_ne_nil cm c true
        · exact hne kb h.1
  | closingClients c =>
    simp only [Listen, deleteConn]
    cases hg : AL.get? clients c.Target with
    | none =>
      have hlen : bucketLen clients c.Target = 0 := by simp [bucketLen, hg]
      simp only [hlen, if_true]
      exact ⟨indexWF_del hwf _, targetKeyed_del hkey _,
        fun kb hkb => hne kb ((AL.mem_del clients _ kb).mp hkb).1⟩
    | some cm =>
      obtain ⟨hcm, hcmk⟩ := bucket_of_get? hwf hkey hg
      have hwf1 : IndexWF (AL.set clients c.Target (AL.del cm c)) :=
        indexWF_set hwf _ _ (AL.WF_del hcm c)
      have hkey1 : TargetKeyed (AL.set clients c.Target (AL.del cm c)) :=
        targetKeyed_set hwf hkey _ _ (fun cv hcv => hcmk cv ((AL.mem_del cm c cv).mp hcv).1)
      have hlen : bucketLen (AL.set clients c.Target (AL.del cm c)) c.Target
          = (AL.del cm c).length := by
        simp [bucketLen, AL.get?_set]
      by_cases h0 : (AL.del cm c).length = 0
      · simp only [hlen, h0, if_true]
        refine ⟨indexWF_del hwf1 _, targetKeyed_del hkey1 _, ?_⟩
        intro kb hkb
        obtain ⟨h1, h2⟩ := (AL.mem_del _ _ kb).mp hkb
        rcases (AL.mem_set hwf.1 _ _ kb).mp h1 with h | h
        · subst h
          exact absurd rfl h2
        · exact hne kb h.1
      · simp only [hlen, h0, if_false]
        refine ⟨hwf1, hkey1, ?_⟩
        intro kb hkb
        rcases (AL.mem_set hwf.1 _ _ kb).mp hkb with h | h
        · subst h
          intro hnil
          simp only at hnil
          exact h0 (by rw [hnil]; rfl)
        · exact hne kb h.1

theorem runBroker_preserves (rs : List (BrokerReq T)) (clients : Index T)
    (hwf : IndexWF clients) (hkey : TargetKeyed clients) (hne : NoEmptyBucket clients) :
    IndexWF (runBroker clients rs) ∧ TargetKeyed (runBroker clients rs) ∧
      NoEmptyBucket (runBroker clients rs) := by
  induction rs generalizing clients with
  | nil => exact ⟨hwf, hkey, hne⟩
  | cons r rs ih =>
    obtain ⟨h1, h2, h3⟩ := Listen_preserves clients r hwf hkey hne
    exact ih _ h1 h2 h3

/-- C7 (Broker index invariant). In every state reached from the empty Broker by a
sequence of `AddClient`, `RemoveClient` and `Publish` steps: the index is a valid map,
every connection stored in the bucket keyed `k` has `Target = k`, every registered
connection is in exactly one bucket, and no bucket is empty. -/
theorem broker_index_invariant (rs : List (BrokerReq T)) :
    IndexWF (runBroker ([] : Index T) rs) ∧
    TargetKeyed (runBroker ([] : Index T) rs) ∧
    (∀ k c, InBucket (runBroker ([] : Index T) rs) k c → c.Target = k) ∧
    (∀ c, Registered (runBroker ([] : Index T) rs) c →
        ∃! k, InBucket (runBroker ([] : Index T) rs) k c) ∧
    NoEmptyBucket (runBroker ([] : Index T) rs) ∧
    (∀ k cm, AL.get? (runBroker ([] : Index T) rs) k = some cm → cm ≠ []) := by
  have h0wf : IndexWF ([] : Index T) := ⟨by simp [AL.WF, AL.keys], by simp⟩
  have h0key : TargetKeyed ([] : Index T) := by simp [TargetKeyed]
  have h0ne : NoEmptyBucket ([] : Index T) := by simp [NoEmptyBucket]
  obtain ⟨hwf, hkey, hne⟩ := runBroker_preserves rs [] h0wf h0key h0ne
  refine ⟨hwf, hkey, fun k c h => inBucket_target_eq hkey h, ?_, hne, ?_⟩
  · rintro c ⟨k, hk⟩
    exact ⟨k, hk, fun k' hk' => (inBucket_target_eq hkey hk').symm.trans (inBucket_target_eq hkey hk)⟩
  · intro k cm hg
    exact hne (k, cm) (AL.mem_of_get? hg)

theorem get?_closing (clients : Index T) (c : Connection T) (k : T) :
    AL.get? (Listen clients (.closingClients c)).1 k =
      if k = c.Target then
        match AL.get? clients c.Target with
        | none => none
        | some cm => if AL.del cm c = [] then none else some (AL.del cm c)
      else AL.get? clients k := by
  simp only [Listen, deleteConn]
  cases hg : AL.get? clients c.Target with
  | none =>
    have hlen : bucketLen clients c.Target = 0 := by simp [bucketLen, hg]
    simp only [hlen, if_true, AL.get?_del]
    by_cases hk : k = c.Target
    · simp [hk]
    · have hk2 : ¬ c.Target = k := fun e => hk e.symm
      simp [hk, hk2]
  | some cm =>
    have hlen : bucketLen (AL.set clients c.Target (AL.del cm c)) c.Target
        = (AL.del cm c).length := by
      simp [bucketLen, AL.get?_set]
    by_cases h0 : AL.del cm c = []
    · have h1 : (AL.del cm c).length = 0 := by rw [h0]; rfl
      simp only [hlen, h1, if_true, AL.get?_del, AL.get?_set]
      rw [h0]
      by_cases hk : k = c.Target
      · simp [hk]
      · have hk2 : ¬ c.Target = k := fun e => hk e.symm
        simp [hk, hk2]
    · have h1 : (AL.del cm c).length ≠ 0 := fun h => h0 (List.length_eq_zero.mp h)
      simp only [hlen, h1, h0, if_false, AL.get?_set]
      by_cases hk : k = c.Target
      · simp [hk]
      · have hk2 : ¬ c.Target = k := fun e => hk e.symm
        simp [hk, hk2]

/-- C8 (Broker `RemoveClient`). Processing `RemoveClient(c)` sends nothing and yields the
index in which: every bucket other than that of `c.Target` is unchanged; the bucket of
`c.Target` is the old one with the entry of `c` deleted, and is itself deleted when that
leaves it empty; the other connections of that bucket keep their entries; so a connection
`d` is in bucket `k` afterwards exactly when it was there before and is not `c` in bucket
`c.Target`. If `c` was not in the bucket of its target (in particular if `c` was not
registered) and the index has no empty bucket, the index is unchanged. -/
theorem removeClient_spec (clients : Index T) (c : Connection T) :
    (Listen clients (.closingClients c)).2 = [] ∧
    (∀ k, k ≠ c.Target →
        AL.get? (Listen clients (.closingClients c)).1 k = AL.get? clients k) ∧
    (AL.get? clients c.Target = none →
        AL.get? (Listen clients (.closingClients c)).1 c.Target = none) ∧
    (∀ cm, AL.get? clients c.Target = some cm →
        AL.get? (Listen clients (.closingClients c)).1 c.Target =
            (if AL.del cm c = [] then none else some (AL.del cm c)) ∧
        c ∉ AL.keys (AL.del cm c) ∧
        ∀ d, d ≠ c → AL.get? (AL.del cm c) d = AL.get? cm d) ∧
    (∀ k d, InBucket (Listen clients (.closingClients c)).1 k d ↔
        InBucket clients k d ∧ ¬ (k = c.Target ∧ d = c)) ∧
    (¬ InBucket clients c.Target c → NoEmptyBucket clients →
        (Listen clients (.closingClients c)).1 = clients) ∧
    (¬ Registered clients c → NoEmptyBucket clients →
        (Listen clients (.closingClients c)).1 = clients) := by
  have hunch : ¬ InBucket clients c.Target c → NoEmptyBucket clients →
      (Listen clients (.closingClients c)).1 = clients := by
    intro hnot hne
    simp only [Listen, deleteConn]
    cases hg : AL.get? clients c.Target with
    | none =>
      have hlen : bucketLen clients c.Target = 0 := by simp [bucketLen, hg]
      simp only [hlen, if_true]
      exact AL.del_of_not_mem _ _ ((AL.get?_eq_none_iff _ _).mp hg)
    | some cm =>
      have hc : c ∉ AL.keys cm := fun h => hnot ⟨cm, hg, h⟩
      dsimp only
      rw [AL.del_of_not_mem cm c hc, AL.set_get?_self hg]
      have hlen : bucketLen clients c.Target ≠ 0 := by
        simp only [bucketLen, hg]
        intro h
        exact hne (c.Target, cm) (AL.mem_of_get? hg) (List.length_eq_zero.mp h)
      simp [hlen]
  refine ⟨?_, ?_, ?_, ?_, ?_, hunch, fun h => hunch (fun hb => h ⟨_, hb⟩)⟩
  · simp only [Listen]
    split <;> rfl
  · intro k hk
    rw [get?_closing, if_neg hk]
  · intro hg
    rw [get?_closing, if_pos rfl, hg]
  · intro cm hg
    refine ⟨?_, ?_, ?_⟩
    · rw [get?_closing, if_pos rfl, hg]
    · intro h
      exact ((AL.mem_keys_del cm c c).mp h).2 rfl
    · intro d hd
      rw [AL.get?_del, if_neg (fun e => hd e.symm)]
  · intro k d
    unfold InBucket
    rw [get?_closing]
    by_cases hk : k = c.Target
    · subst hk
      simp only [if_true]
      cases hg : AL.get? clients c.Target with
      | none => simp
      | some cm =>
        by_cases h0 : AL.del cm c = []
        · simp only [h0, if_true]
          constructor
          · rintro ⟨_, h, _⟩
            cases h
          · rintro ⟨⟨cm', hcm', hd⟩, hdc⟩
            cases hcm'
            have : d ∈ AL.keys (AL.del cm c) :=
              (AL.mem_keys_del cm c d).mpr ⟨hd, fun h => hdc ⟨trivial, h⟩⟩
            rw [h0] at this
            simp [AL.keys] at this
        · simp only [h0, if_false, Option.some.injEq, exists_eq_left', true_and]
          exact AL.mem_keys_del cm c d
    · simp [hk]

/-- Witness of C8: removing the unregistered connection `⟨"u3", 3⟩`, and removing a
connection with a fresh channel under the existing target "u1", leave scenario A as is. -/
theorem removeClient_spec_witness :
    ¬ Registered scenarioA ⟨"u3", 3⟩ ∧ NoEmptyBucket scenarioA ∧
    (Listen scenarioA (.closingClients ⟨"u3", 3⟩)).1 = scenarioA ∧
    (Listen scenarioA (.closingClients ⟨"u1", 7⟩)).1 = scenarioA ∧
    AL.get? (Listen scenarioA (.closingClients ⟨"u1", 1⟩)).1 "u1" = none := by
  have hne : NoEmptyBucket scenarioA := by
    rw [scenarioA_eq]
    unfold NoEmptyBucket
    decide
  have hnr : ¬ Registered scenarioA ⟨"u3", 3⟩ := by
    rintro ⟨k, hk⟩
    have hk3 : k = "u3" := (inBucket_target_eq scenarioA_keyed hk).symm
    subst hk3
    obtain ⟨cm, hg, _⟩ := hk
    have h2 : AL.get? scenarioA "u3" = none := by decide
    rw [h2] at hg
    cases hg
  have hnb : ¬ InBucket scenarioA "u1" ⟨"u1", 7⟩ := by
    rintro ⟨cm, hg, hc⟩
    rw [scenarioA_eq] at hg
    have : cm = [(⟨"u1", 1⟩, true)] := by
      have h2 : AL.get? ([("u1", [(⟨"u1", 1⟩, true)]), ("u2", [(⟨"u2", 2⟩, true)])] :
          Index String) "u1" = some [(⟨"u1", 1⟩, true)] := by decide
      rw [h2] at hg
      exact (Option.some.inj hg).symm
    subst this
    exact absurd hc (by decide)
  exact ⟨hnr, hne,
    (removeClient_spec scenarioA ⟨"u3", 3⟩).2.2.2.2.2.2 hnr hne,
    (removeClient_spec scenarioA ⟨"u1", 7⟩).2.2.2.2.2.1 hnb hne,
    by decide⟩

/-- C9 (bucket cleanup round trip). If the index has no bucket for `A` and
`C.Target = A`, then `AddClient(C)` followed by `RemoveClient(C)` gives back the original
index, which has no bucket keyed `A`; a following `Publish` with `targets = [A]` is
processed (the step is total), performs no send and leaves the index as it is. -/
theorem add_remove_roundtrip (clients : Index T) (A : T) (C : Connection T)
    (e : Event T) (hA : AL.get? clients A = none) (hC : C.Target = A)
    (he : e.Targets = [A]) :
    (Listen (Listen clients (.newClients C)).1 (.closingClients C)).1 = clients ∧
    AL.get? (Listen (Listen clients (.newClients C)).1 (.closingClients C)).1 A = none ∧
    A ∉ AL.keys (Listen (Listen clients (.newClients C)).1 (.closingClients C)).1 ∧
    Listen (Listen (Listen clients (.newClients C)).1 (.closingClients C)).1 (.Notifier e)
      = (clients, []) := by
  subst hC
  have hnot : C.Target ∉ AL.keys clients := (AL.get?_eq_none_iff _ _).mp hA
  have hrt : (Listen (Listen clients (.newClients C)).1 (.closingClients C)).1 = clients := by
    simp only [Listen, hA, deleteConn, AL.get?_set, if_true, al_set_set]
    have hd : AL.del [(C, true)] C = ([] : Bucket T) := by simp [AL.del]
    rw [hd]
    have hlen : bucketLen (AL.set clients C.Target ([] : Bucket T)) C.Target = 0 := by
      simp [bucketLen, AL.get?_set]
    simp only [hlen, if_true]
    exact AL.del_set_of_not_mem clients C.Target [] hnot
  rw [hrt]
  refine ⟨rfl, hA, hnot, ?_⟩
  simp [Listen, he, sendsTo, hA]

/-- Witness of C9: target "u3" has no bucket in scenario A. -/
theorem add_remove_roundtrip_witness :
    AL.get? scenarioA "u3" = none ∧
    (Listen (Listen scenarioA (.newClients ⟨"u3", 3⟩)).1 (.closingClients ⟨"u3", 3⟩)).1
      = scenarioA ∧
    Listen (Listen (Listen scenarioA (.newClients ⟨"u3", 3⟩)).1
        (.closingClients ⟨"u3", 3⟩)).1 (.Notifier ⟨"ping", ["u3"], []⟩)
      = (scenarioA, []) :=
  have h := add_remove_roundtrip scenarioA "u3" ⟨"u3", 3⟩ ⟨"ping", ["u3"], []⟩
    (by decide) rfl rfl
  ⟨by decide, h.1, h.2.2.2⟩

theorem get?_adding (clients : Index T) (c : Connection T) (k : T) :
    AL.get? (Listen clients (.newClients c)).1 k =
      if k = c.Target then
        match AL.get? clients c.Target with
        | none => some [(c, true)]
        | some cm => some (AL.set cm c true)
      else AL.get? clients k := by
  simp only [Listen]
  cases hg : AL.get? clients c.Target with
  | none =>
    simp only [AL.get?_set]
    by_cases hk : k = c.Target
    · simp [hk]
    · have hk2 : ¬ c.Target = k := fun e => hk e.symm
      simp [hk, hk2]
  | some cm =>
    simp only [AL.get?_set]
    by_cases hk : k = c.Target
    · simp [hk]
    · have hk2 : ¬ c.Target = k := fun e => hk e.symm
      simp [hk, hk2]

theorem inBucket_adding (clients : Index T) (c : Connection T) (k : T)
    (d : Connection T) :
    InBucket (Listen clients (.newClients c)).1 k d ↔
      InBucket clients k d ∨ (d = c ∧ k = c.Target) := by
  unfold InBucket
  rw [get?_adding]
  by_cases hk : k = c.Target
  · subst hk
    simp only [if_true, and_true]
    cases hg : AL.get? clients c.Target with
    | none => simp [AL.keys]
    | some cm =>
      simp only [Option.some.injEq, exists_eq_left', AL.mem_keys_set]
      exact or_comm
  · simp [hk]

/-- C10 (Broker `AddClient`). Processing `AddClient(c)` sends nothing and yields the index
in which a connection `d` is in the bucket keyed `k` exactly when it was there before or
`d = c` and `k = c.Target`. The bucket of `c.Target` is created, holding only `c`, when
it was absent, and otherwise keeps the entries of the other connections; no other bucket
changes. Two connections with the same target and different outbox channels are different
keys, and after both are added they are both in the bucket of that target. -/
theorem addClient_spec (clients : Index T) (c : Connection T) :
    (Listen clients (.newClients c)).2 = [] ∧
    (∀ k d, InBucket (Listen clients (.newClients c)).1 k d ↔
        InBucket clients k d ∨ (d = c ∧ k = c.Target)) ∧
    (AL.get? clients c.Target = none →
        AL.get? (Listen clients (.newClients c)).1 c.Target = some [(c, true)]) ∧
    (∀ cm, AL.get? clients c.Target = some cm →
        AL.get? (Listen clients (.newClients c)).1 c.Target = some (AL.set cm c true) ∧
        ∀ d, d ≠ c → AL.get? (AL.set cm c true) d = AL.get? cm d) ∧
    (∀ k, k ≠ c.Target →
        AL.get? (Listen clients (.newClients c)).1 k = AL.get? clients k) ∧
    (∀ d : Connection T, d.Target = c.Target → d.Chan ≠ c.Chan →
        d ≠ c ∧
        InBucket (Listen (Listen clients (.newClients c)).1 (.newClients d)).1 c.Target c ∧
        InBucket (Listen (Listen clients (.newClients c)).1 (.newClients d)).1 c.Target d)
    := by
  refine ⟨?_, inBucket_adding clients c, ?_, ?_, ?_, ?_⟩
  · simp only [Listen]
    split <;> rfl
  · intro hg
    rw [get?_adding, if_pos rfl, hg]
  · intro cm hg
    refine ⟨by rw [get?_adding, if_pos rfl, hg], ?_⟩
    intro d hd
    rw [AL.get?_set, if_neg (fun e => hd e.symm)]
  · intro k hk
    rw [get?_adding, if_neg hk]
  · intro d hT hCh
    refine ⟨fun h => hCh (by rw [h]), ?_, ?_⟩
    · rw [inBucket_adding, inBucket_adding]
      exact Or.inl (Or.inr ⟨rfl, rfl⟩)
    · rw [inBucket_adding]
      exact Or.inr ⟨rfl, hT.symm⟩

end BrokerTheorems

/-! ## Presence Hub: channels and the roster broadcast -/

section ChanTheorems

variable {T X M : Type}

theorem trySend_open (chans : Chans X M) (ch : Nat) (v : List (Entity X M))
    (h : (chans ch).closed = false) :
    trySend chans ch v =
      .ok (if (chans ch).canAccept then Function.update chans ch ((chans ch).accept v)
           else chans, (chans ch).canAccept) := by
  unfold trySend
  by_cases hc : (chans ch).canAccept = true <;> simp [h, hc]

theorem accept_closed (c : ChanState X M) (v : List (Entity X M)) :
    (c.accept v).closed = c.closed := by
  unfold ChanState.accept
  split <;> rfl

/-- The channels after one non-blocking send of `v` on `ch`. -/
theorem sendStep_apply (chans : Chans X M) (ch : Nat) (v : List (Entity X M)) (c : Nat) :
    (if (chans ch).canAccept then Function.update chans ch ((chans ch).accept v)
      else chans) c =
    if c = ch ∧ (chans ch).canAccept = true then (chans ch).accept v else chans c := by
  by_cases hc : (chans ch).canAccept = true
  · by_cases hcc : c = ch
    · subst hcc
      simp [hc]
    · simp [hc, hcc, Function.update_noteq hcc]
  · simp [hc]

/-- The roster broadcast on open channels: it completes; it changes no closed flag and no
channel that is not a member's; what it delivers is `entities`, to channels of members
that could accept; a member channel that can accept gets a delivery; a channel that cannot
accept is left as it is. -/
theorem offerAll_ok (entities : List (Entity X M)) (ps : List (Presence T X M))
    (chans : Chans X M) (hopen : ∀ p ∈ ps, (chans p.Online).closed = false) :
    ∃ chans' log, offerAll entities chans ps = .ok (chans', log) ∧
      (∀ c, (chans' c).closed = (chans c).closed) ∧
      (∀ c, (∀ p ∈ ps, p.Online ≠ c) → chans' c = chans c) ∧
      (∀ d ∈ log, d.roster = entities ∧ (chans d.chan).canAccept = true ∧
          ∃ p ∈ ps, p.Online = d.chan) ∧
      (∀ p ∈ ps, (chans p.Online).canAccept = true → ⟨p.Online, entities⟩ ∈ log) ∧
      (∀ c, (chans c).canAccept = false → chans' c = chans c) := by
  induction ps generalizing chans with
  | nil =>
    exact ⟨chans, [], rfl, fun _ => rfl, fun _ _ => rfl, by simp, by simp, fun _ _ => rfl⟩
  | cons p ps ih =>
    have hp : (chans p.Online).closed = false := hopen p (List.mem_cons_self _ _)
    obtain ⟨chansA, hA⟩ : ∃ chansA : Chans X M, chansA =
        (if (chans p.Online).canAccept then
          Function.update chans p.Online ((chans p.Online).accept entities)
         else chans) := ⟨_, rfl⟩
    have hAapp : ∀ c, chansA c =
        if c = p.Online ∧ (chans p.Online).canAccept = true then
          (chans p.Online).accept entities else chans c := by
      intro c
      rw [hA]
      exact sendStep_apply chans p.Online entities c
    have hAclosed : ∀ c, (chansA c).closed = (chans c).closed := by
      intro c
      rw [hAapp]
      split
      · rename_i h
        rw [accept_closed, h.1]
      · rfl
    have hopenA : ∀ q ∈ ps, (chansA q.Online).closed = false := by
      intro q hq
      rw [hAclosed]
      exact hopen q (List.mem_cons_of_mem _ hq)
    obtain ⟨chans', log, hrun, h1, h2, h3, h4, h5⟩ := ih chansA hopenA
    refine ⟨chans', if (chans p.Online).canAccept then ⟨p.Online, entities⟩ :: log else log,
      ?_, ?_, ?_, ?_, ?_, ?_⟩
    · simp only [offerAll, trySend_open chans p.Online entities hp, ← hA, hrun]
    · intro c
      rw [h1, hAclosed]
    · intro c hc
      have hcp : c ≠ p.Online := fun h => hc p (List.mem_cons_self _ _) h.symm
      rw [h2 c (fun q hq => hc q (List.mem_cons_of_mem _ hq)), hAapp]
      simp [hcp]
    · intro d hd
      have hlog : ∀ d ∈ log, d.roster = entities ∧ (chans d.chan).canAccept = true ∧
          ∃ q ∈ p :: ps, q.Online = d.chan := by
        intro d hd
        obtain ⟨e1, e2, q, hq, e3⟩ := h3 d hd
        refine ⟨e1, ?_, q, List.mem_cons_of_mem _ hq, e3⟩
        rw [hAapp] at e2
        by_cases hc : d.chan = p.Online ∧ (chans p.Online).canAccept = true
        · rw [hc.1]
          exact hc.2
        · rw [if_neg hc] at e2
          exact e2
      by_cases hc : (chans p.Online).canAccept = true
      · rw [if_pos hc] at hd
        rcases List.mem_cons.mp hd with h | h
        · subst h
          exact ⟨rfl, hc, p, List.mem_cons_self _ _, rfl⟩
        · exact hlog d h
      · rw [if_neg hc] at hd
        exact hlog d hd
    · intro q hq hacc
      rcases List.mem_cons.mp hq with h | h
      · subst h
        rw [if_pos hacc]
        exact List.mem_cons_self _ _
      · by_cases hqp : q.Online = p.Online
        · have hc : (chans p.Online).canAccept = true := hqp ▸ hacc
          rw [if_pos hc, hqp]
          exact List.mem_cons_self _ _
        · have : (chansA q.Online).canAccept = true := by
            rw [hAapp]
            simp [hqp, hacc]
          have hm := h4 q h this
          split
          · exact List.mem_cons_of_mem _ hm
          · exact hm
    · intro c hc
      have hAc : chansA c = chans c := by
        rw [hAapp]
        by_cases hcp : c = p.Online
        · subst hcp
          simp [hc]
        · simp [hcp]
      rw [h5 c (by rw [hAc]; exact hc), hAc]

/-- With pairwise different member channels, each member channel is sent to once: it
takes `entities` when it can accept, and is unchanged otherwise. -/
theorem offerAll_private (entities : List (Entity X M)) (ps : List (Presence T X M))
    (chans chans' : Chans X M) (log : List (Delivery X M))
    (hopen : ∀ p ∈ ps, (chans p.Online).closed = false)
    (hpriv : (ps.map (fun p => p.Online)).Nodup)
    (hrun : offerAll entities chans ps = .ok (chans', log)) :
    ∀ p ∈ ps, chans' p.Online =
      if (chans p.Online).canAccept then (chans p.Online).accept entities
      else chans p.Online := by
  induction ps generalizing chans log with
  | nil => simp
  | cons p ps ih =>
    have hp : (chans p.Online).closed = false := hopen p (List.mem_cons_self _ _)
    simp only [List.map_cons, List.nodup_cons, List.mem_map, not_exists, not_and] at hpriv
    obtain ⟨chansA, hA⟩ : ∃ chansA : Chans X M, chansA =
        (if (chans p.Online).canAccept then
          Function.update chans p.Online ((chans p.Online).accept entities)
         else chans) := ⟨_, rfl⟩
    have hAapp : ∀ c, chansA c =
        if c = p.Online ∧ (chans p.Online).canAccept = true then
          (chans p.Online).accept entities else chans c := by
      intro c
      rw [hA]
      exact sendStep_apply chans p.Online entities c
    have hopenA : ∀ q ∈ ps, (chansA q.Online).closed = false := by
      intro q hq
      rw [hAapp]
      split
      · rename_i h
        rw [accept_closed]
        exact hp
      · exact hopen q (List.mem_cons_of_mem _ hq)
    obtain ⟨chansB, logB, hrunB, _, hB2, _, _, _⟩ := offerAll_ok entities ps chansA hopenA
    have hB : chans' = chansB := by
      simp only [offerAll, trySend_open chans p.Online entities hp, ← hA, hrunB] at hrun
      injection hrun with hrun
      exact (congrArg Prod.fst hrun).symm
    subst hB
    intro q hq
    rcases List.mem_cons.mp hq with h | h
    · subst h
      rw [hB2 q.Online (fun r hr e => hpriv.1 r hr e), hAapp]
      by_cases hc : (chans q.Online).canAccept = true <;> simp [hc]
    · have hqp : q.Online ≠ p.Online := fun e => hpriv.1 q h e
      rw [ih chansA logB hopenA hpriv.2 hrunB q h, hAapp]
      simp [hqp]

end ChanTheorems

/-! ## Presence Hub: `Manage` -/

section HubTheorems

variable {T X M : Type} [DecidableEq T] [DecidableEq X]

theorem length_del_of_mem {K V : Type} [DecidableEq K] {l : List (K × V)} (hwf : AL.WF l)
    {k : K} (h : k ∈ AL.keys l) : (AL.del l k).length + 1 = l.length := by
  induction l with
  | nil => simp [AL.keys] at h
  | cons a r ih =>
    obtain ⟨k1, v1⟩ := a
    simp only [AL.WF, AL.keys, List.map_cons, List.nodup_cons] at hwf
    by_cases h1 : k1 = k
    · subst h1
      simp only [AL.del, if_true]
      rw [AL.del_of_not_mem r k1 hwf.1]
      rfl
    · simp only [AL.keys, List.map_cons, List.mem_cons] at h
      have h2 : k ∈ AL.keys r := by
        rcases h with h | h
        · exact absurd h.symm h1
        · exact h
      simp only [AL.del, h1, if_false, List.length_cons]
      rw [ih hwf.2 h2]

theorem not_mem_keys_del {K V : Type} [DecidableEq K] (l : List (K × V)) (k : K) :
    k ∉ AL.keys (AL.del l k) :=
  fun h => ((AL.mem_keys_del l k k).mp h).2 rfl

/-- The roster after a replacement: the old entries with another key, then the new one. -/
theorem replace_eq (g : Roster T X M) (x : X) (p : Presence T X M) :
    AL.set (AL.del g x) x p = AL.del g x ++ [(x, p)] :=
  AL.set_of_not_mem _ _ _ (not_mem_keys_del g x)

theorem get?_set_groups (groups : Groups T X M) (G k : T) (g : Roster T X M) (hk : k ≠ G) :
    AL.get? (AL.set groups G g) k = AL.get? groups k := by
  rw [AL.get?_set, if_neg (fun e => hk e.symm)]

/-- The entities of a roster that are keyed by their own id and have another key than `x`
do not have the id `x`. -/
theorem filter_id_del (g : Roster T X M) (x : X)
    (hkeyed : ∀ kq ∈ g, kq.2.Entity.Id = kq.1) :
    (rosterEntities (AL.del g x)).filter (fun en => decide (en.Id = x)) = [] := by
  rw [List.filter_eq_nil_iff]
  intro en hen
  obtain ⟨kq, hkq, rfl⟩ := List.mem_map.mp hen
  obtain ⟨h1, h2⟩ := (AL.mem_del g x kq).mp hkq
  simp only [decide_eq_true_eq]
  rw [hkeyed kq h1]
  exact h2

/-- C3 as stated fails: in the state reached from the empty Hub by the join of `pa1`, group
"room1" holds `pa1` for the id "a"; processing `AddClient(pa1)` again (a registration with
`Target = "room1"` and `Entity.Id = "a"`) closes the slot of `pa1`, stores `pa1` and then
sends the roster on that closed slot: the program panics and no roster is broadcast. -/
theorem hub_replace_counterexample :
    runHub (emptyHub 1) [.newClients pa1] = .ok hubA ∧
    AL.get? hubA.groups "room1" = some [("a", pa1)] ∧
    AL.get? [("a", pa1)] "a" = some pa1 ∧
    Manage hubA (.newClients pa1) = .error .sendOnClosedChannel :=
  ⟨rfl, by decide, by decide, by rfl⟩

/-- C3 (amended). Let group `G` hold the registration `p1` for the entity id `x`, in a
roster that is a valid map keyed by entity id. Let the notify slots of `p1`, of `p2` and
of the other members of `G` be open, and let the slot of `p1` be different from that of
`p2` and from those of the other members. Then processing `AddClient(p2)` with
`p2.Target = G` and `p2.Entity.Id = x` completes, closes the slot of `p1`, leaves `G` with
exactly one entry for `x`, which is `p2`, leaves every other entry of `G`, the size of the
roster and every other group unchanged, and broadcasts a roster that contains exactly one
entity with id `x`, namely that of `p2`; every member whose slot can accept gets it. -/
theorem hub_replace_spec (s : HubState T X M) (G : T) (x : X) (g : Roster T X M)
    (p1 p2 : Presence T X M)
    (hg : AL.get? s.groups G = some g) (hp1 : AL.get? g x = some p1)
    (hT : p2.Target = G) (hx : p2.Entity.Id = x)
    (hwf : AL.WF g) (hkeyed : ∀ kq ∈ g, kq.2.Entity.Id = kq.1)
    (h1 : (s.chans p1.Online).closed = false)
    (h2 : p2.Online ≠ p1.Online ∧ (s.chans p2.Online).closed = false)
    (hothers : ∀ kq ∈ g, kq.1 ≠ x →
      kq.2.Online ≠ p1.Online ∧ (s.chans kq.2.Online).closed = false) :
    ∃ s' log g', Manage s (.newClients p2) = .ok (s', log) ∧
      (s'.chans p1.Online).closed = true ∧
      AL.get? s'.groups G = some g' ∧
      AL.get? g' x = some p2 ∧ (AL.keys g').count x = 1 ∧
      (∀ y, y ≠ x → AL.get? g' y = AL.get? g y) ∧
      g'.length = g.length ∧
      (∀ k, k ≠ G → AL.get? s'.groups k = AL.get? s.groups k) ∧
      (rosterEntities g').filter (fun en => decide (en.Id = x)) = [p2.Entity] ∧
      (∀ d ∈ log, d.roster = rosterEntities g') ∧
      (∀ kq ∈ g', (s.chans kq.2.Online).canAccept = true →
        ⟨kq.2.Online, rosterEntities g'⟩ ∈ log) := by
  subst hT hx
  obtain ⟨chans1, hchans1⟩ : ∃ chans1 : Chans X M, chans1 =
      Function.update s.chans p1.Online
        { s.chans p1.Online with closed := true, recvq := 0 } := ⟨_, rfl⟩
  have hclose : closeChan s.chans p1.Online = .ok chans1 := by
    simp [closeChan, h1, hchans1]
  have hne : ∀ c, c ≠ p1.Online → chans1 c = s.chans c := by
    intro c hc
    rw [hchans1, Function.update_noteq hc]
  have hmem : ∀ kq ∈ AL.set (AL.del g p2.Entity.Id) p2.Entity.Id p2,
      kq = (p2.Entity.Id, p2) ∨ (kq ∈ g ∧ kq.1 ≠ p2.Entity.Id) := by
    intro kq hkq
    rw [replace_eq, List.mem_append, List.mem_singleton] at hkq
    rcases hkq with h | h
    · exact Or.inr ((AL.mem_del g _ kq).mp h)
    · exact Or.inl h
  have hmemne : ∀ kq ∈ AL.set (AL.del g p2.Entity.Id) p2.Entity.Id p2,
      kq.2.Online ≠ p1.Online ∧ (s.chans kq.2.Online).closed = false := by
    intro kq hkq
    rcases hmem kq hkq with h | h
    · subst h
      exact h2
    · exact hothers kq h.1 h.2
  have hopen : ∀ q ∈ (AL.set (AL.del g p2.Entity.Id) p2.Entity.Id p2).map Prod.snd,
      (chans1 q.Online).closed = false := by
    intro q hq
    obtain ⟨kq, hkq, rfl⟩ := List.mem_map.mp hq
    rw [hne _ (hmemne kq hkq).1]
    exact (hmemne kq hkq).2
  obtain ⟨chans2, log, hrun, hc1, _, hc3, hc4, _⟩ :=
    offerAll_ok (rosterEntities (AL.set (AL.del g p2.Entity.Id) p2.Entity.Id p2))
      _ chans1 hopen
  refine ⟨⟨AL.set s.groups p2.Target (AL.set (AL.del g p2.Entity.Id) p2.Entity.Id p2),
    chans2⟩, log, AL.set (AL.del g p2.Entity.Id) p2.Entity.Id p2, ?_, ?_, ?_, ?_, ?_, ?_,
    ?_, ?_, ?_, ?_, ?_⟩
  · simp only [Manage, hg, hp1, hclose, UpdateConnections, hrun]
  · show (chans2 p1.Online).closed = true
    rw [hc1, hchans1, Function.update_same]
  · simp [AL.get?_set]
  · simp [AL.get?_set]
  · rw [replace_eq]
    simp only [AL.keys, List.map_append, List.map_cons, List.map_nil, List.count_append]
    have : List.count p2.Entity.Id (List.map Prod.fst (AL.del g p2.Entity.Id)) = 0 :=
      List.count_eq_zero.mpr (not_mem_keys_del g p2.Entity.Id)
    rw [this]
    simp
  · intro y hy
    have hy2 : ¬ p2.Entity.Id = y := fun e => hy e.symm
    rw [AL.get?_set, if_neg hy2, AL.get?_del, if_neg hy2]
  · rw [replace_eq, List.length_append]
    exact length_del_of_mem hwf (AL.mem_keys_of_get? hp1)
  · intro k hk
    exact get?_set_groups s.groups p2.Target k _ hk
  · rw [replace_eq]
    simp only [rosterEntities, List.map_append, List.filter_append, List.map_cons,
      List.map_nil]
    have := filter_id_del g p2.Entity.Id hkeyed
    simp only [rosterEntities] at this
    rw [this]
    simp
  · intro d hd
    exact (hc3 d hd).1
  · intro kq hkq hacc
    refine hc4 kq.2 (List.mem_map.mpr ⟨kq, hkq, rfl⟩) ?_
    rw [hne _ (hmemne kq hkq).1]
    exact hacc

/-- Witness of C3 (amended), scenario C of the spec: `pa2` replaces `pa1` in "room1". -/
theorem hub_replace_spec_witness :
    ∃ s' log g', Manage hubA (.newClients pa2) = .ok (s', log) ∧
      (s'.chans pa1.Online).closed = true ∧
      AL.get? s'.groups "room1" = some g' ∧
      AL.get? g' "a" = some pa2 ∧
      (rosterEntities g').filter (fun en => decide (en.Id = "a")) = [pa2.Entity] := by
  obtain ⟨s', log, g', h1, h2, h3, h4, _, _, _, _, h9, _, _⟩ :=
    hub_replace_spec hubA "room1" "a" [("a", pa1)] pa1 pa2 (by decide) (by decide) rfl rfl
      (by unfold AL.WF AL.keys; decide) (by decide) rfl ⟨by decide, rfl⟩
      (by
        intro kq hkq hne
        rw [List.mem_singleton] at hkq
        subst hkq
        exact absurd rfl hne)
  exact ⟨s', log, g', h1, h2, h3, h4, h9⟩

/-! ## Presence Hub: absence of panics under fresh slots -/

theorem member_set {groups : Groups T X M} (hwf : AL.WF groups) (G : T) (g1 : Roster T X M)
    {G' : T} {k : X} {q : Presence T X M} (h : Member (AL.set groups G g1) G' k q) :
    (G' = G ∧ (k, q) ∈ g1) ∨ (G' ≠ G ∧ Member groups G' k q) := by
  obtain ⟨g, hg, hkq⟩ := h
  rcases (AL.mem_set hwf G g1 (G', g)).mp hg with h | h
  · cases h
    exact Or.inl ⟨rfl, hkq⟩
  · exact Or.inr ⟨h.2, g, h.1, hkq⟩

theorem member_del {groups : Groups T X M} (G : T)
    {G' : T} {k : X} {q : Presence T X M} (h : Member (AL.del groups G) G' k q) :
    Member groups G' k q := by
  obtain ⟨g, hg, hkq⟩ := h
  exact ⟨g, ((AL.mem_del groups G (G', g)).mp hg).1, hkq⟩

theorem member_of_get? {groups : Groups T X M} {G : T} {g : Roster T X M}
    (hg : AL.get? groups G = some g) {k : X} {q : Presence T X M} (h : (k, q) ∈ g) :
    Member groups G k q :=
  ⟨g, AL.mem_of_get? hg, h⟩

theorem groupsWF_set {groups : Groups T X M} (hwf : GroupsWF groups) (G : T)
    (g : Roster T X M) (hg : AL.WF g) : GroupsWF (AL.set groups G g) := by
  refine ⟨AL.WF_set hwf.1 G g, ?_⟩
  intro Gg hGg
  rcases (AL.mem_set hwf.1 G g Gg).mp hGg with h | h
  · subst h
    exact hg
  · exact hwf.2 Gg h.1

theorem groupsWF_del {groups : Groups T X M} (hwf : GroupsWF groups) (G : T) :
    GroupsWF (AL.del groups G) :=
  ⟨AL.WF_del hwf.1 G, fun Gg hGg => hwf.2 Gg ((AL.mem_del groups G Gg).mp hGg).1⟩

/-- The roster broadcast completes when every member slot is open, and closes nothing. -/
theorem UpdateConnections_ok (chans : Chans X M) (g : Roster T X M)
    (hopen : ∀ kq ∈ g, (chans kq.2.Online).closed = false) :
    ∃ chans' log, UpdateConnections chans g = .ok (chans', log) ∧
      ∀ c, (chans' c).closed = (chans c).closed := by
  have h : ∀ q ∈ g.map Prod.snd, (chans q.Online).closed = false := by
    intro q hq
    obtain ⟨kq, hkq, rfl⟩ := List.mem_map.mp hq
    exact hopen kq hkq
  obtain ⟨chans', log, hrun, h1, _⟩ := offerAll_ok (rosterEntities g) _ chans h
  exact ⟨chans', log, hrun, h1⟩

/-- A transition that stores `p` under `(p.Target, p.Entity.Id)`, keeps or drops the
other members, and closes at most the slot of the member that `p` replaces, takes the
invariant with `p.Online` pending to the invariant with the rest pending. -/
theorem hubInv_add (s s' : HubState T X M) (p : Presence T X M) (pend : List Nat)
    (hinv : HubInv s (p.Online :: pend))
    (hwf' : GroupsWF s'.groups)
    (hmem : ∀ G k q, Member s'.groups G k q →
      (G = p.Target ∧ k = p.Entity.Id ∧ q = p) ∨
      (Member s.groups G k q ∧ ¬ (G = p.Target ∧ k = p.Entity.Id)))
    (hclosed : ∀ c, (s.chans c).closed = false →
      (∀ oc, Member s.groups p.Target p.Entity.Id oc → c ≠ oc.Online) →
      (s'.chans c).closed = false) :
    HubInv s' pend := by
  obtain ⟨_, hopen, hinj, hnd, hpend⟩ := hinv
  have hp := hpend p.Online (List.mem_cons_self _ _)
  have hnd' := List.nodup_cons.mp hnd
  have hpopen : (s'.chans p.Online).closed = false :=
    hclosed _ hp.1 (fun oc hoc e => hp.2 _ _ oc hoc e.symm)
  have holdopen : ∀ G k q, Member s.groups G k q → ¬ (G = p.Target ∧ k = p.Entity.Id) →
      (s'.chans q.Online).closed = false := by
    intro G k q hm hne
    refine hclosed _ (hopen G k q hm) ?_
    intro oc hoc e
    exact hne (hinj G k q _ _ oc hm hoc e)
  refine ⟨hwf', ?_, ?_, hnd'.2, ?_⟩
  · intro G k q hm
    rcases hmem G k q hm with ⟨_, _, rfl⟩ | ⟨h1, h2⟩
    · exact hpopen
    · exact holdopen G k q h1 h2
  · intro G k q G' k' q' hm hm' e
    rcases hmem G k q hm with ⟨rfl, rfl, rfl⟩ | ⟨h1, _⟩
    · rcases hmem G' k' q' hm' with ⟨rfl, rfl, rfl⟩ | ⟨h1', _⟩
      · exact ⟨rfl, rfl⟩
      · exact absurd e.symm (hp.2 _ _ _ h1')
    · rcases hmem G' k' q' hm' with ⟨rfl, rfl, rfl⟩ | ⟨h1', _⟩
      · exact absurd e (hp.2 _ _ _ h1)
      · exact hinj G k q G' k' q' h1 h1' e
  · intro ch hch
    have hc := hpend ch (List.mem_cons_of_mem _ hch)
    refine ⟨hclosed _ hc.1 (fun oc hoc e => hc.2 _ _ oc hoc e.symm), ?_⟩
    intro G k q hm
    rcases hmem G k q hm with ⟨_, _, rfl⟩ | ⟨h1, _⟩
    · intro e
      exact hnd'.1 (e ▸ hch)
    · exact hc.2 _ _ _ h1

/-- A transition that only drops members and changes no closed flag keeps the invariant. -/
theorem hubInv_remove (s s' : HubState T X M) (pend : List Nat)
    (hinv : HubInv s pend)
    (hwf' : GroupsWF s'.groups)
    (hmem : ∀ G k q, Member s'.groups G k q → Member s.groups G k q)
    (hclosed : ∀ c, (s'.chans c).closed = (s.chans c).closed) :
    HubInv s' pend := by
  obtain ⟨_, hopen, hinj, hnd, hpend⟩ := hinv
  refine ⟨hwf', ?_, ?_, hnd, ?_⟩
  · intro G k q hm
    rw [hclosed]
    exact hopen G k q (hmem G k q hm)
  · intro G k q G' k' q' hm hm' e
    exact hinj G k q G' k' q' (hmem _ _ _ hm) (hmem _ _ _ hm') e
  · intro ch hch
    refine ⟨by rw [hclosed]; exact (hpend ch hch).1, ?_⟩
    intro G k q hm
    exact (hpend ch hch).2 _ _ _ (hmem _ _ _ hm)

/-- Under the invariant, a join completes and re-establishes the invariant. -/
theorem manage_add_inv (s : HubState T X M) (p : Presence T X M) (pend : List Nat)
    (hinv : HubInv s (p.Online :: pend)) :
    ∃ s' log, Manage s (.newClients p) = .ok (s', log) ∧ HubInv s' pend := by
  have hinv0 := hinv
  obtain ⟨hwf, hopen, hinj, hnd, hpend⟩ := hinv
  have hp := hpend p.Online (List.mem_cons_self _ _)
  cases hg : AL.get? s.groups p.Target with
  | none =>
    refine ⟨⟨AL.set s.groups p.Target [(p.Entity.Id, p)], s.chans⟩, [], ?_, ?_⟩
    · simp only [Manage, hg]
    · refine hubInv_add s _ p pend hinv0
        (groupsWF_set hwf _ _ (by simp [AL.WF, AL.keys])) ?_ (fun c hc _ => hc)
      intro G k q hm
      rcases member_set hwf.1 _ _ hm with ⟨h1, h2⟩ | ⟨h1, h2⟩
      · rw [List.mem_singleton] at h2
        cases h2
        exact Or.inl ⟨h1, rfl, rfl⟩
      · exact Or.inr ⟨h2, fun h => h1 h.1⟩
  | some g =>
    have hgwf : AL.WF g := hwf.2 (p.Target, g) (AL.mem_of_get? hg)
    cases hoc : AL.get? g p.Entity.Id with
    | none =>
      have hmem1 : ∀ kq ∈ AL.set g p.Entity.Id p,
          kq = (p.Entity.Id, p) ∨ (kq ∈ g ∧ kq.1 ≠ p.Entity.Id) :=
        fun kq hkq => (AL.mem_set hgwf _ _ kq).mp hkq
      have hopen1 : ∀ kq ∈ AL.set g p.Entity.Id p, (s.chans kq.2.Online).closed = false := by
        intro kq hkq
        rcases hmem1 kq hkq with h | h
        · subst h
          exact hp.1
        · exact hopen _ _ _ (member_of_get? hg h.1)
      obtain ⟨chans1, log, hrun, hcl⟩ := UpdateConnections_ok s.chans _ hopen1
      refine ⟨⟨AL.set s.groups p.Target (AL.set g p.Entity.Id p), chans1⟩, log, ?_, ?_⟩
      · simp only [Manage, hg, hoc, hrun]
      · refine hubInv_add s _ p pend hinv0
          (groupsWF_set hwf _ _ (AL.WF_set hgwf _ _)) ?_ (fun c hc _ => by rw [hcl]; exact hc)
        intro G k q hm
        rcases member_set hwf.1 _ _ hm with ⟨h1, h2⟩ | ⟨h1, h2⟩
        · rcases hmem1 _ h2 with h | h
          · cases h
            exact Or.inl ⟨h1, rfl, rfl⟩
          · subst h1
            exact Or.inr ⟨member_of_get? hg h.1, fun e => h.2 e.2⟩
        · exact Or.inr ⟨h2, fun h => h1 h.1⟩
    | some oc =>
      have hocm : Member s.groups p.Target p.Entity.Id oc :=
        member_of_get? hg (AL.mem_of_get? hoc)
      obtain ⟨chans1, hchans1⟩ : ∃ chans1 : Chans X M, chans1 =
          Function.update s.chans oc.Online
            { s.chans oc.Online with closed := true, recvq := 0 } := ⟨_, rfl⟩
      have hclose : closeChan s.chans oc.Online = .ok chans1 := by
        simp [closeChan, hopen _ _ _ hocm, hchans1]
      have hne : ∀ c, c ≠ oc.Online → chans1 c = s.chans c := by
        intro c hc
        rw [hchans1, Function.update_noteq hc]
      have hmem1 : ∀ kq ∈ AL.set (AL.del g p.Entity.Id) p.Entity.Id p,
          kq = (p.Entity.Id, p) ∨ (kq ∈ g ∧ kq.1 ≠ p.Entity.Id) := by
        intro kq hkq
        rw [replace_eq, List.mem_append, List.mem_singleton] at hkq
        rcases hkq with h | h
        · exact Or.inr ((AL.mem_del g _ kq).mp h)
        · exact Or.inl h
      have hopen1 : ∀ kq ∈ AL.set (AL.del g p.Entity.Id) p.Entity.Id p,
          (chans1 kq.2.Online).closed = false := by
        intro kq hkq
        rcases hmem1 kq hkq with h | h
        · subst h
          rw [hne _ (fun e => hp.2 _ _ oc hocm e.symm)]
          exact hp.1
        · have hm : Member s.groups p.Target kq.1 kq.2 := member_of_get? hg h.1
          have hneq : kq.2.Online ≠ oc.Online :=
            fun e => h.2 (hinj _ _ _ _ _ _ hm hocm e).2
          rw [hne _ hneq]
          exact hopen _ _ _ hm
      obtain ⟨chans2, log, hrun, hcl⟩ := UpdateConnections_ok chans1 _ hopen1
      refine ⟨⟨AL.set s.groups p.Target (AL.set (AL.del g p.Entity.Id) p.Entity.Id p),
        chans2⟩, log, ?_, ?_⟩
      · simp only [Manage, hg, hoc, hclose, hrun]
      · refine hubInv_add s _ p pend hinv0
          (groupsWF_set hwf _ _ (AL.WF_set (AL.WF_del hgwf _) _ _)) ?_ ?_
        · intro G k q hm
          rcases member_set hwf.1 _ _ hm with ⟨h1, h2⟩ | ⟨h1, h2⟩
          · rcases hmem1 _ h2 with h | h
            · cases h
              exact Or.inl ⟨h1, rfl, rfl⟩
            · subst h1
              exact Or.inr ⟨member_of_get? hg h.1, fun e => h.2 e.2⟩
          · exact Or.inr ⟨h2, fun h => h1 h.1⟩
        · intro c hc hcne
          show (chans2 c).closed = false
          rw [hcl, hne _ (hcne oc hocm)]
          exact hc

/-- Under the invariant, a leave completes and keeps the invariant. -/
theorem manage_remove_inv (s : HubState T X M) (p : Presence T X M) (pend : List Nat)
    (hinv : HubInv s pend) :
    ∃ s' log, Manage s (.closingClients p) = .ok (s', log) ∧ HubInv s' pend := by
  have hinv0 := hinv
  obtain ⟨hwf, hopen, _, _, _⟩ := hinv
  have hwf1 : GroupsWF (deleteEntity s.groups p) := by
    unfold deleteEntity
    cases hg : AL.get? s.groups p.Target with
    | none => exact hwf
    | some g =>
      exact groupsWF_set hwf _ _ (AL.WF_del (hwf.2 (p.Target, g) (AL.mem_of_get? hg)) _)
  have hmem1 : ∀ G k q, Member (deleteEntity s.groups p) G k q → Member s.groups G k q := by
    unfold deleteEntity
    cases hg : AL.get? s.groups p.Target with
    | none => exact fun _ _ _ h => h
    | some g =>
      intro G k q hm
      rcases member_set hwf.1 _ _ hm with ⟨h1, h2⟩ | ⟨_, h2⟩
      · subst h1
        exact member_of_get? hg ((AL.mem_del g _ _).mp h2).1
      · exact h2
  by_cases hlen : (groupOf (deleteEntity s.groups p) p.Target).length = 0
  · refine ⟨⟨AL.del (deleteEntity s.groups p) p.Target, s.chans⟩, [], ?_, ?_⟩
    · simp only [Manage, hlen, if_true]
    · exact hubInv_remove s _ pend hinv0 (groupsWF_del hwf1 _)
        (fun G k q hm => hmem1 G k q (member_del _ hm)) (fun _ => rfl)
  · have hopen1 : ∀ kq ∈ groupOf (deleteEntity s.groups p) p.Target,
        (s.chans kq.2.Online).closed = false := by
      intro kq hkq
      unfold groupOf at hkq
      cases hg1 : AL.get? (deleteEntity s.groups p) p.Target with
      | none =>
        rw [hg1] at hkq
        simp at hkq
      | some g1 =>
        rw [hg1] at hkq
        exact hopen _ _ _ (hmem1 _ _ _ (member_of_get? hg1 hkq))
    obtain ⟨chans1, log, hrun, hcl⟩ := UpdateConnections_ok s.chans _ hopen1
    refine ⟨⟨deleteEntity s.groups p, chans1⟩, log, ?_, ?_⟩
    · simp only [Manage, hlen, if_false, hrun]
    · exact hubInv_remove s _ pend hinv0 hwf1 hmem1 hcl

/-- Under the invariant for the slots of its joins, a sequence of requests is processed
to the end, and the invariant holds in the final state. -/
theorem runHub_inv (rs : List (HubReq T X M)) (s : HubState T X M)
    (hinv : HubInv s (addSlots rs)) :
    ∃ s', runHub s rs = .ok s' ∧ HubInv s' [] := by
  induction rs generalizing s with
  | nil => exact ⟨s, rfl, hinv⟩
  | cons r rs ih =>
    cases r with
    | newClients p =>
      obtain ⟨s1, log, h1, h2⟩ := manage_add_inv s p (addSlots rs) hinv
      obtain ⟨s', h3, h4⟩ := ih s1 h2
      exact ⟨s', by simp only [runHub, h1, h3], h4⟩
    | closingClients p =>
      obtain ⟨s1, log, h1, h2⟩ := manage_remove_inv s p (addSlots rs) hinv
      obtain ⟨s', h3, h4⟩ := ih s1 h2
      exact ⟨s', by simp only [runHub, h1, h3], h4⟩

/-- C4 as stated fails. From the empty Hub, submitting the registration `pa1` twice makes
the second step close the slot of `pa1` and then send the roster on it: the step panics
(a delivery to an invalidated slot). And when two groups hold registrations with the same
slot 1, replacing both invalidates slot 1 a second time: the step panics. -/
theorem hub_no_failure_counterexample :
    runHub (emptyHub 1) [.newClients pa1, .newClients pa1]
      = .error .sendOnClosedChannel ∧
    runHub (emptyHub 1)
      [.newClients pa1, .newClients ⟨"room2", ⟨"a", ()⟩, 1⟩, .newClients pa2,
        .newClients ⟨"room2", ⟨"a", ()⟩, 4⟩]
      = .error .closeOfClosedChannel :=
  ⟨by rfl, by rfl⟩

/-- C4 (amended). Start from the Hub with no group. If the notify slots carried by the
`AddClient` requests of a sequence are pairwise different (no slot is submitted twice)
and open, then every step of the sequence completes without panic: the Hub never sends a
roster on a closed slot and never closes a slot twice. Every prefix of the sequence is
processed as well. -/
theorem hub_no_failure_of_fresh_slots (chans : Chans X M) (rs : List (HubReq T X M))
    (hfresh : (addSlots rs).Nodup)
    (hopen : ∀ ch ∈ addSlots rs, (chans ch).closed = false) :
    (∃ s', runHub ⟨[], chans⟩ rs = .ok s') ∧
    (∀ n, ∃ s', runHub ⟨[], chans⟩ (rs.take n) = .ok s') := by
  have hinv0 : ∀ pend : List Nat, pend.Nodup → (∀ ch ∈ pend, (chans ch).closed = false) →
      HubInv (⟨[], chans⟩ : HubState T X M) pend := by
    intro pend h1 h2
    have hno : ∀ G k q, ¬ Member ([] : Groups T X M) G k q := by
      rintro G k q ⟨g, hg, _⟩
      simp at hg
    refine ⟨⟨by simp [AL.WF, AL.keys], by simp⟩, ?_, ?_, h1, ?_⟩
    · exact fun G k q h => absurd h (hno G k q)
    · exact fun G k q _ _ _ h => absurd h (hno G k q)
    · exact fun ch hch => ⟨h2 ch hch, fun G k q h => absurd h (hno G k q)⟩
  have hsub : ∀ n, (addSlots (rs.take n)).Sublist (addSlots rs) := by
    intro n
    induction rs generalizing n with
    | nil => simp
    | cons r rs ih =>
      cases n with
      | zero => simp [addSlots]
      | succ n =>
        have hnd : (addSlots rs).Nodup := by
          cases r with
          | newClients p => exact (List.nodup_cons.mp hfresh).2
          | closingClients p => exact hfresh
        have hop : ∀ ch ∈ addSlots rs, (chans ch).closed = false := by
          intro ch hch
          cases r with
          | newClients p => exact hopen ch (List.mem_cons_of_mem _ hch)
          | closingClients p => exact hopen ch hch
        cases r with
        | newClients p =>
          simp only [List.take_succ_cons, addSlots]
          exact (ih hnd hop n).cons₂ _
        | closingClients p =>
          simp only [List.take_succ_cons, addSlots]
          exact ih hnd hop n
  constructor
  · obtain ⟨s', h, _⟩ := runHub_inv rs _ (hinv0 _ hfresh hopen)
    exact ⟨s', h⟩
  · intro n
    obtain ⟨s', h, _⟩ := runHub_inv (rs.take n) _
      (hinv0 _ ((hsub n).nodup hfresh) (fun ch hch => hopen ch ((hsub n).subset hch)))
    exact ⟨s', h⟩

/-- Witness of C4 (amended): scenario C, with the different open slots 1, 2 and 3. -/
theorem hub_no_failure_of_fresh_slots_witness :
    ∃ s', runHub (emptyHub 1)
      [.newClients pa1, .newClients pa2, .newClients pb, .closingClients pa1] = .ok s' :=
  (hub_no_failure_of_fresh_slots (fun _ => ⟨false, 1, [], 0⟩)
    [.newClients pa1, .newClients pa2, .newClients pb, .closingClients pa1]
    (by decide) (by intro ch _; rfl)).1

/-! ## Presence Hub: what a broadcast leaves in the slots -/

/-- C5 as stated fails. From the empty Hub with slots of capacity 1, let `pa1` and `pb`
join "room1" and let `pb` leave. The last broadcast, of the roster that holds only "a",
finds the slot of `pa1` still full with the snapshot of "a" and "b": the send is skipped,
the stale snapshot is not overwritten, and the slot does not hold the latest snapshot. -/
theorem broadcast_last_write_counterexample :
    ∃ s, runHub (emptyHub 1) [.newClients pa1, .newClients pb, .closingClients pb] = .ok s ∧
      AL.get? s.groups "room1" = some [("a", pa1)] ∧
      rosterEntities [("a", pa1)] = [⟨"a", ()⟩] ∧
      (s.chans pa1.Online).buf = [[⟨"a", ()⟩, ⟨"b", ()⟩]] :=
  ⟨_, rfl, by decide, by decide, by decide⟩

/-- C5 (amended). A roster broadcast for a group whose member slots are open completes.
A member slot that can accept (a receiver waits, or the buffer has room) is sent the
snapshot built from the roster; a member slot that cannot accept is skipped and keeps
its content. When the members have pairwise different slots, a slot that can accept
ends as that slot after taking the snapshot; so an empty slot of capacity 1 holds the
latest snapshot, and a slot of capacity 1 that holds a stale snapshot still holds the
stale one: the new snapshot is dropped for that member. -/
theorem broadcast_latest_or_skip (chans : Chans X M) (g : Roster T X M)
    (hopen : ∀ kq ∈ g, (chans kq.2.Online).closed = false) :
    ∃ chans' log, UpdateConnections chans g = .ok (chans', log) ∧
      (∀ kq ∈ g, (chans kq.2.Online).canAccept = true →
          ⟨kq.2.Online, rosterEntities g⟩ ∈ log) ∧
      (∀ kq ∈ g, (chans kq.2.Online).canAccept = false →
          chans' kq.2.Online = chans kq.2.Online ∧
          ⟨kq.2.Online, rosterEntities g⟩ ∉ log) ∧
      (∀ kq ∈ g, ∀ stale, chans kq.2.Online = ⟨false, 1, [stale], 0⟩ →
          chans' kq.2.Online = ⟨false, 1, [stale], 0⟩) ∧
      ((g.map (fun kq => kq.2.Online)).Nodup →
        (∀ kq ∈ g, (chans kq.2.Online).canAccept = true →
          chans' kq.2.Online = (chans kq.2.Online).accept (rosterEntities g)) ∧
        (∀ kq ∈ g, chans kq.2.Online = ⟨false, 1, [], 0⟩ →
          chans' kq.2.Online = ⟨false, 1, [rosterEntities g], 0⟩)) := by
  have h : ∀ q ∈ g.map Prod.snd, (chans q.Online).closed = false := by
    intro q hq
    obtain ⟨kq, hkq, rfl⟩ := List.mem_map.mp hq
    exact hopen kq hkq
  obtain ⟨chans', log, hrun, _, _, h3, h4, h5⟩ := offerAll_ok (rosterEntities g) _ chans h
  have hskip : ∀ kq ∈ g, (chans kq.2.Online).canAccept = false →
      chans' kq.2.Online = chans kq.2.Online ∧ ⟨kq.2.Online, rosterEntities g⟩ ∉ log := by
    intro kq _ hacc
    refine ⟨h5 _ hacc, ?_⟩
    intro hm
    have := (h3 _ hm).2.1
    simp only at this
    rw [hacc] at this
    exact absurd this (by decide)
  refine ⟨chans', log, hrun, ?_, hskip, ?_, ?_⟩
  · intro kq hkq hacc
    exact h4 kq.2 (List.mem_map.mpr ⟨kq, hkq, rfl⟩) hacc
  · intro kq hkq stale hst
    have hacc : (chans kq.2.Online).canAccept = false := by
      rw [hst]
      simp [ChanState.canAccept]
    rw [(hskip kq hkq hacc).1, hst]
  · intro hpriv
    have hpriv' : ((g.map Prod.snd).map (fun q => q.Online)).Nodup := by
      rw [List.map_map]
      exact hpriv
    have hex := offerAll_private (rosterEntities g) _ chans chans' log h hpriv' hrun
    constructor
    · intro kq hkq hacc
      rw [hex kq.2 (List.mem_map.mpr ⟨kq, hkq, rfl⟩), if_pos hacc]
    · intro kq hkq hst
      rw [hex kq.2 (List.mem_map.mpr ⟨kq, hkq, rfl⟩), hst]
      simp [ChanState.canAccept, ChanState.accept]

/-- Witness of C5 (amended): the last broadcast of the run above, on the roster of `pa1`
with its slot full. -/
theorem broadcast_latest_or_skip_witness :
    ∃ chans' log,
      UpdateConnections
        (fun _ => (⟨false, 1, [[⟨"a", ()⟩, ⟨"b", ()⟩]], 0⟩ : ChanState String Unit))
        [("a", pa1)] = .ok (chans', log) ∧
      chans' pa1.Online = ⟨false, 1, [[⟨"a", ()⟩, ⟨"b", ()⟩]], 0⟩ := by
  obtain ⟨chans', log, h1, _, _, h4, _⟩ :=
    broadcast_latest_or_skip
      (fun _ => (⟨false, 1, [[⟨"a", ()⟩, ⟨"b", ()⟩]], 0⟩ : ChanState String Unit))
      [("a", pa1)] (by intro kq _; rfl)
  exact ⟨chans', log, h1, h4 ("a", pa1) (List.mem_singleton.mpr rfl) _ rfl⟩

/-! ## Presence Hub: removal of an absent entity -/

/-- C6 as stated fails. In the state reached by the join of `pa1`, the entity id "b" has
no entry in "room1"; processing `RemoveClient(pb)` leaves the roster as it is but
broadcasts it: the slot of `pa1` receives the roster that holds "a". -/
theorem hub_remove_absent_counterexample :
    AL.get? hubA.groups "room1" = some [("a", pa1)] ∧
    AL.get? [("a", pa1)] pb.Entity.Id = none ∧
    ∃ s', Manage hubA (.closingClients pb) = .ok (s', [⟨1, [⟨"a", ()⟩]⟩]) ∧
      s'.groups = hubA.groups ∧ (s'.chans 1).buf = [[⟨"a", ()⟩]] :=
  ⟨by decide, by decide, _, rfl, by decide, by decide⟩

/-- C6 (amended). Let the entity id of `p` have no entry in group `p.Target`. If the group
does not exist, processing `RemoveClient(p)` leaves the state as it is and delivers
nothing. If the group exists, with a roster that is not empty and whose member slots are
open, the step completes and leaves the groups map, so every roster, as it is; but it
broadcasts the unchanged roster: each delivery carries it and goes to the slot of a
member, every member whose slot can accept receives it, and the slots of nobody else and
the slots that cannot accept are left as they are. -/
theorem hub_remove_absent (s : HubState T X M) (p : Presence T X M)
    (habsent : ∀ g, AL.get? s.groups p.Target = some g → AL.get? g p.Entity.Id = none)
    (hne : ∀ g, AL.get? s.groups p.Target = some g → g ≠ [])
    (hopen : ∀ g, AL.get? s.groups p.Target = some g →
      ∀ kq ∈ g, (s.chans kq.2.Online).closed = false) :
    ∃ chans' log, Manage s (.closingClients p) = .ok (⟨s.groups, chans'⟩, log) ∧
      (AL.get? s.groups p.Target = none → chans' = s.chans ∧ log = []) ∧
      (∀ g, AL.get? s.groups p.Target = some g →
        (∀ d ∈ log, d.roster = rosterEntities g ∧ ∃ kq ∈ g, kq.2.Online = d.chan) ∧
        (∀ kq ∈ g, (s.chans kq.2.Online).canAccept = true →
          ⟨kq.2.Online, rosterEntities g⟩ ∈ log) ∧
        (∀ c, (∀ kq ∈ g, kq.2.Online ≠ c) → chans' c = s.chans c) ∧
        (∀ c, (s.chans c).canAccept = false → chans' c = s.chans c)) := by
  cases hg : AL.get? s.groups p.Target with
  | none =>
    refine ⟨s.chans, [], ?_, fun _ => ⟨rfl, rfl⟩, ?_⟩
    · have h1 : deleteEntity s.groups p = s.groups := by simp [deleteEntity, hg]
      have h2 : (groupOf s.groups p.Target).length = 0 := by simp [groupOf, hg]
      simp only [Manage, h1, h2, if_true]
      rw [AL.del_of_not_mem _ _ ((AL.get?_eq_none_iff _ _).mp hg)]
    · intro g hg'
      cases hg'
  | some g =>
    have hk : p.Entity.Id ∉ AL.keys g := (AL.get?_eq_none_iff _ _).mp (habsent g hg)
    have h1 : deleteEntity s.groups p = s.groups := by
      simp only [deleteEntity, hg]
      rw [AL.del_of_not_mem g _ hk, AL.set_get?_self hg]
    have h2 : groupOf s.groups p.Target = g := by simp [groupOf, hg]
    have h3 : ¬ g.length = 0 := fun h => hne g hg (List.length_eq_zero.mp h)
    have h : ∀ q ∈ g.map Prod.snd, (s.chans q.Online).closed = false := by
      intro q hq
      obtain ⟨kq, hkq, rfl⟩ := List.mem_map.mp hq
      exact hopen g hg kq hkq
    obtain ⟨chans', log, hrun, _, hb2, hb3, hb4, hb5⟩ :=
      offerAll_ok (rosterEntities g) _ s.chans h
    refine ⟨chans', log, ?_, ?_, ?_⟩
    · simp only [Manage, h1, h2, h3, if_false, UpdateConnections, hrun]
    · intro hnone
      cases hnone
    · intro g' hg'
      cases hg'
      refine ⟨?_, ?_, ?_, hb5⟩
      · intro d hd
        obtain ⟨e1, _, q, hq, e3⟩ := hb3 d hd
        obtain ⟨kq, hkq, rfl⟩ := List.mem_map.mp hq
        exact ⟨e1, kq, hkq, e3⟩
      · intro kq hkq hacc
        exact hb4 kq.2 (List.mem_map.mpr ⟨kq, hkq, rfl⟩) hacc
      · intro c hc
        refine hb2 c ?_
        intro q hq
        obtain ⟨kq, hkq, rfl⟩ := List.mem_map.mp hq
        exact hc kq hkq

/-- Witness of C6 (amended): "b" is absent from "room1", whose member "a" has an open
empty slot and receives the unchanged roster. -/
theorem hub_remove_absent_witness :
    ∃ chans' log, Manage hubA (.closingClients pb) = .ok (⟨hubA.groups, chans'⟩, log) ∧
      (⟨pa1.Online, rosterEntities [("a", pa1)]⟩ : Delivery String Unit) ∈ log := by
  have hg : AL.get? hubA.groups pb.Target = some [("a", pa1)] := by decide
  obtain ⟨chans', log, h1, _, h3⟩ :=
    hub_remove_absent hubA pb
      (by
        intro g hg'
        rw [hg] at hg'
        cases hg'
        decide)
      (by
        intro g hg'
        rw [hg] at hg'
        cases hg'
        simp)
      (by intro g _ kq _; rfl)
  exact ⟨chans', log, h1, (h3 _ hg).2.1 ("a", pa1) (List.mem_singleton.mpr rfl) (by decide)⟩

end HubTheorems

/-! ## Event Broker: idempotence of `AddClient` -/

section BrokerIdempotence

variable {T : Type} [DecidableEq T]

theorem allTrue_set {clients : Index T} (hwf : AL.WF clients) (hall : AllTrue clients)
    (k : T) (b : Bucket T) (hb : ∀ cv ∈ b, cv.2 = true) : AllTrue (AL.set clients k b) := by
  intro kb hkb
  rcases (AL.mem_set hwf k b kb).mp hkb with h | h
  · subst h
    exact hb
  · exact hall kb h.1

theorem allTrue_del {clients : Index T} (hall : AllTrue clients) (k : T) :
    AllTrue (AL.del clients k) :=
  fun kb hkb => hall kb ((AL.mem_del clients k kb).mp hkb).1

/-- One step of `Listen` keeps every stored value `true`. -/
theorem Listen_allTrue (clients : Index T) (r : BrokerReq T)
    (hwf : IndexWF clients) (hall : AllTrue clients) : AllTrue (Listen clients r).1 := by
  cases r with
  | Notifier e => exact hall
  | newClients c =>
    simp only [Listen]
    cases hg : AL.get? clients c.Target with
    | none => exact allTrue_set hwf.1 hall _ _ (by simp)
    | some cm =>
      refine allTrue_set hwf.1 hall _ _ ?_
      intro cv hcv
      rcases (AL.mem_set (hwf.2 (c.Target, cm) (AL.mem_of_get? hg)) c true cv).mp hcv
        with h | h
      · subst h
        rfl
      · exact hall (c.Target, cm) (AL.mem_of_get? hg) cv h.1
  | closingClients c =>
    have h1 : AllTrue (deleteConn clients c) := by
      unfold deleteConn
      cases hg : AL.get? clients c.Target with
      | none => exact hall
      | some cm =>
        refine allTrue_set hwf.1 hall _ _ ?_
        intro cv hcv
        exact hall (c.Target, cm) (AL.mem_of_get? hg) cv ((AL.mem_del cm c cv).mp hcv).1
    simp only [Listen]
    split
    · exact allTrue_del h1 _
    · exact h1

theorem runBroker_allTrue (rs : List (BrokerReq T)) (clients : Index T)
    (hwf : IndexWF clients) (hkey : TargetKeyed clients) (hne : NoEmptyBucket clients)
    (hall : AllTrue clients) : AllTrue (runBroker clients rs) := by
  induction rs generalizing clients with
  | nil => exact hall
  | cons r rs ih =>
    obtain ⟨h1, h2, h3⟩ := Listen_preserves clients r hwf hkey hne
    exact ih _ h1 h2 h3 (Listen_allTrue clients r hwf hall)

/-- Adding a connection that is stored with the value `true` in the bucket of its target
leaves the index as it is. -/
theorem add_registered_eq (clients : Index T) (c : Connection T) (cm : Bucket T)
    (hg : AL.get? clients c.Target = some cm) (hc : AL.get? cm c = some true) :
    (Listen clients (.newClients c)).1 = clients := by
  simp only [Listen, hg]
  rw [AL.set_get?_self hc, AL.set_get?_self hg]

/-- C11 (Broker `AddClient` is idempotent). For every index and connection `c`,
processing `AddClient(c)` twice gives the same index (and no send) as processing it once.
Re-adding a connection that is stored with the value `true` in the bucket of its target
leaves the index unchanged; in every index reachable from the empty Broker this covers
each registered connection. -/
theorem addClient_idempotent (clients : Index T) (c : Connection T) :
    Listen (Listen clients (.newClients c)).1 (.newClients c)
      = Listen clients (.newClients c) ∧
    (∀ cm, AL.get? clients c.Target = some cm → AL.get? cm c = some true →
        (Listen clients (.newClients c)).1 = clients) ∧
    (∀ rs : List (BrokerReq T), Registered (runBroker [] rs) c →
        (Listen (runBroker [] rs) (.newClients c)).1 = runBroker [] rs) := by
  refine ⟨?_, add_registered_eq clients c, ?_⟩
  · cases hg : AL.get? clients c.Target with
    | none =>
      simp only [Listen, hg, AL.get?_set, if_true, al_set_set]
      simp [AL.set]
    | some cm =>
      simp only [Listen, hg, AL.get?_set, if_true, al_set_set]
  · intro rs hreg
    have h0wf : IndexWF ([] : Index T) := ⟨by simp [AL.WF, AL.keys], by simp⟩
    have h0key : TargetKeyed ([] : Index T) := by simp [TargetKeyed]
    have h0ne : NoEmptyBucket ([] : Index T) := by simp [NoEmptyBucket]
    have h0all : AllTrue ([] : Index T) := by simp [AllTrue]
    obtain ⟨hwf, hkey, _⟩ := runBroker_preserves rs [] h0wf h0key h0ne
    have hall := runBroker_allTrue rs [] h0wf h0key h0ne h0all
    obtain ⟨cm, hg, hc⟩ := registered_inBucket_target hkey hreg
    obtain ⟨v, hv⟩ := AL.get?_isSome_of_mem_keys hc
    have hvt : v = true :=
      hall (c.Target, cm) (AL.mem_of_get? hg) (c, v) (AL.mem_of_get? hv)
    subst hvt
    exact add_registered_eq _ c cm hg hv

end BrokerIdempotence

/-! ## Presence Hub: the steps of `Manage`, case by case -/

section HubSteps

variable {T X M : Type} [DecidableEq T] [DecidableEq X]

/-- The join of the first member of a group: the group is created, nothing is sent. -/
theorem manage_create_eq (s : HubState T X M) (p : Presence T X M)
    (hg : AL.get? s.groups p.Target = none) :
    Manage s (.newClients p) =
      .ok (⟨AL.set s.groups p.Target [(p.Entity.Id, p)], s.chans⟩, []) := by
  simp only [Manage, hg]

/-- The join of a new entity id into an existing group: insert, then broadcast. -/
theorem manage_join_eq (s : HubState T X M) (p : Presence T X M) (g : Roster T X M)
    (hg : AL.get? s.groups p.Target = some g) (hx : AL.get? g p.Entity.Id = none) :
    Manage s (.newClients p) =
      (match UpdateConnections s.chans (g ++ [(p.Entity.Id, p)]) with
       | .error err => .error err
       | .ok (chans1, log) =>
         .ok (⟨AL.set s.groups p.Target (g ++ [(p.Entity.Id, p)]), chans1⟩, log)) := by
  simp only [Manage, hg, hx]
  rw [AL.set_of_not_mem g _ _ ((AL.get?_eq_none_iff _ _).mp hx)]

/-- A leave from an existing group: delete the entry, then delete the group when it is
empty, else broadcast what is left. -/
theorem manage_closing_eq (s : HubState T X M) (p : Presence T X M) (g : Roster T X M)
    (hg : AL.get? s.groups p.Target = some g) :
    Manage s (.closingClients p) =
      if (AL.del g p.Entity.Id).length = 0 then
        .ok (⟨AL.del (AL.set s.groups p.Target (AL.del g p.Entity.Id)) p.Target,
          s.chans⟩, [])
      else
        (match UpdateConnections s.chans (AL.del g p.Entity.Id) with
         | .error err => .error err
         | .ok (chans1, log) =>
           .ok (⟨AL.set s.groups p.Target (AL.del g p.Entity.Id), chans1⟩, log)) := by
  have h1 : deleteEntity s.groups p = AL.set s.groups p.Target (AL.del g p.Entity.Id) := by
    simp only [deleteEntity, hg]
  have h2 : groupOf (AL.set s.groups p.Target (AL.del g p.Entity.Id)) p.Target
      = AL.del g p.Entity.Id := by
    simp [groupOf, AL.get?_set]
  simp only [Manage, h1, h2]

/-- A leave from a group that does not exist changes nothing and sends nothing. -/
theorem manage_closing_absent_eq (s : HubState T X M) (p : Presence T X M)
    (hg : AL.get? s.groups p.Target = none) :
    Manage s (.closingClients p) = .ok (s, []) := by
  have h1 : deleteEntity s.groups p = s.groups := by simp [deleteEntity, hg]
  have h2 : (groupOf s.groups p.Target).length = 0 := by simp [groupOf, hg]
  simp only [Manage, h1, h2, if_true]
  rw [AL.del_of_not_mem _ _ ((AL.get?_eq_none_iff _ _).mp hg)]

theorem rosterEntities_append (g h : Roster T X M) :
    rosterEntities (g ++ h) = rosterEntities g ++ rosterEntities h := by
  simp [rosterEntities]

/-- The roster of `G` after a run of joins with new, pairwise different entity ids into
the existing group `G`: the old roster followed by the new registrations. -/
theorem joins_roster (G : T) (ps : List (Presence T X M)) (s s' : HubState T X M)
    (g : Roster T X M) (hg : AL.get? s.groups G = some g)
    (hT : ∀ p ∈ ps, p.Target = G)
    (hnew : ∀ p ∈ ps, p.Entity.Id ∉ AL.keys g)
    (hids : (ps.map (fun p => p.Entity.Id)).Nodup)
    (hrun : runHub s (ps.map .newClients) = .ok s') :
    AL.get? s'.groups G = some (g ++ ps.map (fun p => (p.Entity.Id, p))) ∧
    ∀ k, k ≠ G → AL.get? s'.groups k = AL.get? s.groups k := by
  induction ps generalizing s g with
  | nil =>
    simp only [List.map_nil, runHub, Except.ok.injEq] at hrun
    subst hrun
    simp [hg]
  | cons p ps ih =>
    have hpT : p.Target = G := hT p (List.mem_cons_self _ _)
    subst hpT
    have hx : AL.get? g p.Entity.Id = none :=
      (AL.get?_eq_none_iff _ _).mpr (hnew p (List.mem_cons_self _ _))
    simp only [List.map_cons, List.nodup_cons, List.mem_map, not_exists, not_and] at hids
    simp only [List.map_cons, runHub, manage_join_eq s p g hg hx] at hrun
    cases hU : UpdateConnections s.chans (g ++ [(p.Entity.Id, p)]) with
    | error err =>
      rw [hU] at hrun
      simp at hrun
    | ok r =>
      obtain ⟨chans1, log⟩ := r
      rw [hU] at hrun
      simp only at hrun
      have hg1 : AL.get? (AL.set s.groups p.Target (g ++ [(p.Entity.Id, p)])) p.Target
          = some (g ++ [(p.Entity.Id, p)]) := by
        simp [AL.get?_set]
      have hnew1 : ∀ q ∈ ps, q.Entity.Id ∉ AL.keys (g ++ [(p.Entity.Id, p)]) := by
        intro q hq hmem
        simp only [AL.keys, List.map_append, List.map_cons, List.map_nil, List.mem_append,
          List.mem_singleton] at hmem
        rcases hmem with h | h
        · exact hnew q (List.mem_cons_of_mem _ hq) h
        · exact hids.1 q hq h
      obtain ⟨h1, h2⟩ := ih ⟨_, chans1⟩ _ hg1 (fun q hq => hT q (List.mem_cons_of_mem _ hq))
        hnew1 hids.2 hrun
      refine ⟨by simpa using h1, ?_⟩
      intro k hk
      rw [h2 k hk]
      exact get?_set_groups s.groups p.Target k _ hk

/-- A run of joins with new, pairwise different entity ids into the existing group `G`
completes when the slots of the members and of the joining registrations are open. -/
theorem joins_complete (G : T) (ps : List (Presence T X M)) (s : HubState T X M)
    (g : Roster T X M) (hg : AL.get? s.groups G = some g)
    (hT : ∀ p ∈ ps, p.Target = G)
    (hnew : ∀ p ∈ ps, p.Entity.Id ∉ AL.keys g)
    (hids : (ps.map (fun p => p.Entity.Id)).Nodup)
    (hgopen : ∀ kq ∈ g, (s.chans kq.2.Online).closed = false)
    (hopen : ∀ p ∈ ps, (s.chans p.Online).closed = false) :
    ∃ s', runHub s (ps.map .newClients) = .ok s' := by
  induction ps generalizing s g with
  | nil => exact ⟨s, rfl⟩
  | cons p ps ih =>
    have hpT : p.Target = G := hT p (List.mem_cons_self _ _)
    subst hpT
    have hx : AL.get? g p.Entity.Id = none :=
      (AL.get?_eq_none_iff _ _).mpr (hnew p (List.mem_cons_self _ _))
    simp only [List.map_cons, List.nodup_cons, List.mem_map, not_exists, not_and] at hids
    have hopen1 : ∀ kq ∈ g ++ [(p.Entity.Id, p)], (s.chans kq.2.Online).closed = false := by
      intro kq hkq
      rcases List.mem_append.mp hkq with h | h
      · exact hgopen kq h
      · rw [List.mem_singleton] at h
        subst h
        exact hopen p (List.mem_cons_self _ _)
    obtain ⟨chans1, log, hU, hcl⟩ := UpdateConnections_ok s.chans _ hopen1
    have hg1 : AL.get? (AL.set s.groups p.Target (g ++ [(p.Entity.Id, p)])) p.Target
        = some (g ++ [(p.Entity.Id, p)]) := by
      simp [AL.get?_set]
    have hnew1 : ∀ q ∈ ps, q.Entity.Id ∉ AL.keys (g ++ [(p.Entity.Id, p)]) := by
      intro q hq hmem
      simp only [AL.keys, List.map_append, List.map_cons, List.map_nil, List.mem_append,
        List.mem_singleton] at hmem
      rcases hmem with h | h
      · exact hnew q (List.mem_cons_of_mem _ hq) h
      · exact hids.1 q hq h
    obtain ⟨s', hs'⟩ := ih ⟨AL.set s.groups p.Target (g ++ [(p.Entity.Id, p)]), chans1⟩ _ hg1
      (fun q hq => hT q (List.mem_cons_of_mem _ hq)) hnew1 hids.2
      (fun kq hkq => by
        show (chans1 kq.2.Online).closed = false
        rw [hcl]
        exact hopen1 kq hkq)
      (fun q hq => by
        show (chans1 q.Online).closed = false
        rw [hcl]
        exact hopen q (List.mem_cons_of_mem _ hq))
    refine ⟨s', ?_⟩
    simp only [List.map_cons, runHub, manage_join_eq s p g hg hx, hU]
    exact hs'

end HubSteps

/-! ## Presence Hub: roster completeness -/

section HubCompleteness

variable {T X M : Type} [DecidableEq T] [DecidableEq X]

/-- The roster of a group `G` that did not exist, after a run of joins with pairwise
different entity ids: the registrations, in the order of the joins. -/
theorem joins_new_group (G : T) (ps : List (Presence T X M)) (s s' : HubState T X M)
    (hne : ps ≠ []) (hG : AL.get? s.groups G = none)
    (hT : ∀ p ∈ ps, p.Target = G)
    (hids : (ps.map (fun p => p.Entity.Id)).Nodup)
    (hrun : runHub s (ps.map .newClients) = .ok s') :
    AL.get? s'.groups G = some (ps.map (fun p => (p.Entity.Id, p))) ∧
    ∀ k, k ≠ G → AL.get? s'.groups k = AL.get? s.groups k := by
  cases ps with
  | nil => exact absurd rfl hne
  | cons p ps =>
    have hpT : p.Target = G := hT p (List.mem_cons_self _ _)
    subst hpT
    simp only [List.map_cons, List.nodup_cons, List.mem_map, not_exists, not_and] at hids
    simp only [List.map_cons, runHub, manage_create_eq s p hG] at hrun
    have hg1 : AL.get? (AL.set s.groups p.Target [(p.Entity.Id, p)]) p.Target
        = some [(p.Entity.Id, p)] := by
      simp [AL.get?_set]
    have hnew1 : ∀ q ∈ ps, q.Entity.Id ∉ AL.keys [(p.Entity.Id, p)] := by
      intro q hq hmem
      simp only [AL.keys, List.map_cons, List.map_nil, List.mem_singleton] at hmem
      exact hids.1 q hq hmem
    obtain ⟨h1, h2⟩ := joins_roster p.Target ps ⟨_, s.chans⟩ s' _ hg1
      (fun q hq => hT q (List.mem_cons_of_mem _ hq)) hnew1 hids.2 hrun
    refine ⟨by simpa using h1, ?_⟩
    intro k hk
    rw [h2 k hk]
    exact get?_set_groups s.groups p.Target k _ hk

/-- A run of joins with pairwise different entity ids into a group that did not exist
completes when the slots of the registrations are open. -/
theorem joins_new_group_complete (G : T) (ps : List (Presence T X M))
    (s : HubState T X M) (hG : AL.get? s.groups G = none)
    (hT : ∀ p ∈ ps, p.Target = G)
    (hids : (ps.map (fun p => p.Entity.Id)).Nodup)
    (hopen : ∀ p ∈ ps, (s.chans p.Online).closed = false) :
    ∃ s', runHub s (ps.map .newClients) = .ok s' := by
  cases ps with
  | nil => exact ⟨s, rfl⟩
  | cons p ps =>
    have hpT : p.Target = G := hT p (List.mem_cons_self _ _)
    subst hpT
    simp only [List.map_cons, List.nodup_cons, List.mem_map, not_exists, not_and] at hids
    have hg1 : AL.get? (AL.set s.groups p.Target [(p.Entity.Id, p)]) p.Target
        = some [(p.Entity.Id, p)] := by
      simp [AL.get?_set]
    have hnew1 : ∀ q ∈ ps, q.Entity.Id ∉ AL.keys [(p.Entity.Id, p)] := by
      intro q hq hmem
      simp only [AL.keys, List.map_cons, List.map_nil, List.mem_singleton] at hmem
      exact hids.1 q hq hmem
    obtain ⟨s', hs'⟩ := joins_complete p.Target ps
      ⟨AL.set s.groups p.Target [(p.Entity.Id, p)], s.chans⟩ _ hg1
      (fun q hq => hT q (List.mem_cons_of_mem _ hq)) hnew1 hids.2
      (fun kq hkq => by
        rw [List.mem_singleton] at hkq
        subst hkq
        exact hopen p (List.mem_cons_self _ _))
      (fun q hq => hopen q (List.mem_cons_of_mem _ hq))
    refine ⟨s', ?_⟩
    simp only [List.map_cons, runHub, manage_create_eq s p hG]
    exact hs'

/-- C12 (roster completeness). Let `N ≥ 1` registrations with pairwise different entity
ids join a group `G` that did not exist (their `AddClient` requests are processed, in the
order `ps`). Then the roster of `G` holds exactly these `N` registrations, and the entity
list that a roster broadcast builds from it is the list of their entities: `N` elements
with pairwise different ids, so each entity exactly once. For any other order of the same
joins the roster and the entity list are a rearrangement of these. The joins are
processed, in every order, when the slots of the registrations are open. -/
theorem roster_completeness (s s' : HubState T X M) (G : T) (ps : List (Presence T X M))
    (hN : 1 ≤ ps.length) (hG : AL.get? s.groups G = none)
    (hT : ∀ p ∈ ps, p.Target = G)
    (hids : (ps.map (fun p => p.Entity.Id)).Nodup)
    (hrun : runHub s (ps.map .newClients) = .ok s') :
    ∃ g', AL.get? s'.groups G = some g' ∧
      g' = ps.map (fun p => (p.Entity.Id, p)) ∧
      g'.length = ps.length ∧
      rosterEntities g' = ps.map (fun p => p.Entity) ∧
      (rosterEntities g').length = ps.length ∧
      ((rosterEntities g').map (fun en => en.Id)).Nodup ∧
      (∀ (ps' : List (Presence T X M)) (s'' : HubState T X M), ps'.Perm ps →
        runHub s (ps'.map .newClients) = .ok s'' →
        ∃ g'', AL.get? s''.groups G = some g'' ∧ g''.Perm g' ∧
          (rosterEntities g'').Perm (rosterEntities g')) ∧
      ((∀ p ∈ ps, (s.chans p.Online).closed = false) →
        ∀ ps' : List (Presence T X M), ps'.Perm ps →
          ∃ s'', runHub s (ps'.map .newClients) = .ok s'') := by
  have hne : ps ≠ [] := by
    intro h
    rw [h] at hN
    simp at hN
  have hent : ∀ qs : List (Presence T X M),
      rosterEntities (qs.map (fun p => (p.Entity.Id, p))) = qs.map (fun p => p.Entity) := by
    intro qs
    simp [rosterEntities, Function.comp_def]
  have hperm : ∀ ps' : List (Presence T X M), ps'.Perm ps →
      ps' ≠ [] ∧ (∀ p ∈ ps', p.Target = G) ∧ (ps'.map (fun p => p.Entity.Id)).Nodup := by
    intro ps' hp
    refine ⟨?_, fun p hp' => hT p (hp.mem_iff.mp hp'), ?_⟩
    · intro h
      rw [h] at hp
      exact hne (List.nil_perm.mp hp)
    · exact ((hp.map _).nodup_iff).mpr hids
  obtain ⟨h1, _⟩ := joins_new_group G ps s s' hne hG hT hids hrun
  refine ⟨_, h1, rfl, by simp, hent ps, by simp [hent], ?_, ?_, ?_⟩
  · rw [hent, List.map_map]
    exact hids
  · intro ps' s'' hp hrun'
    obtain ⟨h1', h2', h3'⟩ := hperm ps' hp
    obtain ⟨h4, _⟩ := joins_new_group G ps' s s'' h1' hG h2' h3' hrun'
    refine ⟨_, h4, hp.map _, ?_⟩
    rw [hent, hent]
    exact hp.map _
  · intro hopen ps' hp
    obtain ⟨_, h2', h3'⟩ := hperm ps' hp
    exact joins_new_group_complete G ps' s hG h2' h3'
      (fun p hp' => hopen p (hp.mem_iff.mp hp'))

/-- Witness of C12: from the empty Hub, `pa1` and `pb` join "room1"; the broadcast list
holds the entities "a" and "b". -/
theorem roster_completeness_witness :
    ∃ s' g', runHub (emptyHub 1) [.newClients pa1, .newClients pb] = .ok s' ∧
      AL.get? s'.groups "room1" = some g' ∧
      rosterEntities g' = [pa1.Entity, pb.Entity] := by
  obtain ⟨s', hs'⟩ : ∃ s', runHub (emptyHub 1) [.newClients pa1, .newClients pb] = .ok s' :=
    ⟨_, rfl⟩
  obtain ⟨g', h1, _, _, h4, _⟩ :=
    roster_completeness (emptyHub 1) s' "room1" [pa1, pb] (by decide) (by decide)
      (by decide) (by decide) hs'
  exact ⟨s', g', hs', h1, h4⟩

end HubCompleteness

/-! ## Presence Hub: join, group creation, teardown -/

section HubJoin

variable {T X M : Type} [DecidableEq T] [DecidableEq X]

/-- C13 as stated fails. From the empty Hub, `pa1` joins "room1" and is replaced by `pa2`,
which closes slot 1. Group "room1" now exists and has no entry for "b"; processing
`AddClient(pbStale)`, a registration of "b" that carries slot 1, stores it and then sends
the roster on the closed slot: the program panics instead of offering the roster to
every member. -/
theorem hub_join_counterexample :
    ∃ s, runHub (emptyHub 1) [.newClients pa1, .newClients pa2] = .ok s ∧
      AL.get? s.groups "room1" = some [("a", pa2)] ∧
      AL.get? [("a", pa2)] pbStale.Entity.Id = none ∧
      Manage s (.newClients pbStale) = .error .sendOnClosedChannel :=
  ⟨_, rfl, by decide, by decide, by rfl⟩

/-- C13 (amended). Let group `G` exist with the roster `g`, without an entry for the
entity id `x`, and let the notify slots of the members of `G` and of `p` be open. Then
processing `AddClient(p)` with `p.Target = G` and `p.Entity.Id = x` completes; the roster
of `G` is the old one plus `p` (one entry more), the other groups are unchanged; the
roster then broadcast holds the old entities and that of `p`; each delivery carries that
roster and goes to the slot of a member; and every member, `p` included, whose slot can
accept receives it. -/
theorem hub_join_spec (s : HubState T X M) (G : T) (x : X) (g : Roster T X M)
    (p : Presence T X M)
    (hg : AL.get? s.groups G = some g) (hx : AL.get? g x = none)
    (hT : p.Target = G) (hxid : p.Entity.Id = x)
    (hopen : ∀ kq ∈ g, (s.chans kq.2.Online).closed = false)
    (hpopen : (s.chans p.Online).closed = false) :
    ∃ s' log, Manage s (.newClients p) = .ok (s', log) ∧
      AL.get? s'.groups G = some (g ++ [(x, p)]) ∧
      (g ++ [(x, p)]).length = g.length + 1 ∧
      (∀ k, k ≠ G → AL.get? s'.groups k = AL.get? s.groups k) ∧
      rosterEntities (g ++ [(x, p)]) = rosterEntities g ++ [p.Entity] ∧
      (∀ d ∈ log, d.roster = rosterEntities (g ++ [(x, p)]) ∧
        ∃ kq ∈ g ++ [(x, p)], kq.2.Online = d.chan) ∧
      (∀ kq ∈ g ++ [(x, p)], (s.chans kq.2.Online).canAccept = true →
        ⟨kq.2.Online, rosterEntities (g ++ [(x, p)])⟩ ∈ log) ∧
      ((s.chans p.Online).canAccept = true →
        ⟨p.Online, rosterEntities (g ++ [(x, p)])⟩ ∈ log) := by
  subst hT hxid
  have hopen1 : ∀ q ∈ (g ++ [(p.Entity.Id, p)]).map Prod.snd,
      (s.chans q.Online).closed = false := by
    intro q hq
    obtain ⟨kq, hkq, rfl⟩ := List.mem_map.mp hq
    rcases List.mem_append.mp hkq with h | h
    · exact hopen kq h
    · rw [List.mem_singleton] at h
      subst h
      exact hpopen
  obtain ⟨chans1, log, hrun, _, _, h3, h4, _⟩ :=
    offerAll_ok (rosterEntities (g ++ [(p.Entity.Id, p)])) _ s.chans hopen1
  have hall : ∀ kq ∈ g ++ [(p.Entity.Id, p)], (s.chans kq.2.Online).canAccept = true →
      ⟨kq.2.Online, rosterEntities (g ++ [(p.Entity.Id, p)])⟩ ∈ log :=
    fun kq hkq hacc => h4 kq.2 (List.mem_map.mpr ⟨kq, hkq, rfl⟩) hacc
  refine ⟨⟨AL.set s.groups p.Target (g ++ [(p.Entity.Id, p)]), chans1⟩, log, ?_, ?_, ?_, ?_,
    ?_, ?_, hall, ?_⟩
  · rw [manage_join_eq s p g hg hx]
    simp only [UpdateConnections, hrun]
  · simp [AL.get?_set]
  · simp
  · intro k hk
    exact get?_set_groups s.groups p.Target k _ hk
  · simp [rosterEntities]
  · intro d hd
    obtain ⟨e1, _, q, hq, e3⟩ := h3 d hd
    obtain ⟨kq, hkq, rfl⟩ := List.mem_map.mp hq
    exact ⟨e1, kq, hkq, e3⟩
  · exact hall (p.Entity.Id, p) (by simp)

/-- Witness of C13 (amended), scenario B of the spec: after "a", "b" joins "room1"; the
slots of both receive the roster of two elements. -/
theorem hub_join_spec_witness :
    ∃ s' log, Manage hubA (.newClients pb) = .ok (s', log) ∧
      AL.get? s'.groups "room1" = some [("a", pa1), ("b", pb)] ∧
      (⟨1, [⟨"a", ()⟩, ⟨"b", ()⟩]⟩ : Delivery String Unit) ∈ log ∧
      (⟨3, [⟨"a", ()⟩, ⟨"b", ()⟩]⟩ : Delivery String Unit) ∈ log := by
  obtain ⟨s', log, h1, h2, _, _, _, _, h7, h8⟩ :=
    hub_join_spec hubA "room1" "b" [("a", pa1)] pb (by decide) (by decide) rfl rfl
      (by intro kq _; rfl) rfl
  exact ⟨s', log, h1, h2, h7 ("a", pa1) (by simp) (by decide), h8 (by decide)⟩

/-- C14 (group creation). When group `G` does not exist, processing `AddClient(p)` with
`p.Target = G` completes in the state whose groups map has, for `G`, the roster with the
single entry `p` under the key `p.Entity.Id`, and is otherwise as before; the channels
are as before and the step makes no delivery: no roster is broadcast, and no notify
slot, that of `p` included, receives anything. -/
theorem hub_create_group (s : HubState T X M) (G : T) (p : Presence T X M)
    (hT : p.Target = G) (hG : AL.get? s.groups G = none) :
    Manage s (.newClients p) = .ok (⟨AL.set s.groups G [(p.Entity.Id, p)], s.chans⟩, []) ∧
    AL.get? (AL.set s.groups G [(p.Entity.Id, p)]) G = some [(p.Entity.Id, p)] ∧
    AL.set s.groups G [(p.Entity.Id, p)] = s.groups ++ [(G, [(p.Entity.Id, p)])] ∧
    (∀ k, k ≠ G →
      AL.get? (AL.set s.groups G [(p.Entity.Id, p)]) k = AL.get? s.groups k) := by
  subst hT
  refine ⟨manage_create_eq s p hG, by simp [AL.get?_set], ?_, ?_⟩
  · exact AL.set_of_not_mem _ _ _ ((AL.get?_eq_none_iff _ _).mp hG)
  · intro k hk
    exact get?_set_groups s.groups p.Target k _ hk

/-- Witness of C14, scenario B of the spec: "a" joins alone, nothing is broadcast. -/
theorem hub_create_group_witness :
    Manage (emptyHub 1) (.newClients pa1) = .ok (hubA, []) :=
  (hub_create_group (emptyHub 1) "room1" pa1 rfl (by decide)).1

/-- C15 (group teardown). Let group `G` have exactly one member, with entity id `x`.
Processing `RemoveClient` for `(G, x)` completes, delivers nothing, leaves the channels
as they are and deletes `G` from the groups map (the other groups are unchanged). A
following `AddClient(p')` for `G` is a group creation: it completes, delivers nothing,
and the roster of `G` holds only `p'`. -/
theorem hub_teardown (s : HubState T X M) (G : T) (x : X) (q p : Presence T X M)
    (hg : AL.get? s.groups G = some [(x, q)]) (hT : p.Target = G)
    (hx : p.Entity.Id = x) :
    ∃ s1, Manage s (.closingClients p) = .ok (s1, []) ∧ s1.chans = s.chans ∧
      AL.get? s1.groups G = none ∧ G ∉ AL.keys s1.groups ∧
      (∀ k, k ≠ G → AL.get? s1.groups k = AL.get? s.groups k) ∧
      ∀ p' : Presence T X M, p'.Target = G →
        ∃ s2, Manage s1 (.newClients p') = .ok (s2, []) ∧ s2.chans = s.chans ∧
          AL.get? s2.groups G = some [(p'.Entity.Id, p')] ∧
          rosterEntities [(p'.Entity.Id, p')] = [p'.Entity] ∧
          (∀ k, k ≠ G → AL.get? s2.groups k = AL.get? s.groups k) := by
  subst hT hx
  have hdel : AL.del [(p.Entity.Id, q)] p.Entity.Id = ([] : Roster T X M) := by
    simp [AL.del]
  have hnone : AL.get? (AL.del (AL.set s.groups p.Target ([] : Roster T X M)) p.Target)
      p.Target = none := by
    simp [AL.get?_del]
  have hother : ∀ k, k ≠ p.Target →
      AL.get? (AL.del (AL.set s.groups p.Target ([] : Roster T X M)) p.Target) k
        = AL.get? s.groups k := by
    intro k hk
    have hk2 : ¬ p.Target = k := fun e => hk e.symm
    rw [AL.get?_del, if_neg hk2, AL.get?_set, if_neg hk2]
  refine ⟨⟨AL.del (AL.set s.groups p.Target ([] : Roster T X M)) p.Target, s.chans⟩,
    ?_, rfl, hnone, (AL.get?_eq_none_iff _ _).mp hnone, hother, ?_⟩
  · rw [manage_closing_eq s p _ hg, hdel]
    simp
  · intro p' hp'
    refine ⟨⟨AL.set (AL.del (AL.set s.groups p.Target ([] : Roster T X M)) p.Target)
      p'.Target [(p'.Entity.Id, p')], s.chans⟩, ?_, rfl, ?_, rfl, ?_⟩
    · exact manage_create_eq _ p' (by rw [hp']; exact hnone)
    · rw [← hp']
      simp [AL.get?_set]
    · intro k hk
      rw [← hp'] at hk
      rw [get?_set_groups _ p'.Target k _ hk]
      exact hother k (by rw [← hp']; exact hk)

/-- Witness of C15: "a" leaves "room1", its only member; then "b" joins a fresh group. -/
theorem hub_teardown_witness :
    ∃ s1, Manage hubA (.closingClients pa1) = .ok (s1, []) ∧
      AL.get? s1.groups "room1" = none ∧
      ∃ s2, Manage s1 (.newClients pb) = .ok (s2, []) ∧
        AL.get? s2.groups "room1" = some [("b", pb)] := by
  obtain ⟨s1, h1, _, h3, _, _, h6⟩ :=
    hub_teardown hubA "room1" "a" pa1 pa1 (by decide) rfl rfl
  obtain ⟨s2, h7, _, h9, _⟩ := h6 pb rfl
  exact ⟨s1, h1, h3, s2, h7, h9⟩

end HubJoin

/-! ## Presence Hub: leave -/

section HubLeave

variable {T X M : Type} [DecidableEq T] [DecidableEq X]

/-- C16 as stated fails. From the empty Hub: `pa1` joins "room1"; `qa`, which carries the
same slot 1, and `qc` join "room2"; `pa2` replaces `pa1`, which closes slot 1. Group
"room2" now holds an entry for "c" and the other member "a"; processing
`RemoveClient(qc)` deletes the entry and then sends the roster on the closed slot of "a":
the program panics instead of offering the roster to the remaining member. -/
theorem hub_remove_counterexample :
    ∃ s, runHub (emptyHub 1)
        [.newClients pa1, .newClients qa, .newClients qc, .newClients pa2] = .ok s ∧
      AL.get? s.groups "room2" = some [("a", qa), ("c", qc)] ∧
      Manage s (.closingClients qc) = .error .sendOnClosedChannel :=
  ⟨_, rfl, by decide, by rfl⟩

/-- C16 (amended). Let group `G`, with roster `g`, hold an entry for the entity id `x`
and at least one other member, and let the notify slots of the other members be open.
Then processing `RemoveClient(p)` with `p.Target = G` and `p.Entity.Id = x` completes;
the roster of `G` is `g` without the entry of `x` (one entry less in a valid roster), the
other entries and the other groups are unchanged; the roster then broadcast has no entity
with id `x` (in a roster keyed by entity id); each delivery carries that roster and goes
to the slot of a remaining member, channels of nobody else are untouched, and every
remaining member whose slot can accept receives it. -/
theorem hub_remove_spec (s : HubState T X M) (G : T) (x : X) (g : Roster T X M)
    (q p : Presence T X M)
    (hg : AL.get? s.groups G = some g) (hx : AL.get? g x = some q)
    (hrest : AL.del g x ≠ [])
    (hT : p.Target = G) (hxid : p.Entity.Id = x)
    (hopen : ∀ kq ∈ g, kq.1 ≠ x → (s.chans kq.2.Online).closed = false) :
    ∃ s' log, Manage s (.closingClients p) = .ok (s', log) ∧
      AL.get? s'.groups G = some (AL.del g x) ∧
      AL.get? (AL.del g x) x = none ∧
      (∀ y, y ≠ x → AL.get? (AL.del g x) y = AL.get? g y) ∧
      (AL.WF g → (AL.del g x).length + 1 = g.length) ∧
      (∀ k, k ≠ G → AL.get? s'.groups k = AL.get? s.groups k) ∧
      ((∀ kq ∈ g, kq.2.Entity.Id = kq.1) →
        ∀ en ∈ rosterEntities (AL.del g x), en.Id ≠ x) ∧
      (∀ d ∈ log, d.roster = rosterEntities (AL.del g x) ∧
        ∃ kq ∈ AL.del g x, kq.2.Online = d.chan) ∧
      (∀ kq ∈ AL.del g x, (s.chans kq.2.Online).canAccept = true →
        ⟨kq.2.Online, rosterEntities (AL.del g x)⟩ ∈ log) ∧
      (∀ c, (∀ kq ∈ AL.del g x, kq.2.Online ≠ c) → s'.chans c = s.chans c) := by
  subst hT hxid
  have hopen1 : ∀ r ∈ (AL.del g p.Entity.Id).map Prod.snd,
      (s.chans r.Online).closed = false := by
    intro r hr
    obtain ⟨kq, hkq, rfl⟩ := List.mem_map.mp hr
    obtain ⟨h1, h2⟩ := (AL.mem_del g _ kq).mp hkq
    exact hopen kq h1 h2
  obtain ⟨chans1, log, hrun, _, h2, h3, h4, _⟩ :=
    offerAll_ok (rosterEntities (AL.del g p.Entity.Id)) _ s.chans hopen1
  have hlen : ¬ (AL.del g p.Entity.Id).length = 0 :=
    fun h => hrest (List.length_eq_zero.mp h)
  refine ⟨⟨AL.set s.groups p.Target (AL.del g p.Entity.Id), chans1⟩, log, ?_, ?_, ?_, ?_,
    ?_, ?_, ?_, ?_, ?_, ?_⟩
  · rw [manage_closing_eq s p g hg, if_neg hlen]
    simp only [UpdateConnections, hrun]
  · simp [AL.get?_set]
  · simp [AL.get?_del]
  · intro y hy
    rw [AL.get?_del, if_neg (fun e => hy e.symm)]
  · intro hwf
    exact length_del_of_mem hwf (AL.mem_keys_of_get? hx)
  · intro k hk
    exact get?_set_groups s.groups p.Target k _ hk
  · intro hkeyed en hen
    obtain ⟨kq, hkq, rfl⟩ := List.mem_map.mp hen
    obtain ⟨h1, h2'⟩ := (AL.mem_del g _ kq).mp hkq
    rw [hkeyed kq h1]
    exact h2'
  · intro d hd
    obtain ⟨e1, _, r, hr, e3⟩ := h3 d hd
    obtain ⟨kq, hkq, rfl⟩ := List.mem_map.mp hr
    exact ⟨e1, kq, hkq, e3⟩
  · intro kq hkq hacc
    exact h4 kq.2 (List.mem_map.mpr ⟨kq, hkq, rfl⟩) hacc
  · intro c hc
    refine h2 c ?_
    intro r hr
    obtain ⟨kq, hkq, rfl⟩ := List.mem_map.mp hr
    exact hc kq hkq

/-- Witness of C16 (amended): "b" leaves "room1", where "a" stays and receives the roster
that holds only "a". -/
theorem hub_remove_spec_witness :
    ∃ s' log, Manage hubAB (.closingClients pb) = .ok (s', log) ∧
      AL.get? s'.groups "room1" = some [("a", pa1)] ∧
      (⟨1, [⟨"a", ()⟩]⟩ : Delivery String Unit) ∈ log := by
  obtain ⟨s', log, h1, h2, _, _, _, _, _, _, h9, _⟩ :=
    hub_remove_spec hubAB "room1" "b" [("a", pa1), ("b", pb)] pb pb (by decide)
      (by decide) (by decide) rfl rfl (by intro kq _ _; rfl)
  exact ⟨s', log, h1, h2, h9 ("a", pa1) (by decide) (by decide)⟩

end HubLeave

/-! ## Presence Hub: the roster invariant -/

section HubRosterInvariant

variable {T X M : Type} [DecidableEq T] [DecidableEq X]

theorem groupsInv_set {groups : Groups T X M} (hwf : GroupsWF groups)
    (hk : RosterKeyed groups) (hne : NoEmptyRoster groups) (G : T) (g1 : Roster T X M)
    (h1 : AL.WF g1) (h2 : ∀ kq ∈ g1, kq.2.Entity.Id = kq.1 ∧ kq.2.Target = G)
    (h3 : g1 ≠ []) :
    GroupsWF (AL.set groups G g1) ∧ RosterKeyed (AL.set groups G g1) ∧
      NoEmptyRoster (AL.set groups G g1) := by
  refine ⟨groupsWF_set hwf G g1 h1, ?_, ?_⟩
  · intro Gg hGg
    rcases (AL.mem_set hwf.1 G g1 Gg).mp hGg with h | h
    · subst h
      exact h2
    · exact hk Gg h.1
  · intro Gg hGg
    rcases (AL.mem_set hwf.1 G g1 Gg).mp hGg with h | h
    · subst h
      exact h3
    · exact hne Gg h.1

theorem groupsInv_del_set {groups : Groups T X M} (hwf : GroupsWF groups)
    (hk : RosterKeyed groups) (hne : NoEmptyRoster groups) (G : T) (g1 : Roster T X M)
    (h1 : AL.WF g1) :
    GroupsWF (AL.del (AL.set groups G g1) G) ∧ RosterKeyed (AL.del (AL.set groups G g1) G) ∧
      NoEmptyRoster (AL.del (AL.set groups G g1) G) := by
  have hsub : ∀ Gg ∈ AL.del (AL.set groups G g1) G, Gg ∈ groups := by
    intro Gg hGg
    obtain ⟨h2, h3⟩ := (AL.mem_del _ _ Gg).mp hGg
    rcases (AL.mem_set hwf.1 G g1 Gg).mp h2 with h | h
    · subst h
      exact absurd rfl h3
    · exact h.1
  exact ⟨groupsWF_del (groupsWF_set hwf G g1 h1) G,
    fun Gg hGg => hk Gg (hsub Gg hGg), fun Gg hGg => hne Gg (hsub Gg hGg)⟩

/-- A completed step of `Manage` keeps the groups map valid, keyed and without empty
roster. -/
theorem manage_groups_inv (s s' : HubState T X M) (r : HubReq T X M)
    (log : List (Delivery X M)) (hwf : GroupsWF s.groups) (hk : RosterKeyed s.groups)
    (hne : NoEmptyRoster s.groups) (h : Manage s r = .ok (s', log)) :
    GroupsWF s'.groups ∧ RosterKeyed s'.groups ∧ NoEmptyRoster s'.groups := by
  cases r with
  | newClients p =>
    cases hg : AL.get? s.groups p.Target with
    | none =>
      rw [manage_create_eq s p hg] at h
      simp only [Except.ok.injEq, Prod.mk.injEq] at h
      obtain ⟨rfl, _⟩ := h
      refine groupsInv_set hwf hk hne _ _ (by simp [AL.WF, AL.keys]) ?_ (by simp)
      intro kq hkq
      rw [List.mem_singleton] at hkq
      subst hkq
      exact ⟨rfl, rfl⟩
    | some g =>
      have hgm : (p.Target, g) ∈ s.groups := AL.mem_of_get? hg
      have hgwf : AL.WF g := hwf.2 _ hgm
      have hnew : ∀ g0 : Roster T X M, (∀ kq ∈ g0, kq ∈ g) →
          ∀ kq ∈ AL.set g0 p.Entity.Id p, AL.WF g0 →
            kq.2.Entity.Id = kq.1 ∧ kq.2.Target = p.Target := by
        intro g0 hsub kq hkq hwf0
        rcases (AL.mem_set hwf0 _ _ kq).mp hkq with h' | h'
        · subst h'
          exact ⟨rfl, rfl⟩
        · exact hk _ hgm kq (hsub kq h'.1)
      cases hoc : AL.get? g p.Entity.Id with
      | none =>
        simp only [Manage, hg, hoc] at h
        cases hU : UpdateConnections s.chans (AL.set g p.Entity.Id p) with
        | error err =>
          rw [hU] at h
          simp at h
        | ok res =>
          rw [hU] at h
          simp only [Except.ok.injEq, Prod.mk.injEq] at h
          obtain ⟨rfl, _⟩ := h
          exact groupsInv_set hwf hk hne _ _ (AL.WF_set hgwf _ _)
            (fun kq hkq => hnew g (fun _ h' => h') kq hkq hgwf) (al_set_ne_nil _ _ _)
      | some oc =>
        simp only [Manage, hg, hoc] at h
        cases hc : closeChan s.chans oc.Online with
        | error err =>
          rw [hc] at h
          simp at h
        | ok chans1 =>
          rw [hc] at h
          simp only at h
          cases hU : UpdateConnections chans1
              (AL.set (AL.del g p.Entity.Id) p.Entity.Id p) with
          | error err =>
            rw [hU] at h
            simp at h
          | ok res =>
            rw [hU] at h
            simp only [Except.ok.injEq, Prod.mk.injEq] at h
            obtain ⟨rfl, _⟩ := h
            exact groupsInv_set hwf hk hne _ _ (AL.WF_set (AL.WF_del hgwf _) _ _)
              (fun kq hkq => hnew (AL.del g p.Entity.Id)
                (fun e he => ((AL.mem_del g _ e).mp he).1) kq hkq (AL.WF_del hgwf _))
              (al_set_ne_nil _ _ _)
  | closingClients p =>
    cases hg : AL.get? s.groups p.Target with
    | none =>
      rw [manage_closing_absent_eq s p hg] at h
      simp only [Except.ok.injEq, Prod.mk.injEq] at h
      obtain ⟨rfl, _⟩ := h
      exact ⟨hwf, hk, hne⟩
    | some g =>
      have hgm : (p.Target, g) ∈ s.groups := AL.mem_of_get? hg
      have hgwf : AL.WF g := hwf.2 _ hgm
      rw [manage_closing_eq s p g hg] at h
      by_cases hlen : (AL.del g p.Entity.Id).length = 0
      · rw [if_pos hlen] at h
        simp only [Except.ok.injEq, Prod.mk.injEq] at h
        obtain ⟨rfl, _⟩ := h
        exact groupsInv_del_set hwf hk hne _ _ (AL.WF_del hgwf _)
      · rw [if_neg hlen] at h
        cases hU : UpdateConnections s.chans (AL.del g p.Entity.Id) with
        | error err =>
          rw [hU] at h
          simp at h
        | ok res =>
          rw [hU] at h
          simp only [Except.ok.injEq, Prod.mk.injEq] at h
          obtain ⟨rfl, _⟩ := h
          exact groupsInv_set hwf hk hne _ _ (AL.WF_del hgwf _)
            (fun kq hkq => hk _ hgm kq ((AL.mem_del g _ kq).mp hkq).1)
            (fun h' => hlen (by rw [h']; rfl))

theorem runHub_groups_inv (rs : List (HubReq T X M)) (s s' : HubState T X M)
    (hwf : GroupsWF s.groups) (hk : RosterKeyed s.groups) (hne : NoEmptyRoster s.groups)
    (h : runHub s rs = .ok s') :
    GroupsWF s'.groups ∧ RosterKeyed s'.groups ∧ NoEmptyRoster s'.groups := by
  induction rs generalizing s with
  | nil =>
    simp only [runHub, Except.ok.injEq] at h
    subst h
    exact ⟨hwf, hk, hne⟩
  | cons r rs ih =>
    cases hM : Manage s r with
    | error err =>
      simp [runHub, hM] at h
    | ok res =>
      obtain ⟨s1, log⟩ := res
      simp only [runHub, hM] at h
      obtain ⟨h1, h2, h3⟩ := manage_groups_inv s s1 r log hwf hk hne hM
      exact ih s1 h1 h2 h3 h

/-- C17 (Hub roster invariant). In every state reached from the empty Hub by a sequence of
`AddClient` and `RemoveClient` steps: the groups map and every roster are valid maps;
the entry stored under the key `k` in the roster of group `G` has `Entity.Id = k` and
`Target = G`; a roster holds at most one registration per entity id; and no group has an
empty roster. -/
theorem hub_roster_invariant (chans : Chans X M) (rs : List (HubReq T X M))
    (s : HubState T X M) (hrun : runHub ⟨[], chans⟩ rs = .ok s) :
    GroupsWF s.groups ∧ RosterKeyed s.groups ∧ NoEmptyRoster s.groups ∧
    (∀ G g, AL.get? s.groups G = some g →
      (AL.keys g).Nodup ∧ g ≠ [] ∧
      (∀ k q, AL.get? g k = some q → q.Entity.Id = k ∧ q.Target = G) ∧
      (∀ kq ∈ g, ∀ kq' ∈ g, kq.2.Entity.Id = kq'.2.Entity.Id → kq = kq')) := by
  have h0wf : GroupsWF ([] : Groups T X M) := ⟨by simp [AL.WF, AL.keys], by simp⟩
  have h0k : RosterKeyed ([] : Groups T X M) := by simp [RosterKeyed]
  have h0ne : NoEmptyRoster ([] : Groups T X M) := by simp [NoEmptyRoster]
  obtain ⟨hwf, hk, hne⟩ := runHub_groups_inv rs ⟨[], chans⟩ s h0wf h0k h0ne hrun
  refine ⟨hwf, hk, hne, ?_⟩
  intro G g hg
  have hgm : (G, g) ∈ s.groups := AL.mem_of_get? hg
  have hgwf : AL.WF g := hwf.2 _ hgm
  refine ⟨hgwf, hne _ hgm, ?_, ?_⟩
  · intro k q hq
    exact hk _ hgm (k, q) (AL.mem_of_get? hq)
  · intro kq hkq kq' hkq' hid
    have h1 := (hk _ hgm kq hkq).1
    have h2 := (hk _ hgm kq' hkq').1
    have hkey : kq.1 = kq'.1 := by rw [← h1, ← h2, hid]
    have e1 : AL.get? g kq.1 = some kq.2 := AL.get?_of_mem hgwf hkq
    have e2 : AL.get? g kq'.1 = some kq'.2 := AL.get?_of_mem hgwf hkq'
    rw [hkey, e2] at e1
    exact Prod.ext hkey (Option.some.inj e1).symm

/-- Witness of C17: "a" joins, reconnects and "b" joins; "room1" holds one registration
for "a" and one for "b". -/
theorem hub_roster_invariant_witness :
    ∃ s, runHub (emptyHub 1) [.newClients pa1, .newClients pa2, .newClients pb] = .ok s ∧
      AL.get? s.groups "room1" = some [("a", pa2), ("b", pb)] ∧
      RosterKeyed s.groups ∧ NoEmptyRoster s.groups := by
  obtain ⟨s, hs, hg⟩ : ∃ s,
      runHub (emptyHub 1) [.newClients pa1, .newClients pa2, .newClients pb] = .ok s ∧
      AL.get? s.groups "room1" = some [("a", pa2), ("b", pb)] := ⟨_, rfl, by decide⟩
  obtain ⟨_, h2, h3, _⟩ := hub_roster_invariant (fun _ => ⟨false, 1, [], 0⟩) _ s hs
  exact ⟨s, hs, hg, h2, h3⟩

end HubRosterInvariant

/-! ## Presence Hub: the roster broadcast -/

section HubBroadcast

variable {T X M : Type} [DecidableEq T] [DecidableEq X]

/-- C18 as stated fails. From the empty Hub with slots of capacity 2: `pa1` joins "room1";
`qa`, which carries the same slot 1, and `qc` join "room2"; `pa2` replaces `pa1`, which
closes slot 1. In the roster of "room2" the slot of "a" is closed and cannot accept, the
slot of "c" can accept; `UpdateConnections` on this roster does not skip the closed slot:
the send on it panics. -/
theorem broadcast_spec_counterexample :
    ∃ s, runHub (emptyHub 2)
        [.newClients pa1, .newClients qa, .newClients qc, .newClients pa2] = .ok s ∧
      AL.get? s.groups "room2" = some [("a", qa), ("c", qc)] ∧
      (s.chans qa.Online).closed = true ∧
      (s.chans qc.Online).canAccept = true ∧
      UpdateConnections s.chans [("a", qa), ("c", qc)] = .error .sendOnClosedChannel :=
  ⟨_, rfl, by decide, by decide, by decide, by rfl⟩

/-- C18 (amended). For every roster `g` whose member slots are open, `UpdateConnections`
builds one list with one element per member, the `Entity` of that member (so of length
`|g|`, and with the pairwise different ids of the keys when the roster is a valid map
keyed by entity id), and completes without blocking: each delivery carries that list and
goes to the slot of a member; a member slot that can accept receives it, whatever the
state of the other slots; a slot that cannot accept is skipped and left as it is; no
other channel is touched and no slot is closed. The function only reads `g`: its result
has no roster, so `g` and the groups map are as before. -/
theorem updateConnections_spec (chans : Chans X M) (g : Roster T X M)
    (hopen : ∀ kq ∈ g, (chans kq.2.Online).closed = false) :
    rosterEntities g = g.map (fun kq => kq.2.Entity) ∧
    (rosterEntities g).length = g.length ∧
    (∀ kq ∈ g, kq.2.Entity ∈ rosterEntities g) ∧
    ((∀ kq ∈ g, kq.2.Entity.Id = kq.1) →
      (rosterEntities g).map (fun en => en.Id) = AL.keys g ∧
      (AL.WF g → ((rosterEntities g).map (fun en => en.Id)).Nodup)) ∧
    ∃ chans' log, UpdateConnections chans g = .ok (chans', log) ∧
      (∀ d ∈ log, d.roster = rosterEntities g ∧ ∃ kq ∈ g, kq.2.Online = d.chan) ∧
      (∀ kq ∈ g, (chans kq.2.Online).canAccept = true →
        ⟨kq.2.Online, rosterEntities g⟩ ∈ log) ∧
      (∀ c, (chans c).canAccept = false →
        chans' c = chans c ∧ ⟨c, rosterEntities g⟩ ∉ log) ∧
      (∀ c, (∀ kq ∈ g, kq.2.Online ≠ c) → chans' c = chans c) ∧
      (∀ c, (chans' c).closed = (chans c).closed) := by
  have hids : (∀ kq ∈ g, kq.2.Entity.Id = kq.1) →
      (rosterEntities g).map (fun en => en.Id) = AL.keys g := by
    intro hkeyed
    simp only [rosterEntities, AL.keys, List.map_map]
    exact List.map_congr_left (fun kq hkq => hkeyed kq hkq)
  refine ⟨rfl, by simp [rosterEntities], ?_, ?_, ?_⟩
  · intro kq hkq
    exact List.mem_map.mpr ⟨kq, hkq, rfl⟩
  · intro hkeyed
    refine ⟨hids hkeyed, ?_⟩
    intro hwf
    rw [hids hkeyed]
    exact hwf
  · have h : ∀ q ∈ g.map Prod.snd, (chans q.Online).closed = false := by
      intro q hq
      obtain ⟨kq, hkq, rfl⟩ := List.mem_map.mp hq
      exact hopen kq hkq
    obtain ⟨chans', log, hrun, h1, h2, h3, h4, h5⟩ :=
      offerAll_ok (rosterEntities g) _ chans h
    refine ⟨chans', log, hrun, ?_, ?_, ?_, ?_, h1⟩
    · intro d hd
      obtain ⟨e1, _, q, hq, e3⟩ := h3 d hd
      obtain ⟨kq, hkq, rfl⟩ := List.mem_map.mp hq
      exact ⟨e1, kq, hkq, e3⟩
    · intro kq hkq hacc
      exact h4 kq.2 (List.mem_map.mpr ⟨kq, hkq, rfl⟩) hacc
    · intro c hacc
      refine ⟨h5 c hacc, ?_⟩
      intro hm
      have := (h3 _ hm).2.1
      simp only at this
      rw [hacc] at this
      exact absurd this (by decide)
    · intro c hc
      refine h2 c ?_
      intro q hq
      obtain ⟨kq, hkq, rfl⟩ := List.mem_map.mp hq
      exact hc kq hkq

/-- Witness of C18 (amended): a broadcast on the roster of "a" and "b" with empty open
slots of capacity 1; both slots receive the list of two entities. -/
theorem updateConnections_spec_witness :
    ∃ chans' log, UpdateConnections hubAB.chans [("a", pa1), ("b", pb)] = .ok (chans', log) ∧
      (⟨1, [⟨"a", ()⟩, ⟨"b", ()⟩]⟩ : Delivery String Unit) ∈ log ∧
      (⟨3, [⟨"a", ()⟩, ⟨"b", ()⟩]⟩ : Delivery String Unit) ∈ log := by
  obtain ⟨_, _, _, _, chans', log, h1, _, h3, _⟩ :=
    updateConnections_spec hubAB.chans [("a", pa1), ("b", pb)] (by intro kq _; rfl)
  exact ⟨chans', log, h1, h3 ("a", pa1) (by decide) (by decide),
    h3 ("b", pb) (by decide) (by decide)⟩

end HubBroadcast

/-! ## Presence Hub: no invalidated slot in a roster, under fresh slots -/

section HubFreshSlots

variable {T X M : Type} [DecidableEq T] [DecidableEq X]

theorem addSlots_take_sublist (rs : List (HubReq T X M)) (n : Nat) :
    (addSlots (rs.take n)).Sublist (addSlots rs) := by
  induction rs generalizing n with
  | nil => simp
  | cons r rs ih =>
    cases n with
    | zero => simp [addSlots]
    | succ n =>
      cases r with
      | newClients p =>
        simp only [List.take_succ_cons, addSlots]
        exact (ih n).cons₂ _
      | closingClients p =>
        simp only [List.take_succ_cons, addSlots]
        exact ih n

/-- The Hub with no group satisfies the invariant for pending slots that are pairwise
different and open. -/
theorem hubInv_empty (chans : Chans X M) (pend : List Nat) (h1 : pend.Nodup)
    (h2 : ∀ ch ∈ pend, (chans ch).closed = false) :
    HubInv (⟨[], chans⟩ : HubState T X M) pend := by
  have hno : ∀ G k q, ¬ Member ([] : Groups T X M) G k q := by
    rintro G k q ⟨g, hg, _⟩
    simp at hg
  refine ⟨⟨by simp [AL.WF, AL.keys], by simp⟩, ?_, ?_, h1, ?_⟩
  · exact fun G k q h => absurd h (hno G k q)
  · exact fun G k q _ _ _ h => absurd h (hno G k q)
  · exact fun ch hch => ⟨h2 ch hch, fun G k q h => absurd h (hno G k q)⟩

/-- C19 (no invalidated slot in a roster). Let the notify slots carried by the
`AddClient` requests of a sequence be open and pairwise different (none is submitted
twice). Then after every prefix of the sequence, processed from the Hub with no group,
the Hub is in a state (no step has panicked: no roster was sent on a closed slot and no
slot was closed twice) in which every registration of every roster has an open notify
slot, and different registrations have different slots. -/
theorem hub_members_open (chans : Chans X M) (rs : List (HubReq T X M))
    (hfresh : (addSlots rs).Nodup)
    (hopen : ∀ ch ∈ addSlots rs, (chans ch).closed = false) (n : Nat) :
    ∃ s', runHub ⟨[], chans⟩ (rs.take n) = .ok s' ∧
      (∀ G k q, Member s'.groups G k q → (s'.chans q.Online).closed = false) ∧
      (∀ G g, AL.get? s'.groups G = some g →
        ∀ kq ∈ g, (s'.chans kq.2.Online).closed = false) ∧
      (∀ G k q G' k' q', Member s'.groups G k q → Member s'.groups G' k' q' →
        q.Online = q'.Online → G = G' ∧ k = k') := by
  have hsub := addSlots_take_sublist rs n
  obtain ⟨s', hrun, _, h2, h3, _⟩ := runHub_inv (rs.take n) ⟨[], chans⟩
    (hubInv_empty chans _ (hsub.nodup hfresh) (fun ch hch => hopen ch (hsub.subset hch)))
  refine ⟨s', hrun, h2, ?_, h3⟩
  intro G g hg kq hkq
  exact h2 G kq.1 kq.2 (member_of_get? hg hkq)

/-- Witness of C19: scenario C followed by the join of "b", slots 1, 2 and 3; slot 1 is
closed by the replacement and is in no roster. -/
theorem hub_members_open_witness :
    ∃ s', runHub (emptyHub 1) [.newClients pa1, .newClients pa2, .newClients pb] = .ok s' ∧
      (s'.chans 1).closed = true ∧
      ∀ G g, AL.get? s'.groups G = some g →
        ∀ kq ∈ g, (s'.chans kq.2.Online).closed = false := by
  obtain ⟨s', h1, _, h3, _⟩ :=
    hub_members_open (fun _ => ⟨false, 1, [], 0⟩)
      [.newClients pa1, .newClients pa2, .newClients pb] (by decide) (by intro ch _; rfl) 3
  obtain ⟨t, ht, hc⟩ : ∃ t,
      runHub (emptyHub 1) [.newClients pa1, .newClients pa2, .newClients pb] = .ok t ∧
      (t.chans 1).closed = true := ⟨_, rfl, by decide⟩
  have h1' : runHub (emptyHub 1) [.newClients pa1, .newClients pa2, .newClients pb]
      = .ok s' := h1
  rw [ht] at h1'
  simp only [Except.ok.injEq] at h1'
  subst h1'
  exact ⟨t, ht, hc, h3⟩

/-! ## Presence Hub: `RemoveClient` ignores the notify slot -/

/-- C20 (`RemoveClient` is keyed by group and entity id). For every Hub state and any two
registrations `p`, `q` with the same `Target` and the same `Entity.Id`, processing
`RemoveClient(p)` and `RemoveClient(q)` have the same outcome: the same state and the same
deliveries. So when the roster `g` of group `p.Target` holds a registration `p2` under
`p.Entity.Id` (for instance one that superseded `p`), processing `RemoveClient(p)` deletes
the entry of `p2`: if `p2` was the only member the group is deleted and nothing is
delivered; otherwise the step is the broadcast of `g` without that entry, and the state
it ends in has that roster for the group, which has no entry for the id. -/
theorem hub_remove_keyed_by_id (s : HubState T X M) (p q : Presence T X M)
    (hT : p.Target = q.Target) (hid : p.Entity.Id = q.Entity.Id) :
    Manage s (.closingClients p) = Manage s (.closingClients q) ∧
    (∀ g p2, AL.get? s.groups p.Target = some g → AL.get? g p.Entity.Id = some p2 →
      (AL.del g p.Entity.Id = [] →
        ∃ s', Manage s (.closingClients p) = .ok (s', []) ∧ s'.chans = s.chans ∧
          AL.get? s'.groups p.Target = none) ∧
      (AL.del g p.Entity.Id ≠ [] →
        Manage s (.closingClients p) =
          (match UpdateConnections s.chans (AL.del g p.Entity.Id) with
           | .error err => .error err
           | .ok (chans1, log) =>
             .ok (⟨AL.set s.groups p.Target (AL.del g p.Entity.Id), chans1⟩, log)) ∧
        (∀ s' log, Manage s (.closingClients p) = .ok (s', log) →
          AL.get? s'.groups p.Target = some (AL.del g p.Entity.Id)) ∧
        AL.get? (AL.del g p.Entity.Id) p.Entity.Id = none ∧
        ((∀ kq ∈ AL.del g p.Entity.Id, (s.chans kq.2.Online).closed = false) →
          ∃ s' log, Manage s (.closingClients p) = .ok (s', log)))) := by
  constructor
  · simp only [Manage, deleteEntity, hT, hid]
  · intro g p2 hg _
    constructor
    · intro hdel
      refine ⟨⟨AL.del (AL.set s.groups p.Target (AL.del g p.Entity.Id)) p.Target, s.chans⟩,
        ?_, rfl, by simp [AL.get?_del]⟩
      rw [manage_closing_eq s p g hg, hdel]
      simp
    · intro hdel
      have hlen : ¬ (AL.del g p.Entity.Id).length = 0 :=
        fun h => hdel (List.length_eq_zero.mp h)
      have hM := manage_closing_eq s p g hg
      rw [if_neg hlen] at hM
      refine ⟨hM, ?_, by simp [AL.get?_del], ?_⟩
      · intro s' log h
        rw [hM] at h
        cases hU : UpdateConnections s.chans (AL.del g p.Entity.Id) with
        | error err =>
          rw [hU] at h
          simp at h
        | ok res =>
          rw [hU] at h
          simp only [Except.ok.injEq, Prod.mk.injEq] at h
          obtain ⟨rfl, _⟩ := h
          simp [AL.get?_set]
      · intro hopen
        obtain ⟨chans1, log, hU, _⟩ := UpdateConnections_ok s.chans _ hopen
        exact ⟨_, log, by rw [hM, hU]⟩

/-- Witness of C20: after `pa2` superseded `pa1` in "room1", processing
`RemoveClient(pa1)` does what `RemoveClient(pa2)` does: it deletes the entry of `pa2`, and
with it the group. -/
theorem hub_remove_keyed_by_id_witness :
    ∃ s, runHub (emptyHub 1) [.newClients pa1, .newClients pa2] = .ok s ∧
      AL.get? s.groups "room1" = some [("a", pa2)] ∧
      Manage s (.closingClients pa1) = Manage s (.closingClients pa2) ∧
      ∃ s', Manage s (.closingClients pa1) = .ok (s', []) ∧
        AL.get? s'.groups "room1" = none := by
  obtain ⟨s, hs, hg⟩ : ∃ s,
      runHub (emptyHub 1) [.newClients pa1, .newClients pa2] = .ok s ∧
      AL.get? s.groups "room1" = some [("a", pa2)] := ⟨_, rfl, by decide⟩
  obtain ⟨h1, h2⟩ := hub_remove_keyed_by_id s pa1 pa2 rfl rfl
  obtain ⟨s', h3, _, h5⟩ := (h2 [("a", pa2)] pa2 hg (by decide)).1 (by decide)
  exact ⟨s, hs, hg, h1, s', h3, h5⟩

end HubFreshSlots

/-! ## Event Broker: the sends on the outbox channels -/

section BrokerChannelTheorems

variable {T : Type} [DecidableEq T]

theorem room_take (c : Outbox T) (e : Event T) (h : 0 < c.room) :
    (c.take e).room + 1 = c.room := by
  unfold Outbox.room at h ⊢
  unfold Outbox.take
  by_cases hr : 0 < c.recvq
  · simp only [hr, if_true]
    omega
  · simp only [hr, if_false, List.length_append, List.length_singleton]
    omega

theorem take_closed (c : Outbox T) (e : Event T) : (c.take e).closed = c.closed := by
  unfold Outbox.take
  split <;> rfl

theorem chanSend_ok (chans : OutChans T) (ch : Nat) (e : Event T)
    (hopen : (chans ch).closed = false) (hroom : 0 < (chans ch).room) :
    chanSend chans ch e = .ok (Function.update chans ch ((chans ch).take e)) := by
  simp [chanSend, hopen, hroom]

theorem runSends_cons (chans : OutChans T) (d : Send T) (ds : List (Send T)) :
    runSends chans (d :: ds) =
      (match chanSend chans d.conn.Chan d.event with
       | .error st => .error st
       | .ok chans1 =>
         match runSends chans1 ds with
         | .error st => .error st
         | .ok (chans2, log) => .ok (chans2, d :: log)) := rfl

theorem runSends_append (chans : OutChans T) (l1 l2 : List (Send T)) :
    runSends chans (l1 ++ l2) =
      (match runSends chans l1 with
       | .error st => .error st
       | .ok (chans1, log1) =>
         match runSends chans1 l2 with
         | .error st => .error st
         | .ok (chans2, log2) => .ok (chans2, log1 ++ log2)) := by
  induction l1 generalizing chans with
  | nil =>
    simp only [List.nil_append, runSends]
    cases runSends chans l2 with
    | error st => rfl
    | ok r => rfl
  | cons d ds ih =>
    rw [List.cons_append, runSends_cons, runSends_cons]
    cases chanSend chans d.conn.Chan d.event with
    | error st => rfl
    | ok chans1 =>
      simp only [ih chans1]
      cases runSends chans1 ds with
      | error st => rfl
      | ok r =>
        obtain ⟨chans2, log1⟩ := r
        simp only
        cases runSends chans2 l2 with
        | error st => rfl
        | ok r2 => rfl

/-- The loop over a bucket executes the send statements of its connections in order. -/
theorem sendEach_eq_runSends (e : Event T) (chans : OutChans T) (cns : List (Connection T)) :
    sendEach e chans cns = runSends chans (cns.map (fun cn => ⟨cn, e⟩)) := by
  induction cns generalizing chans with
  | nil => rfl
  | cons cn cns ih =>
    simp only [sendEach, List.map_cons, runSends]
    cases chanSend chans cn.Chan e with
    | error st => rfl
    | ok chans1 =>
      simp only [ih chans1]

/-- `SendEventTo` executes the send statements of `sendsTo`. -/
theorem SendEventTo_eq_runSends (clients : Index T) (chans : OutChans T) (t : T)
    (e : Event T) :
    SendEventTo clients chans t e = runSends chans (sendsTo clients t e) := by
  unfold SendEventTo sendsTo
  cases AL.get? clients t with
  | none => rfl
  | some cm => exact sendEach_eq_runSends e chans (AL.keys cm)

theorem sendToTargets_eq_runSends (clients : Index T) (e : Event T) (chans : OutChans T)
    (ts : List T) :
    sendToTargets clients e chans ts =
      runSends chans (ts.flatMap (fun target => sendsTo clients target e)) := by
  induction ts generalizing chans with
  | nil => rfl
  | cons t ts ih =>
    simp only [sendToTargets, List.flatMap_cons, runSends_append, SendEventTo_eq_runSends]
    cases runSends chans (sendsTo clients t e) with
    | error st => rfl
    | ok r =>
      obtain ⟨chans1, log1⟩ := r
      simp only [ih chans1]

/-- The `Notifier` case of `ListenStep` executes, on the outboxes, the send statements
that `Listen` lists. -/
theorem listenStep_notifier_eq (s : BrokerState T) (e : Event T) :
    ListenStep s (.Notifier e) =
      (match runSends s.chans (Listen s.clients (.Notifier e)).2 with
       | .error st => .error st
       | .ok (chans1, log) => .ok (⟨s.clients, chans1⟩, log)) := by
  simp only [ListenStep, Listen, sendToTargets_eq_runSends]

/-- A request for which `Listen` lists no send statement is processed to the end on any
outboxes, which it leaves as they are: it ends in the index that `Listen` gives. This
covers `AddClient`, `RemoveClient`, and a `Publish` none of whose targets has a bucket. -/
theorem listenStep_of_no_sends (s : BrokerState T) (r : BrokerReq T)
    (h : (Listen s.clients r).2 = []) :
    ListenStep s r = .ok (⟨(Listen s.clients r).1, s.chans⟩, []) := by
  cases r with
  | newClients c => rfl
  | closingClients c => rfl
  | Notifier e =>
    rw [listenStep_notifier_eq, h]
    rfl

/-- A completed step of `ListenStep` ends in the index that `Listen` gives. -/
theorem listenStep_clients (s s' : BrokerState T) (r : BrokerReq T) (log : List (Send T))
    (h : ListenStep s r = .ok (s', log)) : s'.clients = (Listen s.clients r).1 := by
  cases r with
  | newClients c =>
    simp only [ListenStep, Except.ok.injEq, Prod.mk.injEq] at h
    rw [← h.1]
  | closingClients c =>
    simp only [ListenStep, Except.ok.injEq, Prod.mk.injEq] at h
    rw [← h.1]
  | Notifier e =>
    rw [listenStep_notifier_eq] at h
    cases hr : runSends s.chans (Listen s.clients (.Notifier e)).2 with
    | error st =>
      rw [hr] at h
      simp at h
    | ok res =>
      rw [hr] at h
      simp only [Except.ok.injEq, Prod.mk.injEq] at h
      rw [← h.1]
      rfl

/-- The index after a completed run of `ListenStep` is the index that `runBroker` gives:
every index that the Broker reaches is among those of `runBroker`. -/
theorem runBrokerSteps_clients (rs : List (BrokerReq T)) (s s' : BrokerState T)
    (h : runBrokerSteps s rs = .ok s') : s'.clients = runBroker s.clients rs := by
  induction rs generalizing s with
  | nil =>
    simp only [runBrokerSteps, Except.ok.injEq] at h
    rw [← h]
    rfl
  | cons r rs ih =>
    cases hM : ListenStep s r with
    | error st => simp [runBrokerSteps, hM] at h
    | ok res =>
      obtain ⟨s1, log⟩ := res
      simp only [runBrokerSteps, hM] at h
      rw [ih s1 h, listenStep_clients s s1 r log hM]
      rfl

/-- A list of send statements on open outboxes, each with room for the sends it gets,
is executed to the end: every send completes, no outbox is closed, and the outboxes
that get no send are unchanged. -/
theorem runSends_ok (l : List (Send T)) (chans : OutChans T)
    (hopen : ∀ d ∈ l, (chans d.conn.Chan).closed = false)
    (hroom : ∀ ch, l.countP (fun d => decide (d.conn.Chan = ch)) ≤ (chans ch).room) :
    ∃ chans', runSends chans l = .ok (chans', l) ∧
      (∀ ch, (chans' ch).closed = (chans ch).closed) ∧
      (∀ ch, (∀ d ∈ l, d.conn.Chan ≠ ch) → chans' ch = chans ch) := by
  induction l generalizing chans with
  | nil => exact ⟨chans, rfl, fun _ => rfl, fun _ _ => rfl⟩
  | cons d ds ih =>
    have hd : (chans d.conn.Chan).closed = false := hopen d (List.mem_cons_self _ _)
    have hr : 0 < (chans d.conn.Chan).room := by
      have := hroom d.conn.Chan
      simp only [List.countP_cons, decide_True, if_true] at this
      omega
    obtain ⟨chans1, h1⟩ : ∃ chans1 : OutChans T, chans1 =
        Function.update chans d.conn.Chan ((chans d.conn.Chan).take d.event) := ⟨_, rfl⟩
    have hne : ∀ ch, ch ≠ d.conn.Chan → chans1 ch = chans ch := by
      intro ch hch
      rw [h1, Function.update_noteq hch]
    have hsame : chans1 d.conn.Chan = (chans d.conn.Chan).take d.event := by
      rw [h1, Function.update_same]
    have hcl : ∀ ch, (chans1 ch).closed = (chans ch).closed := by
      intro ch
      by_cases hch : ch = d.conn.Chan
      · rw [hch, hsame, take_closed]
      · rw [hne ch hch]
    have hopen1 : ∀ d' ∈ ds, (chans1 d'.conn.Chan).closed = false := by
      intro d' hd'
      rw [hcl]
      exact hopen d' (List.mem_cons_of_mem _ hd')
    have hroom1 : ∀ ch, ds.countP (fun d' => decide (d'.conn.Chan = ch))
        ≤ (chans1 ch).room := by
      intro ch
      have := hroom ch
      by_cases hch : ch = d.conn.Chan
      · subst hch
        have hrt := room_take (chans d.conn.Chan) d.event hr
        simp only [List.countP_cons, decide_True, if_true] at this
        rw [hsame]
        omega
      · have hch' : ¬ d.conn.Chan = ch := fun e => hch e.symm
        simp only [List.countP_cons, hch', decide_False] at this
        rw [hne ch hch]
        simpa using this
    obtain ⟨chans', h2, h3, h4⟩ := ih chans1 hopen1 hroom1
    refine ⟨chans', ?_, ?_, ?_⟩
    · simp only [runSends, chanSend_ok chans d.conn.Chan d.event hd hr, ← h1, h2]
    · intro ch
      rw [h3, hcl]
    · intro ch hch
      rw [h4 ch (fun d' hd' => hch d' (List.mem_cons_of_mem _ hd')),
        hne ch (fun e => hch d (List.mem_cons_self _ _) e.symm)]

theorem chanSend_eq_ok (chans chans1 : OutChans T) (ch : Nat) (e : Event T)
    (h : chanSend chans ch e = .ok chans1) :
    chans1 = Function.update chans ch ((chans ch).take e) := by
  unfold chanSend at h
  split at h
  · simp at h
  · split at h
    · simp only [Except.ok.injEq] at h
      exact h.symm
    · simp at h

/-- After a completed list of sends, an outbox has taken, in order, the events of the
sends on it. -/
theorem runSends_state (l : List (Send T)) (chans chans' : OutChans T)
    (log : List (Send T)) (h : runSends chans l = .ok (chans', log)) (ch : Nat) :
    chans' ch = (l.filter (fun d => decide (d.conn.Chan = ch))).foldl
      (fun ob d => ob.take d.event) (chans ch) := by
  induction l generalizing chans chans' log with
  | nil =>
    simp only [runSends, Except.ok.injEq, Prod.mk.injEq] at h
    rw [← h.1]
    rfl
  | cons d ds ih =>
    rw [runSends_cons] at h
    cases hc : chanSend chans d.conn.Chan d.event with
    | error st =>
      rw [hc] at h
      simp at h
    | ok chans1 =>
      rw [hc] at h
      simp only at h
      cases hr : runSends chans1 ds with
      | error st =>
        rw [hr] at h
        simp at h
      | ok res =>
        obtain ⟨chans2, log2⟩ := res
        rw [hr] at h
        simp only [Except.ok.injEq, Prod.mk.injEq] at h
        rw [← h.1, ih chans1 chans2 log2 hr, chanSend_eq_ok chans chans1 _ _ hc]
        by_cases hch : d.conn.Chan = ch
        · subst hch
          simp [List.filter_cons]
        · simp [List.filter_cons, hch, Function.update_noteq (fun e => hch e.symm)]

theorem foldl_take_const (e : Event T) (l : List (Send T)) (h : ∀ d ∈ l, d.event = e)
    (ob : Outbox T) :
    l.foldl (fun ob d => ob.take d.event) ob = (fun ob => ob.take e)^[l.length] ob := by
  induction l generalizing ob with
  | nil => rfl
  | cons d ds ih =>
    have hd : d.event = e := h d (List.mem_cons_self _ _)
    simp only [List.foldl_cons, List.length_cons, Function.iterate_succ_apply]
    rw [hd]
    exact ih (fun d' hd' => h d' (List.mem_cons_of_mem _ hd')) _

/-- An outbox without waiting reader that takes `n` times the event `e` has them at the
end of its buffer. -/
theorem iterate_take_buf (e : Event T) (n : Nat) (ob : Outbox T) (h : ob.recvq = 0) :
    ((fun ob => ob.take e)^[n] ob).buf = ob.buf ++ List.replicate n e := by
  induction n generalizing ob with
  | zero => simp
  | succ n ih =>
    have ht : ob.take e = { ob with buf := ob.buf ++ [e] } := by
      simp [Outbox.take, h]
    rw [Function.iterate_succ_apply, ht, ih { ob with buf := ob.buf ++ [e] } h]
    simp [List.replicate_succ]

end BrokerChannelTheorems

/-! ## Event Broker: delivery -/

section BrokerDelivery

variable {T : Type} [DecidableEq T]

/-- What `Listen` lists for `Publish(e)` are sends of `e` to registered connections under
a target of `e`. -/
theorem sends_registered (clients : Index T) (hkey : TargetKeyed clients) (e : Event T)
    (d : Send T) (hd : d ∈ (Listen clients (.Notifier e)).2) :
    d.event = e ∧ Registered clients d.conn ∧ d.conn.Target ∈ e.Targets := by
  obtain ⟨h1, t, ht, hb⟩ := (mem_publish clients e d).mp hd
  refine ⟨h1, ⟨t, hb⟩, ?_⟩
  rw [inBucket_target_eq hkey hb]
  exact ht

/-- With private outboxes, the send statements of `Publish(e)` on the outbox of a
registered connection `c` are those of `c`: one per occurrence of `c.Target`. -/
theorem sends_on_outbox (clients : Index T) (hwf : IndexWF clients)
    (hkey : TargetKeyed clients) (hpriv : PrivateOutbox clients) (e : Event T)
    (c : Connection T) (hc : Registered clients c) :
    (Listen clients (.Notifier e)).2.countP (fun d => decide (d.conn.Chan = c.Chan))
      = e.Targets.count c.Target := by
  have hcount : (Listen clients (.Notifier e)).2.count ⟨c, e⟩ = e.Targets.count c.Target :=
    count_publish clients hwf hkey c hc e e.Targets
  rw [← hcount, List.count_eq_countP]
  apply List.countP_congr
  intro d hd
  obtain ⟨h1, h2, _⟩ := sends_registered clients hkey e d hd
  simp only [decide_eq_true_eq, beq_iff_eq]
  constructor
  · intro hch
    have hdc : d.conn = c := hpriv d.conn c h2 hc hch
    cases d
    simp only at hdc h1
    rw [hdc, h1]
  · intro hdc
    rw [hdc]

/-- `Publish(e)` completes when the outbox of each registered connection under a target
of `e` is open and has room for one event per occurrence of that target, outboxes being
private. The sends completed are those that `Listen` lists; no outbox is closed, and an
outbox that gets no send is unchanged. -/
theorem publish_completes (s : BrokerState T) (e : Event T)
    (hwf : IndexWF s.clients) (hkey : TargetKeyed s.clients)
    (hpriv : PrivateOutbox s.clients)
    (hopen : ∀ c, Registered s.clients c → c.Target ∈ e.Targets →
      (s.chans c.Chan).closed = false)
    (hroom : ∀ c, Registered s.clients c →
      e.Targets.count c.Target ≤ (s.chans c.Chan).room) :
    ∃ chans', ListenStep s (.Notifier e)
        = .ok (⟨s.clients, chans'⟩, (Listen s.clients (.Notifier e)).2) ∧
      (∀ ch, (chans' ch).closed = (s.chans ch).closed) ∧
      (∀ ch, (∀ d ∈ (Listen s.clients (.Notifier e)).2, d.conn.Chan ≠ ch) →
        chans' ch = s.chans ch) ∧
      (∀ ch, chans' ch = (fun ob => ob.take e)^[(Listen s.clients (.Notifier e)).2.countP
        (fun d => decide (d.conn.Chan = ch))] (s.chans ch)) := by
  have h1 : ∀ d ∈ (Listen s.clients (.Notifier e)).2,
      (s.chans d.conn.Chan).closed = false := by
    intro d hd
    obtain ⟨_, h2, h3⟩ := sends_registered s.clients hkey e d hd
    exact hopen d.conn h2 h3
  have h2 : ∀ ch, (Listen s.clients (.Notifier e)).2.countP
      (fun d => decide (d.conn.Chan = ch)) ≤ (s.chans ch).room := by
    intro ch
    by_cases hex : ∃ c, Registered s.clients c ∧ c.Chan = ch
    · obtain ⟨c, hc, rfl⟩ := hex
      rw [sends_on_outbox s.clients hwf hkey hpriv e c hc]
      exact hroom c hc
    · have : (Listen s.clients (.Notifier e)).2.countP
          (fun d => decide (d.conn.Chan = ch)) = 0 := by
        rw [List.countP_eq_zero]
        intro d hd hch
        simp only [decide_eq_true_eq] at hch
        exact hex ⟨d.conn, (sends_registered s.clients hkey e d hd).2.1, hch⟩
      rw [this]
      exact Nat.zero_le _
  obtain ⟨chans', h3, h4, h5⟩ := runSends_ok _ s.chans h1 h2
  refine ⟨chans', ?_, h4, h5, ?_⟩
  · rw [listenStep_notifier_eq, h3]
  · intro ch
    rw [runSends_state _ s.chans chans' _ h3 ch, List.countP_eq_length_filter]
    apply foldl_take_const
    intro d hd
    exact (sends_registered s.clients hkey e d (List.mem_filter.mp hd).1).1

theorem scenarioA_registered_iff (c : Connection String) :
    Registered scenarioA c ↔ c = ⟨"u1", 1⟩ ∨ c = ⟨"u2", 2⟩ := by
  constructor
  · rintro ⟨k, cm, hg, hc⟩
    have hm := AL.mem_of_get? hg
    rw [scenarioA_eq] at hm
    simp only [List.mem_cons, Prod.mk.injEq, List.mem_singleton, List.not_mem_nil,
      or_false] at hm
    rcases hm with ⟨_, rfl⟩ | ⟨_, rfl⟩
    · left
      simpa [AL.keys] using hc
    · right
      simpa [AL.keys] using hc
  · rintro (rfl | rfl)
    · exact scenarioA_registered
    · rw [scenarioA_eq]
      exact ⟨"u2", [(⟨"u2", 2⟩, true)], by decide, by decide⟩

theorem scenarioA_private : PrivateOutbox scenarioA := by
  intro c d hc hd hch
  rcases (scenarioA_registered_iff c).mp hc with rfl | rfl <;>
    rcases (scenarioA_registered_iff d).mp hd with rfl | rfl
  · rfl
  · exact absurd hch (by decide)
  · exact absurd hch (by decide)
  · rfl

/-- C1 as stated fails. In scenario A the connection `C1` is registered under "u1", a
target of the ping. With outbox 1 closed, processing `Publish` panics on the send; with
unbuffered outboxes on which no reader waits, the send blocks and the step does not
complete: in both cases the event is not handed to the outbox of `C1`. And when a
connection registered only under "u2" shares outbox 1 with a connection registered under
"u1", its outbox receives the ping although "u2" is not a target. -/
theorem publish_targeted_delivery_counterexample :
    Registered scenarioA ⟨"u1", 1⟩ ∧ "u1" ∈ ping.Targets ∧
    ListenStep ⟨scenarioA, closedOne⟩ (.Notifier ping) = .error .sendOnClosedChannel ∧
    ListenStep ⟨scenarioA, openChans 0⟩ (.Notifier ping) = .error .blocked ∧
    (∃ s' log, ListenStep ⟨sharedIndex, openChans 1⟩ (.Notifier ping) = .ok (s', log) ∧
      InBucket sharedIndex "u2" ⟨"u2", 1⟩ ∧ "u2" ∉ ping.Targets ∧
      (s'.chans (⟨"u2", 1⟩ : Connection String).Chan).buf = [ping]) :=
  ⟨scenarioA_registered, by decide, by rfl, by rfl,
    _, _, rfl, ⟨[(⟨"u2", 1⟩, true)], by decide, by decide⟩, by decide, by decide⟩

/-- C1 (amended). Let the index be a valid map whose buckets hold the connections of their
own key, with private outboxes (no two registered connections share a channel), and let
the outbox of each registered connection under a target of `e` be open and have room (a
waiting reader or a free buffer place) for one event per occurrence of that target. Then
processing `Publish(e)` completes and leaves the index unchanged; the outbox of a
registered connection `c` is sent `e` exactly when `c.Target` occurs in `e.Targets`;
every send carries `e` and goes to a registered connection; the outbox of a connection
whose target is not in `e.Targets` gets no send and is unchanged; a target without bucket
gives no send. With `Targets = [A]` the outbox of every connection of bucket `A` is sent
`e`, and that of a connection of a bucket `B ≠ A` gets nothing. -/
theorem publish_targeted_delivery (s : BrokerState T) (e : Event T)
    (hwf : IndexWF s.clients) (hkey : TargetKeyed s.clients)
    (hpriv : PrivateOutbox s.clients)
    (hopen : ∀ c, Registered s.clients c → c.Target ∈ e.Targets →
      (s.chans c.Chan).closed = false)
    (hroom : ∀ c, Registered s.clients c →
      e.Targets.count c.Target ≤ (s.chans c.Chan).room) :
    ∃ s' log, ListenStep s (.Notifier e) = .ok (s', log) ∧
      s'.clients = s.clients ∧
      (∀ c, Registered s.clients c →
        ((∃ d ∈ log, d.conn.Chan = c.Chan ∧ d.event = e) ↔ c.Target ∈ e.Targets)) ∧
      (∀ c, Registered s.clients c → (⟨c, e⟩ ∈ log ↔ c.Target ∈ e.Targets)) ∧
      (∀ d ∈ log, d.event = e ∧ Registered s.clients d.conn) ∧
      (∀ c, Registered s.clients c → c.Target ∉ e.Targets →
        (∀ d ∈ log, d.conn.Chan ≠ c.Chan) ∧ s'.chans c.Chan = s.chans c.Chan) ∧
      (∀ t, AL.get? s.clients t = none →
        SendEventTo s.clients s.chans t e = .ok (s.chans, [])) ∧
      (∀ A, e.Targets = [A] →
        (∀ c, InBucket s.clients A c → ∃ d ∈ log, d.conn.Chan = c.Chan ∧ d.event = e) ∧
        (∀ B c, B ≠ A → InBucket s.clients B c →
          (∀ d ∈ log, d.conn.Chan ≠ c.Chan) ∧ s'.chans c.Chan = s.chans c.Chan)) := by
  obtain ⟨chans', hrun, _, hsame, _⟩ := publish_completes s e hwf hkey hpriv hopen hroom
  have hconn : ∀ c, Registered s.clients c →
      (⟨c, e⟩ ∈ (Listen s.clients (.Notifier e)).2 ↔ c.Target ∈ e.Targets) := by
    intro c hc
    rw [mem_publish]
    constructor
    · rintro ⟨_, t, ht, hb⟩
      have := inBucket_target_eq hkey hb
      simp only at this
      rw [this]
      exact ht
    · intro ht
      exact ⟨rfl, c.Target, ht, registered_inBucket_target hkey hc⟩
  have hchan : ∀ c, Registered s.clients c →
      ((∃ d ∈ (Listen s.clients (.Notifier e)).2, d.conn.Chan = c.Chan ∧ d.event = e) ↔
        c.Target ∈ e.Targets) := by
    intro c hc
    constructor
    · rintro ⟨d, hd, hch, _⟩
      obtain ⟨_, h2, h3⟩ := sends_registered s.clients hkey e d hd
      rw [← hpriv d.conn c h2 hc hch]
      exact h3
    · intro ht
      exact ⟨⟨c, e⟩, (hconn c hc).mpr ht, rfl, rfl⟩
  have hnone : ∀ c, Registered s.clients c → c.Target ∉ e.Targets →
      (∀ d ∈ (Listen s.clients (.Notifier e)).2, d.conn.Chan ≠ c.Chan) ∧
        chans' c.Chan = s.chans c.Chan := by
    intro c hc hnt
    have h1 : ∀ d ∈ (Listen s.clients (.Notifier e)).2, d.conn.Chan ≠ c.Chan := by
      intro d hd hch
      obtain ⟨h1, _, _⟩ := sends_registered s.clients hkey e d hd
      exact hnt ((hchan c hc).mp ⟨d, hd, hch, h1⟩)
    exact ⟨h1, hsame c.Chan h1⟩
  refine ⟨⟨s.clients, chans'⟩, _, hrun, rfl, hchan, hconn, ?_, hnone, ?_, ?_⟩
  · intro d hd
    obtain ⟨h1, h2, _⟩ := sends_registered s.clients hkey e d hd
    exact ⟨h1, h2⟩
  · intro t ht
    simp [SendEventTo, ht]
  · intro A hA
    constructor
    · intro c hc
      refine (hchan c ⟨A, hc⟩).mpr ?_
      rw [inBucket_target_eq hkey hc, hA]
      exact List.mem_singleton.mpr rfl
    · intro B c hBA hc
      refine hnone c ⟨B, hc⟩ ?_
      rw [inBucket_target_eq hkey hc, hA, List.mem_singleton]
      exact hBA

/-- Witness of C1 (amended), scenario A of the spec with empty open outboxes of
capacity 1: the outbox of `C1` is sent the ping, that of `C2` gets nothing. -/
theorem publish_targeted_delivery_witness :
    ∃ s' log, ListenStep ⟨scenarioA, openChans 1⟩ (.Notifier ping) = .ok (s', log) ∧
      (∃ d ∈ log, d.conn.Chan = 1 ∧ d.event = ping) ∧
      (∀ d ∈ log, d.conn.Chan ≠ 2) ∧ s'.chans 2 = openChans 1 2 := by
  obtain ⟨s', log, h1, _, h3, _, _, h6, _⟩ :=
    publish_targeted_delivery ⟨scenarioA, openChans 1⟩ ping scenarioA_wf scenarioA_keyed
      scenarioA_private (fun _ _ _ => rfl)
      (fun c _ => Nat.le_trans (List.count_le_length _ _) (Nat.le_of_eq rfl))
  have hC2 : Registered scenarioA ⟨"u2", 2⟩ := (scenarioA_registered_iff _).mpr (Or.inr rfl)
  obtain ⟨h7, h8⟩ := h6 ⟨"u2", 2⟩ hC2 (by decide)
  exact ⟨s', log, h1, (h3 ⟨"u1", 1⟩ scenarioA_registered).mpr (by decide), h7, h8⟩

/-- C2 as stated fails. In scenario A, with open outboxes of capacity 2, the connection
`C1` is registered under the target "u1" of an event whose targets are `["u1", "u1"]`;
processing `Publish` completes and delivers the event to the outbox of `C1` twice, not
exactly once. -/
theorem publish_exactly_once_counterexample :
    Registered scenarioA ⟨"u1", 1⟩ ∧
    (⟨"u1", 1⟩ : Connection String).Target ∈ pingTwice.Targets ∧
    ∃ s' log, ListenStep ⟨scenarioA, openChans 2⟩ (.Notifier pingTwice) = .ok (s', log) ∧
      log.count ⟨⟨"u1", 1⟩, pingTwice⟩ = 2 ∧
      (s'.chans 1).buf = [pingTwice, pingTwice] :=
  ⟨scenarioA_registered, by decide, _, _, rfl, by decide, by decide⟩

/-- C2 (amended). Let the index be a valid map whose buckets hold the connections of their
own key, with private outboxes (no two registered connections share a channel), and let
the outbox of each registered connection under a target of `e` be open and have room for
one event per occurrence of that target. Then processing `Publish(e)` completes, and the
number of sends of `e` on the outbox of a registered connection `c` is the number of
occurrences of `c.Target` in `e.Targets`; nothing else is sent. Hence each connection
registered under one of the targets gets `e` on its outbox exactly once when no target is
repeated. -/
theorem publish_once_per_occurrence (s : BrokerState T) (e : Event T)
    (hwf : IndexWF s.clients) (hkey : TargetKeyed s.clients)
    (hpriv : PrivateOutbox s.clients)
    (hopen : ∀ c, Registered s.clients c → c.Target ∈ e.Targets →
      (s.chans c.Chan).closed = false)
    (hroom : ∀ c, Registered s.clients c →
      e.Targets.count c.Target ≤ (s.chans c.Chan).room) :
    ∃ s' log, ListenStep s (.Notifier e) = .ok (s', log) ∧
      (∀ c, Registered s.clients c →
        log.countP (fun d => decide (d.conn.Chan = c.Chan)) = e.Targets.count c.Target) ∧
      (∀ c, Registered s.clients c → log.count ⟨c, e⟩ = e.Targets.count c.Target) ∧
      (∀ d ∈ log, d.event = e ∧ Registered s.clients d.conn) ∧
      (∀ c, Registered s.clients c →
        s'.chans c.Chan =
          (fun ob => ob.take e)^[e.Targets.count c.Target] (s.chans c.Chan)) ∧
      (∀ c, Registered s.clients c → (s.chans c.Chan).recvq = 0 →
        (s'.chans c.Chan).buf =
          (s.chans c.Chan).buf ++ List.replicate (e.Targets.count c.Target) e) ∧
      (e.Targets.Nodup → ∀ c, Registered s.clients c → c.Target ∈ e.Targets →
        log.countP (fun d => decide (d.conn.Chan = c.Chan)) = 1 ∧
        s'.chans c.Chan = (s.chans c.Chan).take e) := by
  obtain ⟨chans', hrun, _, _, hst⟩ := publish_completes s e hwf hkey hpriv hopen hroom
  have hstate : ∀ c, Registered s.clients c →
      chans' c.Chan = (fun ob => ob.take e)^[e.Targets.count c.Target] (s.chans c.Chan) := by
    intro c hc
    rw [hst c.Chan, sends_on_outbox s.clients hwf hkey hpriv e c hc]
  refine ⟨⟨s.clients, chans'⟩, _, hrun, ?_, ?_, ?_, hstate, ?_, ?_⟩
  · exact fun c hc => sends_on_outbox s.clients hwf hkey hpriv e c hc
  · exact fun c hc => count_publish s.clients hwf hkey c hc e e.Targets
  · intro d hd
    obtain ⟨h1, h2, _⟩ := sends_registered s.clients hkey e d hd
    exact ⟨h1, h2⟩
  · intro c hc hr
    show (chans' c.Chan).buf = _
    rw [hstate c hc]
    exact iterate_take_buf e _ _ hr
  · intro hnd c hc ht
    have h1 : e.Targets.count c.Target = 1 := List.count_eq_one_of_mem hnd ht
    refine ⟨?_, ?_⟩
    · rw [sends_on_outbox s.clients hwf hkey hpriv e c hc]
      exact h1
    · show chans' c.Chan = _
      rw [hstate c hc, h1]
      rfl

/-- Witness of C2 (amended), scenario A with open outboxes: two sends on the outbox of
`C1` for the targets `["u1", "u1"]` (capacity 2), one for the targets `["u1"]`
(capacity 1). -/
theorem publish_once_per_occurrence_witness :
    (∃ s' log, ListenStep ⟨scenarioA, openChans 2⟩ (.Notifier pingTwice) = .ok (s', log) ∧
      log.countP (fun d => decide (d.conn.Chan = 1)) = 2) ∧
    (∃ s' log, ListenStep ⟨scenarioA, openChans 1⟩ (.Notifier ping) = .ok (s', log) ∧
      log.countP (fun d => decide (d.conn.Chan = 1)) = 1) := by
  constructor
  · obtain ⟨s', log, h1, h2, _⟩ :=
      publish_once_per_occurrence ⟨scenarioA, openChans 2⟩ pingTwice scenarioA_wf
        scenarioA_keyed scenarioA_private (fun _ _ _ => rfl)
        (fun c _ => Nat.le_trans (List.count_le_length _ _) (Nat.le_of_eq rfl))
    exact ⟨s', log, h1, h2 ⟨"u1", 1⟩ scenarioA_registered⟩
  · obtain ⟨s', log, h1, _, _, _, _, _, h7⟩ :=
      publish_once_per_occurrence ⟨scenarioA, openChans 1⟩ ping scenarioA_wf
        scenarioA_keyed scenarioA_private (fun _ _ _ => rfl)
        (fun c _ => Nat.le_trans (List.count_le_length _ _) (Nat.le_of_eq rfl))
    exact ⟨s', log, h1, (h7 (by decide) ⟨"u1", 1⟩ scenarioA_registered (by decide)).1⟩

end BrokerDelivery

end SSE
